import Mathlib

/-!
# Verification of the agent-uac planning and synchronization engine

A shallow embedding, in Lean 4, of the core of the `agent-uac` configuration
distribution tool: the structural diff engine (`src/utils/json.ts`), the
enablement policy (`src/planner.ts`, `src/skills.ts`), the secret resolver
(`src/secrets.ts`), the agent adapters (`src/adapters/*`), the planner
(`src/planner.ts`) and the sync/snapshot/rollback engine (`src/sync.ts`),
together with proofs and refutations of the specified properties.

Conventions of the embedding:
* JavaScript runtime values that flow through the generic JSON-shaped code
  are modelled by the inductive `JValue`; objects are association lists in
  insertion order (JavaScript objects preserve insertion order, and
  `Object.keys`/`Object.entries` iterate in that order).
* JavaScript string sorting (`Array.prototype.sort` on strings) is
  lexicographic comparison of the character sequences, modelled by the
  executable comparison `charsLe` / `strLe`.
* The filesystem is an association list from absolute path strings to file
  data, and every effectful operation of the TypeScript code is modelled by
  a state-passing function that also records the operation in a trace, so
  that ordering/atomicity properties can be stated about the trace.
* Numbers inside JSON documents are modelled as integers; nothing in the
  verified code computes with them.
-/

/-! ## Lexicographic string comparison (JS `Array.sort` on strings) -/

/-- Lexicographic `≤` on character lists, as an executable boolean. -/
def charsLe : List Char → List Char → Bool
  | [], _ => true
  | _ :: _, [] => false
  | a :: as, b :: bs => if a < b then true else if b < a then false else charsLe as bs

/-- Lexicographic `≤` on strings (the order JavaScript's string sort uses). -/
def strLe (a b : String) : Bool := charsLe a.data b.data

/-- `strLe` as a relation, used with `List.insertionSort`. -/
def strLeR (a b : String) : Prop := strLe a b = true

instance : DecidableRel strLeR := fun a b => inferInstanceAs (Decidable (strLe a b = true))

theorem charsLe_cons_iff (a b : Char) (as bs : List Char) :
    charsLe (a :: as) (b :: bs) = true ↔ a < b ∨ (a = b ∧ charsLe as bs = true) := by
  simp only [charsLe]
  rcases lt_trichotomy a b with h | h | h
  · simp [h]
  · subst h; simp [lt_irrefl]
  · simp [asymm h, h, ne_of_gt h]

theorem charsLe_total : ∀ a b : List Char, charsLe a b = true ∨ charsLe b a = true
  | [], _ => Or.inl rfl
  | _ :: _, [] => Or.inr rfl
  | a :: as, b :: bs => by
    rw [charsLe_cons_iff, charsLe_cons_iff]
    rcases lt_trichotomy a b with h | h | h
    · exact Or.inl (Or.inl h)
    · subst h
      rcases charsLe_total as bs with ih | ih
      · exact Or.inl (Or.inr ⟨rfl, ih⟩)
      · exact Or.inr (Or.inr ⟨rfl, ih⟩)
    · exact Or.inr (Or.inl h)

theorem charsLe_trans : ∀ a b c : List Char,
    charsLe a b = true → charsLe b c = true → charsLe a c = true
  | [], _, _, _, _ => rfl
  | _ :: _, [], _, hab, _ => by simp [charsLe] at hab
  | _ :: _, _ :: _, [], _, hbc => by simp [charsLe] at hbc
  | a :: as, b :: bs, c :: cs, hab, hbc => by
    rw [charsLe_cons_iff] at hab hbc ⊢
    rcases hab with h1 | ⟨rfl, h1⟩
    · rcases hbc with h2 | ⟨rfl, h2⟩
      · exact Or.inl (lt_trans h1 h2)
      · exact Or.inl h1
    · rcases hbc with h2 | ⟨rfl, h2⟩
      · exact Or.inl h2
      · exact Or.inr ⟨rfl, charsLe_trans as bs cs h1 h2⟩

theorem charsLe_antisymm : ∀ a b : List Char,
    charsLe a b = true → charsLe b a = true → a = b
  | [], [], _, _ => rfl
  | [], _ :: _, _, hba => by simp [charsLe] at hba
  | _ :: _, [], hab, _ => by simp [charsLe] at hab
  | a :: as, b :: bs, hab, hba => by
    rw [charsLe_cons_iff] at hab hba
    rcases hab with h1 | ⟨rfl, h1⟩
    · rcases hba with h2 | ⟨h2, _⟩
      · exact absurd h1 (asymm h2)
      · exact absurd h2 (ne_of_gt h1)
    · rcases hba with h2 | ⟨_, h2⟩
      · exact absurd h2 (lt_irrefl a)
      · rw [charsLe_antisymm as bs h1 h2]

theorem strLe_total (a b : String) : strLe a b = true ∨ strLe b a = true :=
  charsLe_total a.data b.data

theorem strLe_trans {a b c : String} (h₁ : strLe a b = true) (h₂ : strLe b c = true) :
    strLe a c = true :=
  charsLe_trans a.data b.data c.data h₁ h₂

theorem strLe_antisymm {a b : String} (h₁ : strLe a b = true) (h₂ : strLe b a = true) :
    a = b := by
  apply String.ext
  exact charsLe_antisymm a.data b.data h₁ h₂

instance : IsTotal String strLeR := ⟨strLe_total⟩

instance : IsTrans String strLeR := ⟨fun _ _ _ h₁ h₂ => strLe_trans h₁ h₂⟩

instance : IsAntisymm String strLeR := ⟨fun _ _ h₁ h₂ => strLe_antisymm h₁ h₂⟩

/-! ## JSON-shaped runtime values -/

/-- A JavaScript runtime value of the JSON shape handled by the generic
utilities (`sortValue`, `resolveValue`). Object fields are kept in insertion
order, as JavaScript objects do. -/
inductive JValue where
  | null : JValue
  | bool (b : Bool) : JValue
  | num (n : Int) : JValue
  | str (s : String) : JValue
  | arr (elems : List JValue) : JValue
  | obj (fields : List (String × JValue)) : JValue
deriving Repr

/-- Key order used by `sortValue` on object fields: compare keys only. -/
def fieldLe (p q : String × JValue) : Prop := strLe p.1 q.1 = true

instance : DecidableRel fieldLe := fun p q => inferInstanceAs (Decidable (strLe p.1 q.1 = true))

instance : IsTotal (String × JValue) fieldLe := ⟨fun a b => strLe_total a.1 b.1⟩

instance : IsTrans (String × JValue) fieldLe := ⟨fun _ _ _ h₁ h₂ => strLe_trans h₁ h₂⟩

mutual

/-- `sortValue` from `src/utils/json.ts`: recursively sorts object keys and
maps over arrays (preserving element order). -/
def sortValue : JValue → JValue
  | .null => .null
  | .bool b => .bool b
  | .num n => .num n
  | .str s => .str s
  | .arr xs => .arr (sortList xs)
  | .obj fs => .obj (List.insertionSort fieldLe (sortFields fs))

/-- `value.map((entry) => sortValue(entry))` for arrays. -/
def sortList : List JValue → List JValue
  | [] => []
  | x :: xs => sortValue x :: sortList xs

/-- Recursing into the values of an object's fields (the keys are then
sorted by `sortValue`; sorting and recursing commute since the sort
compares keys only). -/
def sortFields : List (String × JValue) → List (String × JValue)
  | [] => []
  | (k, v) :: fs => (k, sortValue v) :: sortFields fs

end

theorem sortList_eq_map (xs : List JValue) : sortList xs = xs.map sortValue := by
  induction xs with
  | nil => rfl
  | cons x xs ih => simp [sortList, ih]

theorem sortFields_eq_map (fs : List (String × JValue)) :
    sortFields fs = fs.map (fun p => (p.1, sortValue p.2)) := by
  induction fs with
  | nil => rfl
  | cons p fs ih =>
    obtain ⟨k, v⟩ := p
    simp [sortFields, ih]

/-! ## JSON serialization (`JSON.stringify` over sorted values) -/

/-- Escaping of one character inside a JSON string literal (the escapes
`JSON.stringify` emits for the characters appearing in config data). -/
def escapeChar (c : Char) : String :=
  if c = '"' then "\\\""
  else if c = '\\' then "\\\\"
  else if c = '\n' then "\\n"
  else if c = '\r' then "\\r"
  else if c = '\t' then "\\t"
  else String.mk [c]

/-- A JSON string literal. -/
def quoteJson (s : String) : String :=
  "\"" ++ String.join (s.data.map escapeChar) ++ "\""

mutual

/-- `JSON.stringify` on a `JValue` (no spacing, as in `stableStringify`). -/
def serializeJson : JValue → String
  | .null => "null"
  | .bool b => if b then "true" else "false"
  | .num n => toString n
  | .str s => quoteJson s
  | .arr xs => "[" ++ serializeList xs ++ "]"
  | .obj fs => "\x7b" ++ serializeFields fs ++ "\x7d"

def serializeList : List JValue → String
  | [] => ""
  | [x] => serializeJson x
  | x :: y :: xs => serializeJson x ++ "," ++ serializeList (y :: xs)

def serializeFields : List (String × JValue) → String
  | [] => ""
  | [(k, v)] => quoteJson k ++ ":" ++ serializeJson v
  | (k, v) :: q :: fs => quoteJson k ++ ":" ++ serializeJson v ++ "," ++ serializeFields (q :: fs)

end

/-- `stableStringify` from `src/utils/json.ts`:
`JSON.stringify(sortValue(value))`. -/
def stableStringify (v : JValue) : String := serializeJson (sortValue v)

/-! ## The diff engine (`diffServerMaps` from `src/utils/json.ts`) -/

/-- The diff record returned by `diffServerMaps` (`ServerDiff` in
`src/types.ts`). -/
structure ServerDiff where
  added : List String
  removed : List String
  changed : List String
  unchanged : Nat
deriving Repr, DecidableEq

/-- Keys of an id → value record, in insertion order (`Object.keys`). -/
def keysOf (m : List (String × JValue)) : List String := m.map Prod.fst

/-- Indexing a record: `m[id]`. -/
def jlookup : List (String × JValue) → String → Option JValue
  | [], _ => none
  | (k, v) :: rest, id => if k = id then some v else jlookup rest id

/-- The first loop of `diffServerMaps`: walk the desired ids in order,
classifying each as added, changed, or unchanged (a count). -/
def diffLoop (current : List (String × JValue)) :
    List (String × JValue) → List String × List String × Nat
  | [] => ([], [], 0)
  | (id, v) :: rest =>
    let acc := diffLoop current rest
    match jlookup current id with
    | none => (id :: acc.1, acc.2.1, acc.2.2)
    | some cv =>
      if stableStringify cv = stableStringify v then (acc.1, acc.2.1, acc.2.2 + 1)
      else (acc.1, id :: acc.2.1, acc.2.2)

/-- The second loop of `diffServerMaps`: current ids absent from desired. -/
def removedIds (current desired : List (String × JValue)) : List String :=
  (keysOf current).filter (fun id => !((keysOf desired).contains id))

/-- `added.sort()` etc.: JavaScript's lexicographic string sort. -/
def strSort (l : List String) : List String := List.insertionSort strLeR l

/-- `diffServerMaps` from `src/utils/json.ts`. -/
def diffServerMaps (current desired : List (String × JValue)) : ServerDiff :=
  let t := diffLoop current desired
  { added := strSort t.1
    removed := strSort (removedIds current desired)
    changed := strSort t.2.1
    unchanged := t.2.2 }

/-- `hasDiff` from `src/utils/json.ts`. -/
def hasDiff (d : ServerDiff) : Bool :=
  (d.added.length != 0) || (d.removed.length != 0) || (d.changed.length != 0)

/-! ## Properties of the diff engine -/

theorem jlookup_none_iff (m : List (String × JValue)) (id : String) :
    jlookup m id = none ↔ id ∉ keysOf m := by
  induction m with
  | nil => simp [jlookup, keysOf]
  | cons p rest ih =>
    obtain ⟨k, v⟩ := p
    by_cases h : k = id
    · subst h; simp [jlookup, keysOf]
    · simp [jlookup, h, keysOf, ih, Ne.symm h]

theorem jlookup_isSome_iff (m : List (String × JValue)) (id : String) :
    (jlookup m id).isSome = true ↔ id ∈ keysOf m := by
  rcases h : jlookup m id with _ | v
  · simpa using (jlookup_none_iff m id).mp h
  · simp only [Option.isSome_some, true_iff]
    by_contra hmem
    rw [← jlookup_none_iff] at hmem
    rw [h] at hmem
    exact Option.noConfusion hmem

theorem jlookup_self (m : List (String × JValue)) (hnd : (keysOf m).Nodup) :
    ∀ p ∈ m, jlookup m p.1 = some p.2 := by
  induction m with
  | nil => intro p hp; exact absurd hp (List.not_mem_nil p)
  | cons q rest ih =>
    obtain ⟨k, v⟩ := q
    simp only [keysOf, List.map_cons, List.nodup_cons] at hnd
    intro p hp
    rcases List.mem_cons.mp hp with h | h
    · subst h; simp [jlookup]
    · have hk : k ≠ p.1 := by
        intro hkp
        exact hnd.1 (hkp ▸ (List.mem_map.mpr ⟨p, h, rfl⟩))
      simp [jlookup, hk]
      exact ih hnd.2 p h

theorem diffLoop_self (current : List (String × JValue)) :
    ∀ l : List (String × JValue), (∀ p ∈ l, jlookup current p.1 = some p.2) →
      diffLoop current l = ([], [], l.length) := by
  intro l
  induction l with
  | nil => intro _; rfl
  | cons p rest ih =>
    obtain ⟨k, v⟩ := p
    intro h
    have hk := h (k, v) (List.mem_cons_self _ _)
    have hrest := ih (fun q hq => h q (List.mem_cons_of_mem _ hq))
    simp [diffLoop, hrest, hk]

theorem diffLoop_count (current : List (String × JValue)) :
    ∀ l : List (String × JValue),
      (diffLoop current l).1.length + (diffLoop current l).2.1.length +
        (diffLoop current l).2.2 = l.length := by
  intro l
  induction l with
  | nil => rfl
  | cons p rest ih =>
    obtain ⟨k, v⟩ := p
    simp only [diffLoop]
    rcases h : jlookup current k with _ | cv
    · simpa using by omega
    · by_cases he : stableStringify cv = stableStringify v
      · simp [he]; omega
      · simp [he]; omega

theorem diffLoop_added_mem (current : List (String × JValue)) (id : String) :
    ∀ l : List (String × JValue),
      (id ∈ (diffLoop current l).1 ↔ id ∈ keysOf l ∧ jlookup current id = none) := by
  intro l
  induction l with
  | nil => simp [diffLoop, keysOf]
  | cons p rest ih =>
    obtain ⟨k, v⟩ := p
    simp only [diffLoop, keysOf, List.map_cons]
    rcases h : jlookup current k with _ | cv
    · constructor
      · intro hm
        rcases List.mem_cons.mp hm with rfl | hm
        · exact ⟨List.mem_cons_self _ _, h⟩
        · have := ih.mp hm
          exact ⟨List.mem_cons_of_mem _ this.1, this.2⟩
      · intro ⟨hm, hl⟩
        rcases List.mem_cons.mp hm with rfl | hm
        · exact List.mem_cons_self _ _
        · exact List.mem_cons_of_mem _ (ih.mpr ⟨hm, hl⟩)
    · by_cases he : stableStringify cv = stableStringify v
      · simp only [he, if_true]
        constructor
        · intro hm
          have := ih.mp hm
          exact ⟨List.mem_cons_of_mem _ this.1, this.2⟩
        · intro ⟨hm, hl⟩
          rcases List.mem_cons.mp hm with rfl | hm
          · rw [h] at hl; exact Option.noConfusion hl
          · exact ih.mpr ⟨hm, hl⟩
      · simp only [he, if_false]
        constructor
        · intro hm
          have := ih.mp hm
          exact ⟨List.mem_cons_of_mem _ this.1, this.2⟩
        · intro ⟨hm, hl⟩
          rcases List.mem_cons.mp hm with rfl | hm
          · rw [h] at hl; exact Option.noConfusion hl
          · exact ih.mpr ⟨hm, hl⟩

theorem diffLoop_changed_mem (current : List (String × JValue)) (id : String) :
    ∀ l : List (String × JValue),
      (id ∈ (diffLoop current l).2.1 ↔
        ∃ v, (id, v) ∈ l ∧ ∃ cv, jlookup current id = some cv ∧
          stableStringify cv ≠ stableStringify v) := by
  intro l
  induction l with
  | nil => simp [diffLoop]
  | cons p rest ih =>
    obtain ⟨k, v⟩ := p
    simp only [diffLoop]
    rcases h : jlookup current k with _ | cv
    · constructor
      · intro hm
        obtain ⟨w, hw, hcv⟩ := ih.mp hm
        exact ⟨w, List.mem_cons_of_mem _ hw, hcv⟩
      · intro ⟨w, hw, cv, hcv, hne⟩
        rcases List.mem_cons.mp hw with heq | hw
        · obtain ⟨rfl, rfl⟩ := Prod.mk.injEq .. ▸ And.intro (congrArg Prod.fst heq) (congrArg Prod.snd heq)
          rw [h] at hcv; exact Option.noConfusion hcv
        · exact ih.mpr ⟨w, hw, cv, hcv, hne⟩
    · by_cases he : stableStringify cv = stableStringify v
      · simp only [he, if_true]
        constructor
        · intro hm
          obtain ⟨w, hw, hcv⟩ := ih.mp hm
          exact ⟨w, List.mem_cons_of_mem _ hw, hcv⟩
        · intro ⟨w, hw, cv', hcv, hne⟩
          rcases List.mem_cons.mp hw with heq | hw
          · have hk : id = k := congrArg Prod.fst heq
            have hv : w = v := congrArg Prod.snd heq
            subst hk; subst hv
            rw [h] at hcv
            cases hcv
            exact absurd he hne
          · exact ih.mpr ⟨w, hw, cv', hcv, hne⟩
      · simp only [he, if_false]
        constructor
        · intro hm
          rcases List.mem_cons.mp hm with rfl | hm
          · exact ⟨v, List.mem_cons_self _ _, cv, h, he⟩
          · obtain ⟨w, hw, hcv⟩ := ih.mp hm
            exact ⟨w, List.mem_cons_of_mem _ hw, hcv⟩
        · intro ⟨w, hw, cv', hcv, hne⟩
          rcases List.mem_cons.mp hw with heq | hw
          · have hk : id = k := congrArg Prod.fst heq
            exact hk ▸ List.mem_cons_self _ _
          · exact List.mem_cons_of_mem _ (ih.mpr ⟨w, hw, cv', hcv, hne⟩)

theorem removedIds_mem (current desired : List (String × JValue)) (id : String) :
    id ∈ removedIds current desired ↔ id ∈ keysOf current ∧ id ∉ keysOf desired := by
  simp [removedIds, List.mem_filter]

theorem strSort_perm (l : List String) : (strSort l).Perm l := List.perm_insertionSort strLeR l

theorem strSort_mem (l : List String) (id : String) : id ∈ strSort l ↔ id ∈ l :=
  (strSort_perm l).mem_iff

theorem strSort_sorted (l : List String) : List.Sorted strLeR (strSort l) :=
  List.sorted_insertionSort strLeR l

/-! ## Key-order permutation equivalence

`KeyPerm a b` holds when `b` is obtained from `a` by recursively permuting
the key-insertion order of objects (at any depth), leaving keys, leaf values
and array element order untouched. This is the precise sense in which the
specification says key-order permutation must never register as a change. -/

mutual

inductive KeyPerm : JValue → JValue → Prop where
  | null : KeyPerm .null .null
  | bool (b : Bool) : KeyPerm (.bool b) (.bool b)
  | num (n : Int) : KeyPerm (.num n) (.num n)
  | str (s : String) : KeyPerm (.str s) (.str s)
  | arr {xs ys : List JValue} : KeyPermList xs ys → KeyPerm (.arr xs) (.arr ys)
  | obj {fs hs gs : List (String × JValue)} :
      fs.Perm hs → KeyPermFields hs gs → KeyPerm (.obj fs) (.obj gs)

inductive KeyPermList : List JValue → List JValue → Prop where
  | nil : KeyPermList [] []
  | cons {x y : JValue} {xs ys : List JValue} :
      KeyPerm x y → KeyPermList xs ys → KeyPermList (x :: xs) (y :: ys)

inductive KeyPermFields : List (String × JValue) → List (String × JValue) → Prop where
  | nil : KeyPermFields [] []
  | cons {k : String} {v w : JValue} {fs gs : List (String × JValue)} :
      KeyPerm v w → KeyPermFields fs gs →
      KeyPermFields ((k, v) :: fs) ((k, w) :: gs)

end

mutual

/-- Well-formedness of a JSON value as produced by JavaScript: every object
(at any depth) has pairwise-distinct keys. -/
def nodupKeysRec : JValue → Bool
  | .null => true
  | .bool _ => true
  | .num _ => true
  | .str _ => true
  | .arr xs => nodupKeysList xs
  | .obj fs => decide ((fs.map Prod.fst).Nodup) && nodupKeysFields fs

def nodupKeysList : List JValue → Bool
  | [] => true
  | x :: xs => nodupKeysRec x && nodupKeysList xs

def nodupKeysFields : List (String × JValue) → Bool
  | [] => true
  | (_, v) :: fs => nodupKeysRec v && nodupKeysFields fs

end

theorem nodupKeysList_mem {xs : List JValue} (h : nodupKeysList xs = true) :
    ∀ x ∈ xs, nodupKeysRec x = true := by
  induction xs with
  | nil => intro x hx; exact absurd hx (List.not_mem_nil x)
  | cons y ys ih =>
    simp only [nodupKeysList, Bool.and_eq_true] at h
    intro x hx
    rcases List.mem_cons.mp hx with rfl | hx
    · exact h.1
    · exact ih h.2 x hx

theorem nodupKeysFields_mem {fs : List (String × JValue)} (h : nodupKeysFields fs = true) :
    ∀ p ∈ fs, nodupKeysRec p.2 = true := by
  induction fs with
  | nil => intro p hp; exact absurd hp (List.not_mem_nil p)
  | cons q qs ih =>
    obtain ⟨k, v⟩ := q
    simp only [nodupKeysFields, Bool.and_eq_true] at h
    intro p hp
    rcases List.mem_cons.mp hp with rfl | hp
    · exact h.1
    · exact ih h.2 p hp

theorem nodupKeysFields_perm {fs gs : List (String × JValue)} (hp : fs.Perm gs)
    (h : nodupKeysFields fs = true) : nodupKeysFields gs = true := by
  have : ∀ p ∈ gs, nodupKeysRec p.2 = true := fun p hpg =>
    nodupKeysFields_mem h p (hp.symm.subset hpg)
  clear h hp
  induction gs with
  | nil => rfl
  | cons q qs ih =>
    obtain ⟨k, v⟩ := q
    simp only [nodupKeysFields, Bool.and_eq_true]
    exact ⟨this (k, v) (List.mem_cons_self _ _),
      ih (fun p hpq => this p (List.mem_cons_of_mem _ hpq))⟩

/-- Equal sorted field lists: two sorted field lists that are permutations of
one another and have pairwise-distinct keys are equal. -/
theorem eq_of_perm_sorted_nodupKeys :
    ∀ l₁ l₂ : List (String × JValue), l₁.Perm l₂ → List.Sorted fieldLe l₁ →
      List.Sorted fieldLe l₂ → (l₁.map Prod.fst).Nodup → l₁ = l₂ := by
  intro l₁
  induction l₁ with
  | nil => intro l₂ hp _ _ _; exact (hp.nil_eq).symm ▸ rfl
  | cons a l ih =>
    intro l₂ hp hs₁ hs₂ hnd
    rcases l₂ with _ | ⟨b, t⟩
    · exact absurd hp.symm.nil_eq (by simp)
    by_cases hab : b = a
    · subst hab
      have htl : l.Perm t := hp.cons_inv
      have := ih t htl (List.sorted_cons.mp hs₁).2 (List.sorted_cons.mp hs₂).2
        ((List.nodup_cons.mp (by simpa using hnd)).2)
      rw [this]
    · exfalso
      have hbmem : b ∈ a :: l := hp.symm.subset (List.mem_cons_self b t)
      have hbl : b ∈ l := by
        rcases List.mem_cons.mp hbmem with h | h
        · exact absurd h hab
        · exact h
      have hamem : a ∈ b :: t := hp.subset (List.mem_cons_self a l)
      have hat : a ∈ t := by
        rcases List.mem_cons.mp hamem with h | h
        · exact absurd h.symm hab
        · exact h
      have h₁ : fieldLe a b := (List.sorted_cons.mp hs₁).1 b hbl
      have h₂ : fieldLe b a := (List.sorted_cons.mp hs₂).1 a hat
      have hkeys : a.1 = b.1 := strLe_antisymm h₁ h₂
      have : b.1 ∈ l.map Prod.fst := List.mem_map.mpr ⟨b, hbl, rfl⟩
      rw [← hkeys] at this
      simp only [keysOf, List.map_cons, List.nodup_cons] at hnd
      exact hnd.1 this

theorem keys_sortFields (fs : List (String × JValue)) :
    (sortFields fs).map Prod.fst = fs.map Prod.fst := by
  rw [sortFields_eq_map, List.map_map]
  rfl

/-- Recursively permuting object key order never changes `sortValue`. -/
theorem keyPerm_sortValue : ∀ a b : JValue, KeyPerm a b → nodupKeysRec a = true →
    sortValue a = sortValue b := by
  have main : ∀ n : Nat, ∀ a b : JValue, sizeOf a ≤ n → KeyPerm a b →
      nodupKeysRec a = true → sortValue a = sortValue b := by
    intro n
    induction n with
    | zero =>
      intro a b hsz _ _
      exact absurd hsz (by cases a <;> simp)
    | succ n ih =>
      intro a b hsz hkp hnd
      cases hkp with
      | null => rfl
      | bool b => rfl
      | num m => rfl
      | str s => rfl
      | @arr xs ys hl =>
        simp only [sortValue]
        have hszxs : sizeOf xs ≤ n := by
          have : sizeOf (JValue.arr xs) = 1 + sizeOf xs := by simp
          omega
        have hndxs : nodupKeysList xs = true := by
          simpa only [nodupKeysRec] using hnd
        have inner : ∀ xs' : List JValue, ∀ ys' : List JValue, KeyPermList xs' ys' →
            sizeOf xs' ≤ n → nodupKeysList xs' = true → sortList xs' = sortList ys' := by
          intro xs'
          induction xs' with
          | nil => intro ys' hl' _ _; cases hl'; rfl
          | cons x txs ihtail =>
            intro ys' hl' hsz' hnd'
            cases hl' with
            | @cons _ y _ tys hxy hrest =>
              have hszcons : sizeOf (x :: txs) = 1 + sizeOf x + sizeOf txs := by simp
              simp only [nodupKeysList, Bool.and_eq_true] at hnd'
              simp only [sortList]
              rw [ih x y (by omega) hxy hnd'.1, ihtail tys hrest (by omega) hnd'.2]
        rw [inner xs ys hl hszxs hndxs]
      | @obj fs hs gs hperm hfields =>
        simp only [sortValue]
        have hnd' : (fs.map Prod.fst).Nodup ∧ nodupKeysFields fs = true := by
          simpa only [nodupKeysRec, Bool.and_eq_true, decide_eq_true_eq] using hnd
        have hszfs : sizeOf fs ≤ n := by
          have : sizeOf (JValue.obj fs) = 1 + sizeOf fs := by simp
          omega
        have hmemsz : ∀ p ∈ hs, sizeOf p.2 ≤ n := by
          intro p hp
          have hpfs : p ∈ fs := hperm.symm.subset hp
          have h1 : sizeOf p < sizeOf fs := List.sizeOf_lt_of_mem hpfs
          have h2 : sizeOf p = 1 + sizeOf p.1 + sizeOf p.2 := by
            obtain ⟨k, v⟩ := p; simp
          omega
        have hmemnd : ∀ p ∈ hs, nodupKeysRec p.2 = true := fun p hp =>
          nodupKeysFields_mem (nodupKeysFields_perm hperm hnd'.2) p hp
        have inner : ∀ hs' : List (String × JValue), ∀ gs' : List (String × JValue),
            KeyPermFields hs' gs' →
            (∀ p ∈ hs', sizeOf p.2 ≤ n ∧ nodupKeysRec p.2 = true) →
            sortFields hs' = sortFields gs' := by
          intro hs'
          induction hs' with
          | nil => intro gs' hf _; cases hf; rfl
          | cons q tfs ihtail =>
            intro gs' hf hfacts
            obtain ⟨k, v⟩ := q
            cases hf with
            | @cons _ _ w _ tgs hvw hrest =>
              have h1 := hfacts (k, v) (List.mem_cons_self _ _)
              simp only [sortFields]
              rw [ih v w h1.1 hvw h1.2,
                ihtail tgs hrest (fun p hp => hfacts p (List.mem_cons_of_mem _ hp))]
        have heq : sortFields hs = sortFields gs :=
          inner hs gs hfields (fun p hp => ⟨hmemsz p hp, hmemnd p hp⟩)
        have hperm2 : (sortFields fs).Perm (sortFields gs) := by
          rw [← heq, sortFields_eq_map, sortFields_eq_map]
          exact hperm.map _
        congr 1
        apply eq_of_perm_sorted_nodupKeys
        · exact ((List.perm_insertionSort fieldLe (sortFields fs)).trans hperm2).trans
            (List.perm_insertionSort fieldLe (sortFields gs)).symm
        · exact List.sorted_insertionSort fieldLe _
        · exact List.sorted_insertionSort fieldLe _
        · have hkeys : ((List.insertionSort fieldLe (sortFields fs)).map Prod.fst).Perm
              (fs.map Prod.fst) := by
            have h1 := (List.perm_insertionSort fieldLe (sortFields fs)).map Prod.fst
            rwa [keys_sortFields] at h1
          exact hkeys.nodup_iff.mpr hnd'.1
  intro a b hkp hnd
  exact main (sizeOf a) a b le_rfl hkp hnd

/-- Key-order permutation never registers as a change in the diff. -/
theorem diff_changed_nil_of_keyPerm (A B : List (String × JValue))
    (hB : (keysOf B).Nodup)
    (hwf : ∀ id v, jlookup A id = some v → nodupKeysRec v = true)
    (hkp : ∀ id va vb, jlookup A id = some va → jlookup B id = some vb → KeyPerm va vb) :
    (diffServerMaps A B).changed = [] := by
  have hloop : ∀ l : List (String × JValue),
      (∀ p ∈ l, ∀ cv, jlookup A p.1 = some cv → stableStringify cv = stableStringify p.2) →
      (diffLoop A l).2.1 = [] := by
    intro l
    induction l with
    | nil => intro _; rfl
    | cons p rest ih =>
      obtain ⟨k, v⟩ := p
      intro h
      simp only [diffLoop]
      rcases hcv : jlookup A k with _ | cv
      · exact ih (fun q hq => h q (List.mem_cons_of_mem _ hq))
      · have := h (k, v) (List.mem_cons_self _ _) cv hcv
        simp only [this, if_true]
        exact ih (fun q hq => h q (List.mem_cons_of_mem _ hq))
  have hmain : (diffLoop A B).2.1 = [] := by
    apply hloop
    intro p hp cv hcv
    have hB2 : jlookup B p.1 = some p.2 := jlookup_self B hB p hp
    have hk := hkp p.1 cv p.2 hcv hB2
    unfold stableStringify
    rw [keyPerm_sortValue cv p.2 hk (hwf p.1 cv hcv)]
  simp only [diffServerMaps, hmain]
  rfl

theorem strSort_length (l : List String) : (strSort l).length = l.length :=
  (strSort_perm l).length_eq

/-- C2: Diff correctness. `diffServerMaps(A,A)` is empty with `unchanged = |A|`;
for `diffServerMaps(A,B)` the added ids are exactly the keys of B absent from
A, the changed ids are exactly the common keys whose canonical serializations
differ, added/changed/unchanged together count exactly the keys of B, and the
removed ids are exactly the keys of A absent from B; recursively permuting the
key-insertion order of nested objects (the pair P, Q) never produces a changed
entry; and the added, removed and changed lists are sorted lexicographically. -/
theorem diffServerMaps_correct
    (A B P Q : List (String × JValue))
    (hA : (keysOf A).Nodup) (hQ : (keysOf Q).Nodup)
    (hPwf : ∀ id v, jlookup P id = some v → nodupKeysRec v = true)
    (hPQ : ∀ id vp vq, jlookup P id = some vp → jlookup Q id = some vq → KeyPerm vp vq) :
    diffServerMaps A A = ⟨[], [], [], A.length⟩
    ∧ (∀ id, id ∈ (diffServerMaps A B).added ↔ id ∈ keysOf B ∧ id ∉ keysOf A)
    ∧ (∀ id, id ∈ (diffServerMaps A B).changed ↔
        ∃ v, (id, v) ∈ B ∧ ∃ cv, jlookup A id = some cv ∧
          stableStringify cv ≠ stableStringify v)
    ∧ (diffServerMaps A B).added.length + (diffServerMaps A B).changed.length +
        (diffServerMaps A B).unchanged = B.length
    ∧ (∀ id, id ∈ (diffServerMaps A B).removed ↔ id ∈ keysOf A ∧ id ∉ keysOf B)
    ∧ (diffServerMaps P Q).changed = []
    ∧ List.Sorted strLeR (diffServerMaps A B).added
    ∧ List.Sorted strLeR (diffServerMaps A B).removed
    ∧ List.Sorted strLeR (diffServerMaps A B).changed := by
  refine ⟨?_, ?_, ?_, ?_, ?_, ?_, ?_, ?_, ?_⟩
  · have h1 := diffLoop_self A A (jlookup_self A hA)
    have h2 : removedIds A A = [] := by
      simp only [removedIds]
      rw [List.filter_eq_nil_iff]
      intro id hid
      simp only [Bool.not_eq_true', Bool.not_eq_false]
      exact List.elem_eq_true_of_mem hid
    simp only [diffServerMaps, h1, h2]
    rfl
  · intro id
    simp only [diffServerMaps]
    rw [strSort_mem, diffLoop_added_mem, jlookup_none_iff]
  · intro id
    simp only [diffServerMaps]
    rw [strSort_mem, diffLoop_changed_mem]
  · simp only [diffServerMaps]
    rw [strSort_length, strSort_length]
    exact diffLoop_count A B
  · intro id
    simp only [diffServerMaps]
    rw [strSort_mem, removedIds_mem]
  · exact diff_changed_nil_of_keyPerm P Q hQ hPwf hPQ
  · exact strSort_sorted _
  · exact strSort_sorted _
  · exact strSort_sorted _

theorem diffServerMaps_correct_witness :
    diffServerMaps [("a", JValue.num 1)] [("a", JValue.num 1)] = ⟨[], [], [], 1⟩
    ∧ (diffServerMaps
        [("s", JValue.obj [("x", JValue.num 1), ("y", JValue.num 2)])]
        [("s", JValue.obj [("y", JValue.num 2), ("x", JValue.num 1)])]).changed = [] := by
  have hPwf : ∀ id v, jlookup [("s", JValue.obj [("x", JValue.num 1), ("y", JValue.num 2)])]
      id = some v → nodupKeysRec v = true := by
    intro id v h
    simp only [jlookup] at h
    split at h
    · cases h; decide
    · exact Option.noConfusion h
  have hPQ : ∀ id vp vq,
      jlookup [("s", JValue.obj [("x", JValue.num 1), ("y", JValue.num 2)])] id = some vp →
      jlookup [("s", JValue.obj [("y", JValue.num 2), ("x", JValue.num 1)])] id = some vq →
      KeyPerm vp vq := by
    intro id vp vq h1 h2
    simp only [jlookup] at h1 h2
    split at h1
    · cases h1
      rw [if_pos (by assumption)] at h2
      cases h2
      exact KeyPerm.obj (List.Perm.swap ("y", JValue.num 2) ("x", JValue.num 1) [])
        (KeyPermFields.cons (KeyPerm.num 2) (KeyPermFields.cons (KeyPerm.num 1)
          KeyPermFields.nil))
    · exact Option.noConfusion h1
  have h := diffServerMaps_correct
    [("a", JValue.num 1)] [("b", JValue.num 2)]
    [("s", JValue.obj [("x", JValue.num 1), ("y", JValue.num 2)])]
    [("s", JValue.obj [("y", JValue.num 2), ("x", JValue.num 1)])]
    (by decide) (by decide) hPwf hPQ
  exact ⟨h.1, h.2.2.2.2.2.1⟩

/-- C10: the canonicalization sorts only object keys and preserves array
element order, so two maps whose value at an id differs only in the order of
a nested array (here the `args` list of a server) are reported as changed
by `diffServerMaps`. -/
theorem sortValue_preservesArrayOrder :
    (∀ xs : List JValue, sortValue (.arr xs) = .arr (xs.map sortValue))
    ∧ (∀ fs : List (String × JValue), sortValue (.obj fs) =
        .obj (List.insertionSort fieldLe (fs.map (fun p => (p.1, sortValue p.2)))))
    ∧ (diffServerMaps
        [("s", JValue.obj [("command", JValue.str "npx"),
          ("args", JValue.arr [JValue.str "-y", JValue.str "pkg"])])]
        [("s", JValue.obj [("command", JValue.str "npx"),
          ("args", JValue.arr [JValue.str "pkg", JValue.str "-y"])])])
      = ⟨[], [], ["s"], 0⟩ := by
  refine ⟨?_, ?_, by decide⟩
  · intro xs
    simp only [sortValue, sortList_eq_map]
  · intro fs
    simp only [sortValue, sortFields_eq_map]

/-! ## Agents, unified config records (`src/types.ts`) -/

/-- The closed set of supported agents (`AGENTS` in `src/types.ts`). -/
inductive AgentName where
  | codex
  | gemini
  | claude
  | vscode
  | antigravity
deriving DecidableEq, Repr

/-- The transports of `McpServerSpec`. -/
inductive TransportType where
  | stdio
  | sse
  | http
deriving DecidableEq, Repr

/-- `UnifiedMcpServer` from `src/types.ts` (string maps as association
lists, optional fields as `Option`). -/
structure UnifiedMcpServer where
  transport : TransportType
  command : Option String := none
  args : Option (List String) := none
  url : Option String := none
  env : Option (List (String × String)) := none
  headers : Option (List (String × String)) := none
  startup_timeout_sec : Option Int := none
  enabledIn : Option (List (AgentName × Bool)) := none
deriving Repr

/-- `TargetConfig` from `src/types.ts`. -/
structure TargetConfig where
  enabled : Option Bool := none
  allow : Option (List String) := none
  deny : Option (List String) := none
  outputPath : Option String := none
  skillsEnabled : Option Bool := none
  allowSkills : Option (List String) := none
  denySkills : Option (List String) := none
  skillsOutputDir : Option String := none
deriving Repr

/-- `UnifiedSkill` from `src/types.ts`. -/
structure UnifiedSkill where
  content : Option String := none
  sourcePath : Option String := none
  fileName : Option String := none
  enabledIn : Option (List (AgentName × Bool)) := none
deriving Repr

/-! ## Enablement policy (`serverEnabledForAgent` in `src/planner.ts`,
`skillEnabledForAgent` in `src/skills.ts`) -/

/-- `target.allow && target.allow.length > 0 && !target.allow.includes(id)`. -/
def allowBlocks (allow : Option (List String)) (id : String) : Bool :=
  match allow with
  | some l => decide (l.length > 0) && !(l.contains id)
  | none => false

/-- `target.deny && target.deny.includes(id)`. -/
def denyHas (deny : Option (List String)) (id : String) : Bool :=
  match deny with
  | some l => l.contains id
  | none => false

/-- `spec.enabledIn && spec.enabledIn[agent] === false`. -/
def enabledInOff (enabledIn : Option (List (AgentName × Bool))) (agent : AgentName) : Bool :=
  match enabledIn with
  | some m => m.lookup agent == some false
  | none => false

/-- `serverEnabledForAgent` from `src/planner.ts` (note the source checks
`allow` before `deny`). -/
def serverEnabledForAgent (serverId : String) (server : UnifiedMcpServer)
    (agent : AgentName) (target : TargetConfig) : Bool :=
  if target.enabled = some false then false
  else if allowBlocks target.allow serverId then false
  else if denyHas target.deny serverId then false
  else if enabledInOff server.enabledIn agent then false
  else true

/-- `skillEnabledForAgent` from `src/skills.ts` (same shape, with
`skillsEnabled`, `allowSkills`, `denySkills`; `allow` again before `deny`). -/
def skillEnabledForAgent (skillId : String) (skill : UnifiedSkill)
    (agent : AgentName) (target : TargetConfig) : Bool :=
  if target.enabled = some false ∨ target.skillsEnabled = some false then false
  else if allowBlocks target.allowSkills skillId then false
  else if denyHas target.denySkills skillId then false
  else if enabledInOff skill.enabledIn agent then false
  else true

/-- The precedence chain exactly as the specification words it (agent
disabled, then deny, then allow, then the per-item override), for comparison
with the source order. Modelled from the spec for the refinement claim. -/
def specServerEnabled (serverId : String) (server : UnifiedMcpServer)
    (agent : AgentName) (target : TargetConfig) : Bool :=
  if target.enabled = some false then false
  else if denyHas target.deny serverId then false
  else if allowBlocks target.allow serverId then false
  else if enabledInOff server.enabledIn agent then false
  else true

/-- The spec-ordered chain for skills. Modelled from the spec for the
refinement claim. -/
def specSkillEnabled (skillId : String) (skill : UnifiedSkill)
    (agent : AgentName) (target : TargetConfig) : Bool :=
  if target.enabled = some false ∨ target.skillsEnabled = some false then false
  else if denyHas target.denySkills skillId then false
  else if allowBlocks target.allowSkills skillId then false
  else if enabledInOff skill.enabledIn agent then false
  else true

/-- C3: Enablement precedence. The source's enablement computation agrees
with the spec's precedence chain (agent disabled, deny, non-empty allow not
containing the id, per-item `enabledIn[agent] === false`, otherwise on) for
both servers and skills; in particular a denied id is off even when its own
`enabledIn[agent]` is `true`, and with a non-empty `allow = [y]` every other
id is off regardless of its own `enabledIn`. -/
theorem enablement_precedence :
    (∀ id server agent target,
      serverEnabledForAgent id server agent target = specServerEnabled id server agent target)
    ∧ (∀ id skill agent target,
      skillEnabledForAgent id skill agent target = specSkillEnabled id skill agent target)
    ∧ (∀ (x : String) (server : UnifiedMcpServer) (agent : AgentName) (target : TargetConfig),
      target.deny = some [x] → server.enabledIn.isSome →
      serverEnabledForAgent x server agent target = false)
    ∧ (∀ (y id : String) (server : UnifiedMcpServer) (agent : AgentName)
        (target : TargetConfig),
      target.allow = some [y] → id ≠ y →
      serverEnabledForAgent id server agent target = false) := by
  refine ⟨?_, ?_, ?_, ?_⟩
  · intro id server agent target
    simp only [serverEnabledForAgent, specServerEnabled]
    by_cases h1 : target.enabled = some false <;>
      by_cases h2 : allowBlocks target.allow id = true <;>
        by_cases h3 : denyHas target.deny id = true <;>
          simp [h1, h2, h3]
  · intro id skill agent target
    simp only [skillEnabledForAgent, specSkillEnabled]
    by_cases h1 : target.enabled = some false ∨ target.skillsEnabled = some false <;>
      by_cases h2 : allowBlocks target.allowSkills id = true <;>
        by_cases h3 : denyHas target.denySkills id = true <;>
          simp [h1, h2, h3]
  · intro x server agent target hdeny _
    have hd : denyHas target.deny x = true := by
      simp [denyHas, hdeny, List.contains]
    simp only [serverEnabledForAgent, hd]
    by_cases h1 : target.enabled = some false <;>
      by_cases h2 : allowBlocks target.allow x = true <;>
        simp [h1, h2]
  · intro y id server agent target hallow hne
    have ha : allowBlocks target.allow id = true := by
      simp [allowBlocks, hallow, List.contains, hne]
    simp only [serverEnabledForAgent, ha]
    by_cases h1 : target.enabled = some false <;> simp [h1]

theorem enablement_precedence_witness :
    serverEnabledForAgent "x"
      { transport := .stdio, command := some "npx",
        enabledIn := some [(AgentName.codex, true)] }
      AgentName.codex { deny := some ["x"] } = false
    ∧ serverEnabledForAgent "other"
      { transport := .stdio, command := some "npx",
        enabledIn := some [(AgentName.codex, true)] }
      AgentName.codex { allow := some ["y"] } = false := by
  constructor
  · exact enablement_precedence.2.2.1 "x"
      { transport := .stdio, command := some "npx",
        enabledIn := some [(AgentName.codex, true)] }
      AgentName.codex { deny := some ["x"] } rfl (by decide)
  · exact enablement_precedence.2.2.2 "y" "other"
      { transport := .stdio, command := some "npx",
        enabledIn := some [(AgentName.codex, true)] }
      AgentName.codex { allow := some ["y"] } rfl (by decide)

/-! ## Secret resolution (`src/secrets.ts`)

The process environment is a partial map from variable names to values. The
resolver walks a server specification (a JSON-shaped runtime value) and
replaces every string of the form `env://KEY`. Failure aborts the whole
resolution (the `Except` result models the thrown exception: there is never
a partially-resolved result). `strStartsWith`, `strDrop` and `trimChars`
model JavaScript's `String.startsWith`, `String.slice` and `String.trim`
on the character sequence. -/

def strStartsWith (s pre : String) : Bool := pre.data.isPrefixOf s.data

def strDrop (s : String) (n : Nat) : String := String.mk (s.data.drop n)

def trimChars (s : String) : String :=
  String.mk (((s.data.dropWhile Char.isWhitespace).reverse.dropWhile Char.isWhitespace).reverse)

/-- The error message of the empty-reference failure. -/
def emptyRefMsg (context : String) : String :=
  "Invalid empty env reference at " ++ context ++ "."

/-- The error message of the `MissingSecret` failure. -/
def missingSecretMsg (key context : String) : String :=
  "Missing environment variable \"" ++ key ++ "\" referenced at " ++ context ++ "."

/-- `resolveStringRef` from `src/secrets.ts`. `allowMissingEnv` is the
non-strict (preview) mode; strict mode is `allowMissingEnv = false`. -/
def resolveStringRef (env : String → Option String) (input context : String)
    (allowMissingEnv : Bool) : Except String String :=
  if !(strStartsWith input "env://") then .ok input
  else
    let key := trimChars (strDrop input 6)
    if key = "" then .error (emptyRefMsg context)
    else
      match env key with
      | some v => .ok v
      | none =>
        if allowMissingEnv then .ok input
        else .error (missingSecretMsg key context)

mutual

/-- `resolveValue` from `src/secrets.ts`: recursive walk of strings,
arrays (with `[index]` appended to the dotted context) and objects (with
`.key` appended). -/
def resolveValue (env : String → Option String) (allowMissingEnv : Bool) :
    JValue → String → Except String JValue
  | .str s, ctx => (resolveStringRef env s ctx allowMissingEnv).map JValue.str
  | .arr xs, ctx => (resolveArr env allowMissingEnv xs ctx 0).map JValue.arr
  | .obj fs, ctx => (resolveFields env allowMissingEnv fs ctx).map JValue.obj
  | .null, _ => .ok .null
  | .bool b, _ => .ok (.bool b)
  | .num n, _ => .ok (.num n)

def resolveArr (env : String → Option String) (allowMissingEnv : Bool) :
    List JValue → String → Nat → Except String (List JValue)
  | [], _, _ => .ok []
  | x :: xs, ctx, i =>
    match resolveValue env allowMissingEnv x (ctx ++ "[" ++ toString i ++ "]") with
    | .error e => .error e
    | .ok x' =>
      match resolveArr env allowMissingEnv xs ctx (i + 1) with
      | .error e => .error e
      | .ok xs' => .ok (x' :: xs')

def resolveFields (env : String → Option String) (allowMissingEnv : Bool) :
    List (String × JValue) → String → Except String (List (String × JValue))
  | [], _ => .ok []
  | (k, v) :: fs, ctx =>
    match resolveValue env allowMissingEnv v (ctx ++ "." ++ k) with
    | .error e => .error e
    | .ok v' =>
      match resolveFields env allowMissingEnv fs ctx with
      | .error e => .error e
      | .ok fs' => .ok ((k, v') :: fs')

end

/-- `resolveServerSecrets` from `src/secrets.ts`. -/
def resolveServerSecrets (env : String → Option String) (serverId : String)
    (server : JValue) (allowMissingEnv : Bool) : Except String JValue :=
  resolveValue env allowMissingEnv server ("mcp.servers." ++ serverId)

mutual

/-- The `env://` references of a value, with their dotted context paths and
trimmed keys, in the traversal order of `resolveValue`. -/
def refsOfValue : JValue → String → List (String × String)
  | .str s, ctx =>
    if strStartsWith s "env://" then [(ctx, trimChars (strDrop s 6))] else []
  | .arr xs, ctx => refsOfArr xs ctx 0
  | .obj fs, ctx => refsOfFields fs ctx
  | .null, _ => []
  | .bool _, _ => []
  | .num _, _ => []

def refsOfArr : List JValue → String → Nat → List (String × String)
  | [], _, _ => []
  | x :: xs, ctx, i =>
    refsOfValue x (ctx ++ "[" ++ toString i ++ "]") ++ refsOfArr xs ctx (i + 1)

def refsOfFields : List (String × JValue) → String → List (String × String)
  | [], _ => []
  | (k, v) :: fs, ctx => refsOfValue v (ctx ++ "." ++ k) ++ refsOfFields fs ctx

end

/-- C5 counterexample: non-strict resolution is not a no-op and is not
idempotent. With `A ↦ "env://B"`, `B ↦ "x"` in the environment, resolving
once substitutes `env://A` by `env://B` (so references are substituted in
non-strict mode), and resolving a second time yields a different value. -/
theorem nonstrict_resolution_not_idempotent :
    resolveServerSecrets
      (fun k => if k = "A" then some "env://B" else if k = "B" then some "x" else none)
      "s" (JValue.obj [("transport", JValue.str "stdio"), ("command", JValue.str "npx"),
        ("env", JValue.obj [("TOKEN", JValue.str "env://A")])]) true
    = .ok (JValue.obj [("transport", JValue.str "stdio"), ("command", JValue.str "npx"),
        ("env", JValue.obj [("TOKEN", JValue.str "env://B")])])
    ∧ resolveServerSecrets
      (fun k => if k = "A" then some "env://B" else if k = "B" then some "x" else none)
      "s" (JValue.obj [("transport", JValue.str "stdio"), ("command", JValue.str "npx"),
        ("env", JValue.obj [("TOKEN", JValue.str "env://B")])]) true
    = .ok (JValue.obj [("transport", JValue.str "stdio"), ("command", JValue.str "npx"),
        ("env", JValue.obj [("TOKEN", JValue.str "x")])])
    ∧ stableStringify (JValue.obj [("transport", JValue.str "stdio"),
        ("command", JValue.str "npx"),
        ("env", JValue.obj [("TOKEN", JValue.str "env://B")])])
      ≠ stableStringify (JValue.obj [("transport", JValue.str "stdio"),
        ("command", JValue.str "npx"),
        ("env", JValue.obj [("TOKEN", JValue.str "x")])]) :=
  ⟨rfl, rfl, by decide⟩

/-- C5 (amended): in non-strict mode a reference to an unset environment
variable is returned exactly as written (never a placeholder or empty
string); references whose variable is set are substituted, so non-strict
resolution is idempotent precisely when no environment value is itself an
`env://` reference. -/
theorem nonstrict_resolution_amended :
    (∀ (env : String → Option String) (s ctx : String),
      strStartsWith s "env://" = true → trimChars (strDrop s 6) ≠ "" →
      env (trimChars (strDrop s 6)) = none →
      resolveStringRef env s ctx true = .ok s)
    ∧ (∀ env : String → Option String,
      (∀ k val, env k = some val → strStartsWith val "env://" = false) →
      ∀ (v : JValue) (ctx : String) (w : JValue),
        resolveValue env true v ctx = .ok w → resolveValue env true w ctx = .ok w) := by
  constructor
  · intro env s ctx hsw hkey hnone
    simp only [resolveStringRef, hsw, Bool.not_true, Bool.false_eq_true, if_false, hkey,
      if_neg hkey, hnone, if_true]
  · intro env hEnv
    have hstr : ∀ s ctx s', resolveStringRef env s ctx true = .ok s' →
        resolveStringRef env s' ctx true = .ok s' := by
      intro s ctx s' hr
      by_cases hsw : strStartsWith s "env://" = true
      · simp only [resolveStringRef, hsw, Bool.not_true, Bool.false_eq_true, if_false] at hr
        by_cases hkey : trimChars (strDrop s 6) = ""
        · rw [if_pos hkey] at hr
          exact Except.noConfusion hr
        · rw [if_neg hkey] at hr
          rcases henv : env (trimChars (strDrop s 6)) with _ | val
          · rw [henv] at hr
            simp only [if_true] at hr
            cases hr
            simp only [resolveStringRef, hsw, Bool.not_true, Bool.false_eq_true, if_false,
              if_neg hkey, henv, if_true]
          · rw [henv] at hr
            cases hr
            have := hEnv (trimChars (strDrop s 6)) s' henv
            simp only [resolveStringRef, this, Bool.not_false, if_true]
      · have hsw' : strStartsWith s "env://" = false := by
          revert hsw
          cases strStartsWith s "env://" <;> simp
        simp only [resolveStringRef, hsw', Bool.not_false, if_true] at hr
        cases hr
        simp only [resolveStringRef, hsw', Bool.not_false, if_true]
    have main : ∀ n : Nat, ∀ (v : JValue) (ctx : String) (w : JValue), sizeOf v ≤ n →
        resolveValue env true v ctx = .ok w → resolveValue env true w ctx = .ok w := by
      intro n
      induction n with
      | zero =>
        intro v ctx w hsz _
        exact absurd hsz (by cases v <;> simp)
      | succ n ih =>
        intro v ctx w hsz h
        cases v with
        | null => cases h; rfl
        | bool b => cases h; rfl
        | num m => cases h; rfl
        | str s =>
          rcases hr : resolveStringRef env s ctx true with e | s'
          · rw [resolveValue, hr] at h
            exact Except.noConfusion h
          · rw [resolveValue, hr] at h
            cases h
            rw [resolveValue, hstr s ctx s' hr]
            rfl
        | arr xs =>
          have hszxs : sizeOf xs ≤ n := by
            have : sizeOf (JValue.arr xs) = 1 + sizeOf xs := by simp
            omega
          have inner : ∀ (l : List JValue) (i : Nat) (l' : List JValue),
              (∀ x ∈ l, sizeOf x ≤ n) →
              resolveArr env true l ctx i = .ok l' → resolveArr env true l' ctx i = .ok l' := by
            intro l
            induction l with
            | nil => intro i l' _ h'; cases h'; rfl
            | cons x t iht =>
              intro i l' hmem h'
              rw [resolveArr] at h'
              rcases hx : resolveValue env true x (ctx ++ "[" ++ toString i ++ "]")
                  with e | x'
              · rw [hx] at h'; exact Except.noConfusion h'
              · rw [hx] at h'
                rcases ht : resolveArr env true t ctx (i + 1) with e | t'
                · rw [ht] at h'; exact Except.noConfusion h'
                · rw [ht] at h'
                  cases h'
                  have h1 := ih x (ctx ++ "[" ++ toString i ++ "]") x'
                    (hmem x (List.mem_cons_self _ _)) hx
                  have h2 := iht (i + 1) t'
                    (fun y hy => hmem y (List.mem_cons_of_mem _ hy)) ht
                  rw [resolveArr, h1, h2]
          rcases hr : resolveArr env true xs ctx 0 with e | xs'
          · rw [resolveValue, hr] at h
            exact Except.noConfusion h
          · rw [resolveValue, hr] at h
            cases h
            have hmem : ∀ x ∈ xs, sizeOf x ≤ n := by
              intro x hx
              have := List.sizeOf_lt_of_mem hx
              omega
            rw [resolveValue, inner xs 0 xs' hmem hr]
            rfl
        | obj fs =>
          have hszfs : sizeOf fs ≤ n := by
            have : sizeOf (JValue.obj fs) = 1 + sizeOf fs := by simp
            omega
          have inner : ∀ (l : List (String × JValue)) (l' : List (String × JValue)),
              (∀ p ∈ l, sizeOf p.2 ≤ n) →
              resolveFields env true l ctx = .ok l' →
              resolveFields env true l' ctx = .ok l' := by
            intro l
            induction l with
            | nil => intro l' _ h'; cases h'; rfl
            | cons q t iht =>
              intro l' hmem h'
              obtain ⟨k, v⟩ := q
              rw [resolveFields] at h'
              rcases hv : resolveValue env true v (ctx ++ "." ++ k) with e | v'
              · rw [hv] at h'; exact Except.noConfusion h'
              · rw [hv] at h'
                rcases ht : resolveFields env true t ctx with e | t'
                · rw [ht] at h'; exact Except.noConfusion h'
                · rw [ht] at h'
                  cases h'
                  have h1 := ih v (ctx ++ "." ++ k) v'
                    (hmem (k, v) (List.mem_cons_self _ _)) hv
                  have h2 := iht t' (fun p hp => hmem p (List.mem_cons_of_mem _ hp)) ht
                  rw [resolveFields, h1, h2]
          rcases hr : resolveFields env true fs ctx with e | fs'
          · rw [resolveValue, hr] at h
            exact Except.noConfusion h
          · rw [resolveValue, hr] at h
            cases h
            have hmem : ∀ p ∈ fs, sizeOf p.2 ≤ n := by
              intro p hp
              have h1 := List.sizeOf_lt_of_mem hp
              have h2 : sizeOf p = 1 + sizeOf p.1 + sizeOf p.2 := by
                obtain ⟨k, v⟩ := p; simp
              omega
            rw [resolveValue, inner fs fs' hmem hr]
            rfl
    intro v ctx w h
    exact main (sizeOf v) v ctx w le_rfl h

theorem nonstrict_resolution_amended_witness :
    resolveStringRef (fun _ => none) "env://TOKEN" "mcp.servers.s.env.TOKEN" true
      = .ok "env://TOKEN"
    ∧ resolveValue (fun k => if k = "B" then some "x" else none) true
        (JValue.str "env://B") "mcp.servers.s" = .ok (JValue.str "x")
    ∧ resolveValue (fun k => if k = "B" then some "x" else none) true
        (JValue.str "x") "mcp.servers.s" = .ok (JValue.str "x") := by
  refine ⟨?_, rfl, ?_⟩
  · exact nonstrict_resolution_amended.1 (fun _ => none) "env://TOKEN"
      "mcp.servers.s.env.TOKEN" (by decide) (by decide) rfl
  · exact nonstrict_resolution_amended.2 (fun k => if k = "B" then some "x" else none)
      (by
        intro k val h
        by_cases hk : k = "B"
        · subst hk; simp at h; subst h; decide
        · simp [hk] at h)
      (JValue.str "env://B") "mcp.servers.s" (JValue.str "x") rfl

/-- The first reference (in traversal order) whose environment variable is
unset drives strict resolution: if there is one, resolution fails with the
`MissingSecret` message naming that reference's trimmed key and dotted path;
if every reference is set, resolution succeeds. (Empty keys are excluded:
they fail earlier with the empty-reference error regardless of strictness.)
The `Except` result models the thrown exception: a failure yields no
partially-resolved value at all. -/
theorem strict_resolveValue_cases (env : String → Option String) :
    ∀ (v : JValue) (ctx : String),
      (∀ pk ∈ refsOfValue v ctx, pk.2 ≠ "") →
      ((∀ pk, (refsOfValue v ctx).find? (fun q => (env q.2).isNone) = some pk →
        resolveValue env false v ctx = .error (missingSecretMsg pk.2 pk.1))
      ∧ ((refsOfValue v ctx).find? (fun q => (env q.2).isNone) = none →
        ∃ out, resolveValue env false v ctx = .ok out)) := by
  have main : ∀ n : Nat, ∀ (v : JValue) (ctx : String), sizeOf v ≤ n →
      (∀ pk ∈ refsOfValue v ctx, pk.2 ≠ "") →
      ((∀ pk, (refsOfValue v ctx).find? (fun q => (env q.2).isNone) = some pk →
        resolveValue env false v ctx = .error (missingSecretMsg pk.2 pk.1))
      ∧ ((refsOfValue v ctx).find? (fun q => (env q.2).isNone) = none →
        ∃ out, resolveValue env false v ctx = .ok out)) := by
    intro n
    induction n with
    | zero =>
      intro v ctx hsz _
      exact absurd hsz (by cases v <;> simp)
    | succ n ih =>
      intro v ctx hsz hkeys
      cases v with
      | null => exact ⟨fun pk h => Option.noConfusion h, fun _ => ⟨.null, rfl⟩⟩
      | bool b => exact ⟨fun pk h => Option.noConfusion h, fun _ => ⟨.bool b, rfl⟩⟩
      | num m => exact ⟨fun pk h => Option.noConfusion h, fun _ => ⟨.num m, rfl⟩⟩
      | str s =>
        by_cases hsw : strStartsWith s "env://" = true
        · have hrefs : refsOfValue (.str s) ctx = [(ctx, trimChars (strDrop s 6))] := by
            simp [refsOfValue, hsw]
          have hkey : trimChars (strDrop s 6) ≠ "" :=
            hkeys (ctx, trimChars (strDrop s 6)) (by rw [hrefs]; exact List.mem_cons_self _ _)
          constructor
          · intro pk hfind
            rw [hrefs] at hfind
            rcases henv : env (trimChars (strDrop s 6)) with _ | val
            · simp only [List.find?, henv, Option.isNone_none] at hfind
              cases hfind
              simp only [resolveValue, resolveStringRef, hsw, Bool.not_true,
                Bool.false_eq_true, if_false, if_neg hkey, henv]
              rfl
            · simp only [List.find?, henv, Option.isNone_some] at hfind
              exact Option.noConfusion hfind
          · intro hfind
            rw [hrefs] at hfind
            rcases henv : env (trimChars (strDrop s 6)) with _ | val
            · simp only [List.find?, henv, Option.isNone_none] at hfind
              exact Option.noConfusion hfind
            · refine ⟨.str val, ?_⟩
              simp only [resolveValue, resolveStringRef, hsw, Bool.not_true,
                Bool.false_eq_true, if_false, if_neg hkey, henv]
              rfl
        · have hsw' : strStartsWith s "env://" = false := by
            revert hsw; cases strStartsWith s "env://" <;> simp
          have hrefs : refsOfValue (.str s) ctx = [] := by
            simp [refsOfValue, hsw']
          refine ⟨fun pk hfind => ?_, fun _ => ⟨.str s, ?_⟩⟩
          · rw [hrefs] at hfind
            exact Option.noConfusion hfind
          · simp only [resolveValue, resolveStringRef, hsw', Bool.not_false, if_true]
            rfl
      | arr xs =>
        have hszn : ∀ x ∈ xs, sizeOf x ≤ n := by
          intro x hx
          have h1 := List.sizeOf_lt_of_mem hx
          have h2 : sizeOf (JValue.arr xs) = 1 + sizeOf xs := by simp
          omega
        have inner : ∀ (l : List JValue) (i : Nat),
            (∀ x ∈ l, sizeOf x ≤ n) →
            (∀ pk ∈ refsOfArr l ctx i, pk.2 ≠ "") →
            ((∀ pk, (refsOfArr l ctx i).find? (fun q => (env q.2).isNone) = some pk →
              resolveArr env false l ctx i = .error (missingSecretMsg pk.2 pk.1))
            ∧ ((refsOfArr l ctx i).find? (fun q => (env q.2).isNone) = none →
              ∃ out, resolveArr env false l ctx i = .ok out)) := by
          intro l
          induction l with
          | nil =>
            intro i _ _
            exact ⟨fun pk h => Option.noConfusion h, fun _ => ⟨[], rfl⟩⟩
          | cons x t iht =>
            intro i hmem hk
            have hk1 : ∀ pk ∈ refsOfValue x (ctx ++ "[" ++ toString i ++ "]"), pk.2 ≠ "" :=
              fun pk hpk => hk pk (by
                simp only [refsOfArr, List.mem_append]
                exact Or.inl hpk)
            have hk2 : ∀ pk ∈ refsOfArr t ctx (i + 1), pk.2 ≠ "" :=
              fun pk hpk => hk pk (by
                simp only [refsOfArr, List.mem_append]
                exact Or.inr hpk)
            have hx := ih x (ctx ++ "[" ++ toString i ++ "]")
              (hmem x (List.mem_cons_self _ _)) hk1
            have ht := iht (i + 1) (fun y hy => hmem y (List.mem_cons_of_mem _ hy)) hk2
            constructor
            · intro pk hfind
              rw [refsOfArr, List.find?_append] at hfind
              rcases h1 : (refsOfValue x (ctx ++ "[" ++ toString i ++ "]")).find?
                  (fun q => (env q.2).isNone) with _ | pk1
              · rw [h1, Option.none_or] at hfind
                obtain ⟨x', hx'⟩ := hx.2 h1
                rw [resolveArr, hx', ht.1 pk hfind]
              · rw [h1] at hfind
                rw [show (some pk1).or ((refsOfArr t ctx (i + 1)).find?
                  (fun q => (env q.2).isNone)) = some pk1 from rfl] at hfind
                injection hfind with heq
                subst heq
                rw [resolveArr, hx.1 _ h1]
            · intro hfind
              rw [refsOfArr, List.find?_append] at hfind
              obtain ⟨h1, h2⟩ := Option.or_eq_none.mp hfind
              obtain ⟨x', hx'⟩ := hx.2 h1
              obtain ⟨t', ht'⟩ := ht.2 h2
              exact ⟨x' :: t', by rw [resolveArr, hx', ht']⟩
        have harr := inner xs 0 hszn (by
          intro pk hpk
          exact hkeys pk (by simpa only [refsOfValue] using hpk))
        constructor
        · intro pk hfind
          simp only [refsOfValue] at hfind
          have := harr.1 pk hfind
          simp only [resolveValue, this]
          rfl
        · intro hfind
          simp only [refsOfValue] at hfind
          obtain ⟨out, hout⟩ := harr.2 hfind
          exact ⟨.arr out, by simp only [resolveValue, hout]; rfl⟩
      | obj fs =>
        have hszn : ∀ p ∈ fs, sizeOf p.2 ≤ n := by
          intro p hp
          have h1 := List.sizeOf_lt_of_mem hp
          have h2 : sizeOf p = 1 + sizeOf p.1 + sizeOf p.2 := by
            obtain ⟨k, v⟩ := p; simp
          have h3 : sizeOf (JValue.obj fs) = 1 + sizeOf fs := by simp
          omega
        have inner : ∀ (l : List (String × JValue)),
            (∀ p ∈ l, sizeOf p.2 ≤ n) →
            (∀ pk ∈ refsOfFields l ctx, pk.2 ≠ "") →
            ((∀ pk, (refsOfFields l ctx).find? (fun q => (env q.2).isNone) = some pk →
              resolveFields env false l ctx = .error (missingSecretMsg pk.2 pk.1))
            ∧ ((refsOfFields l ctx).find? (fun q => (env q.2).isNone) = none →
              ∃ out, resolveFields env false l ctx = .ok out)) := by
          intro l
          induction l with
          | nil =>
            intro _ _
            exact ⟨fun pk h => Option.noConfusion h, fun _ => ⟨[], rfl⟩⟩
          | cons q t iht =>
            intro hmem hk
            obtain ⟨k, v⟩ := q
            have hk1 : ∀ pk ∈ refsOfValue v (ctx ++ "." ++ k), pk.2 ≠ "" :=
              fun pk hpk => hk pk (by
                simp only [refsOfFields, List.mem_append]
                exact Or.inl hpk)
            have hk2 : ∀ pk ∈ refsOfFields t ctx, pk.2 ≠ "" :=
              fun pk hpk => hk pk (by
                simp only [refsOfFields, List.mem_append]
                exact Or.inr hpk)
            have hv := ih v (ctx ++ "." ++ k) (hmem (k, v) (List.mem_cons_self _ _)) hk1
            have ht := iht (fun p hp => hmem p (List.mem_cons_of_mem _ hp)) hk2
            constructor
            · intro pk hfind
              rw [refsOfFields, List.find?_append] at hfind
              rcases h1 : (refsOfValue v (ctx ++ "." ++ k)).find?
                  (fun q => (env q.2).isNone) with _ | pk1
              · rw [h1, Option.none_or] at hfind
                obtain ⟨v', hv'⟩ := hv.2 h1
                rw [resolveFields, hv', ht.1 pk hfind]
              · rw [h1] at hfind
                rw [show (some pk1).or ((refsOfFields t ctx).find?
                  (fun q => (env q.2).isNone)) = some pk1 from rfl] at hfind
                injection hfind with heq
                subst heq
                rw [resolveFields, hv.1 _ h1]
            · intro hfind
              rw [refsOfFields, List.find?_append] at hfind
              obtain ⟨h1, h2⟩ := Option.or_eq_none.mp hfind
              obtain ⟨v', hv'⟩ := hv.2 h1
              obtain ⟨t', ht'⟩ := ht.2 h2
              exact ⟨(k, v') :: t', by rw [resolveFields, hv', ht']⟩
        have hobj := inner fs hszn (by
          intro pk hpk
          exact hkeys pk (by simpa only [refsOfValue] using hpk))
        constructor
        · intro pk hfind
          simp only [refsOfValue] at hfind
          have := hobj.1 pk hfind
          simp only [resolveValue, this]
          rfl
        · intro hfind
          simp only [refsOfValue] at hfind
          obtain ⟨out, hout⟩ := hobj.2 hfind
          exact ⟨.obj out, by simp only [resolveValue, hout]; rfl⟩
  intro v ctx hkeys
  exact main (sizeOf v) v ctx le_rfl hkeys

/-- C4: Strict secret-resolution totality. With `allowMissingEnv` unset
(strict mode): if any `env://` reference of the server spec names an unset
environment variable, the whole resolution fails with the `MissingSecret`
error naming the trimmed key and dotted field path of the first such
reference (the `Except.error` result carries no partially-resolved value);
if every referenced variable is set, resolution succeeds; and a reference
`env://KEY` with `KEY` set resolves to exactly that variable's value. -/
theorem strict_resolution_totality :
    (∀ (env : String → Option String) (serverId : String) (server : JValue)
        (pk : String × String),
      (∀ q ∈ refsOfValue server ("mcp.servers." ++ serverId), q.2 ≠ "") →
      (refsOfValue server ("mcp.servers." ++ serverId)).find?
        (fun q => (env q.2).isNone) = some pk →
      pk ∈ refsOfValue server ("mcp.servers." ++ serverId) ∧ env pk.2 = none ∧
        resolveServerSecrets env serverId server false =
          .error (missingSecretMsg pk.2 pk.1))
    ∧ (∀ (env : String → Option String) (serverId : String) (server : JValue),
      (∀ q ∈ refsOfValue server ("mcp.servers." ++ serverId), q.2 ≠ "") →
      (∀ q ∈ refsOfValue server ("mcp.servers." ++ serverId), (env q.2).isSome) →
      ∃ out, resolveServerSecrets env serverId server false = .ok out)
    ∧ (∀ (env : String → Option String) (key ctx val : String),
      trimChars key = key → key ≠ "" → env key = some val →
      resolveStringRef env ("env://" ++ key) ctx false = .ok val) := by
  refine ⟨?_, ?_, ?_⟩
  · intro env serverId server pk hkeys hfind
    refine ⟨List.mem_of_find?_eq_some hfind, ?_, ?_⟩
    · have h := List.find?_some hfind
      exact Option.isNone_iff_eq_none.mp h
    · exact (strict_resolveValue_cases env server ("mcp.servers." ++ serverId) hkeys).1
        pk hfind
  · intro env serverId server hkeys hset
    apply (strict_resolveValue_cases env server ("mcp.servers." ++ serverId) hkeys).2
    rw [List.find?_eq_none]
    intro q hq
    have hs := hset q hq
    rcases henv : env q.2 with _ | a
    · rw [henv] at hs
      simp at hs
    · simp
  · intro env key ctx val htrim hkey henv
    have h1 : strStartsWith ("env://" ++ key) "env://" = true := by
      simp only [strStartsWith, String.data_append]
      exact List.isPrefixOf_iff_prefix.mpr (List.prefix_append _ _)
    have h2 : strDrop ("env://" ++ key) 6 = key := by
      simp only [strDrop, String.data_append]
      rw [show (6 : Nat) = ("env://".data).length from rfl, List.drop_left]
    simp only [resolveStringRef, h1, Bool.not_true, Bool.false_eq_true, if_false, h2,
      htrim, if_neg hkey, henv]

theorem strict_resolution_totality_witness :
    resolveServerSecrets (fun k => if k = "TOKEN" then some "secret" else none)
      "router" (JValue.obj [("url", JValue.str "http://localhost"),
        ("headers", JValue.obj [("Authorization", JValue.str "env://MISSING")])]) false
      = .error (missingSecretMsg "MISSING" "mcp.servers.router.headers.Authorization")
    ∧ (∃ out, resolveServerSecrets (fun k => if k = "TOKEN" then some "secret" else none)
        "router" (JValue.obj [("url", JValue.str "http://localhost"),
          ("headers", JValue.obj [("Authorization", JValue.str "env://TOKEN")])]) false
        = .ok out)
    ∧ resolveStringRef (fun k => if k = "TOKEN" then some "secret" else none)
        ("env://" ++ "TOKEN") "mcp.servers.router.headers.Authorization" false
      = .ok "secret" := by
  refine ⟨?_, ?_, ?_⟩
  · exact (strict_resolution_totality.1
      (fun k => if k = "TOKEN" then some "secret" else none) "router"
      (JValue.obj [("url", JValue.str "http://localhost"),
        ("headers", JValue.obj [("Authorization", JValue.str "env://MISSING")])])
      ("mcp.servers.router.headers.Authorization", "MISSING")
      (by decide) (by decide)).2.2
  · exact strict_resolution_totality.2.1
      (fun k => if k = "TOKEN" then some "secret" else none) "router"
      (JValue.obj [("url", JValue.str "http://localhost"),
        ("headers", JValue.obj [("Authorization", JValue.str "env://TOKEN")])])
      (by decide) (by decide)
  · exact strict_resolution_totality.2.2
      (fun k => if k = "TOKEN" then some "secret" else none) "TOKEN"
      "mcp.servers.router.headers.Authorization" "secret" (by decide) (by decide) rfl

/-! ## Filesystem model

The filesystem is an association list from path strings to file data. File
contents are either raw text, or — for the two JSON documents the engine
itself writes and reads back (`meta.json` and the skills manifest) — the
structured value, modelling the `JSON.stringify`/`JSON.parse` round trip as
the identity; `dir` marks a directory created by `mkdir`. Every mutation of
the sync engine is recorded as an operation in a trace, so that ordering
and atomicity properties can be stated about the trace. -/

/-- A manifest entry (`SkillsManifest.items` in `src/skills.ts`). -/
structure ManifestItem where
  id : String
  fileName : String
deriving Repr, DecidableEq

/-- `SkillsManifest` from `src/skills.ts`. -/
structure SkillsManifest where
  version : Nat
  items : List ManifestItem
deriving Repr, DecidableEq

/-- `SkillMaterialized` from `src/types.ts`. -/
structure SkillMaterialized where
  fileName : String
  content : String
deriving Repr, DecidableEq

/-- `AppliedAgent` from `src/sync.ts`. -/
structure AppliedAgent where
  agent : String
  mcpPath : String
  mcpChanged : Bool
  mcpBackupPath : Option String
  mcpExistedBefore : Bool
  skillsDir : String
  skillsChanged : Bool
  skillsBackupDir : Option String
  skillsManifestExistedBefore : Bool
deriving Repr, DecidableEq

/-- `RollbackMeta` from `src/sync.ts` (the contents of `meta.json`). -/
structure RollbackMeta where
  snapshotId : String
  createdAt : String
  applied : List AppliedAgent
deriving Repr, DecidableEq

/-- Contents of one filesystem entry. -/
inductive FData where
  | text (s : String)
  | metaData (m : RollbackMeta)
  | manifestData (m : SkillsManifest)
  | dir
deriving Repr, DecidableEq

/-- Reading a path. -/
def fsGet : List (String × FData) → String → Option FData
  | [], _ => none
  | (q, d) :: rest, p => if q = p then some d else fsGet rest p

/-- Writing a path (replacing any previous entry). -/
def fsSet (fs : List (String × FData)) (p : String) (d : FData) :
    List (String × FData) :=
  (p, d) :: fs.filter (fun q => q.1 != p)

/-- Deleting a path. -/
def fsRemove (fs : List (String × FData)) (p : String) : List (String × FData) :=
  fs.filter (fun q => q.1 != p)

def fsPathExists (fs : List (String × FData)) (p : String) : Bool :=
  (fsGet fs p).isSome

theorem fsGet_filter_ne (fs : List (String × FData)) (p x : String) (h : x ≠ p) :
    fsGet (fs.filter (fun q => q.1 != p)) x = fsGet fs x := by
  induction fs with
  | nil => rfl
  | cons e rest ih =>
    obtain ⟨q, d⟩ := e
    by_cases hq : q = p
    · have hf : ((q, d) :: rest).filter (fun e => e.1 != p) =
          rest.filter (fun e => e.1 != p) := by
        simp [List.filter, bne, hq]
      have hqx : ¬ q = x := fun hqx => h (hqx ▸ hq)
      rw [hf, ih]
      simp only [fsGet, if_neg hqx]
    · have hbe : (q == p) = false := beq_eq_false_iff_ne.mpr hq
      have hf : ((q, d) :: rest).filter (fun e => e.1 != p) =
          (q, d) :: rest.filter (fun e => e.1 != p) := by
        simp [List.filter, bne, hbe]
      rw [hf]
      simp only [fsGet]
      by_cases hx : q = x
      · simp [hx]
      · simp only [hx, if_false]
        exact ih

theorem fsGet_fsSet_self (fs : List (String × FData)) (p : String) (d : FData) :
    fsGet (fsSet fs p d) p = some d := by
  simp [fsSet, fsGet]

theorem fsGet_fsSet_ne (fs : List (String × FData)) (p x : String) (d : FData)
    (h : x ≠ p) : fsGet (fsSet fs p d) x = fsGet fs x := by
  simp only [fsSet, fsGet, if_neg (Ne.symm h)]
  exact fsGet_filter_ne fs p x h

theorem fsGet_fsRemove_self (fs : List (String × FData)) (p : String) :
    fsGet (fsRemove fs p) p = none := by
  induction fs with
  | nil => rfl
  | cons e rest ih =>
    obtain ⟨q, d⟩ := e
    by_cases hq : q = p
    · have hf : fsRemove ((q, d) :: rest) p = fsRemove rest p := by
        simp [fsRemove, List.filter, bne, hq]
      rw [hf]
      exact ih
    · have hbe : (q == p) = false := beq_eq_false_iff_ne.mpr hq
      have hf : fsRemove ((q, d) :: rest) p = (q, d) :: fsRemove rest p := by
        simp [fsRemove, List.filter, bne, hbe]
      rw [hf]
      simp only [fsGet, if_neg hq]
      exact ih

theorem fsGet_fsRemove_ne (fs : List (String × FData)) (p x : String) (h : x ≠ p) :
    fsGet (fsRemove fs p) x = fsGet fs x :=
  fsGet_filter_ne fs p x h

/-! ## Filesystem operations and the trace -/

/-- One filesystem operation of the engine. `writeDirect` is a plain
`fs.writeFile`; `writeTemp` followed by `renameOp` is `writeTextAtomic`;
`copyOp` is `fs.copyFile`; `removeOp` is `fs.rm`; `mkdirOp` is `fs.mkdir`;
`readOp` records a read (used by the planner, which must not write). -/
inductive FsOp where
  | writeDirect (path : String) (d : FData)
  | writeTemp (path : String) (d : FData)
  | renameOp (src dst : String)
  | copyOp (src dst : String)
  | removeOp (path : String)
  | mkdirOp (path : String)
  | readOp (path : String)
deriving Repr, DecidableEq

/-- Effect of one operation on the file map. -/
def applyOp (fs : List (String × FData)) : FsOp → List (String × FData)
  | .writeDirect p d => fsSet fs p d
  | .writeTemp p d => fsSet fs p d
  | .renameOp src dst =>
    match fsGet fs src with
    | some d => fsSet (fsRemove fs src) dst d
    | none => fs
  | .copyOp src dst =>
    match fsGet fs src with
    | some d => fsSet fs dst d
    | none => fs
  | .removeOp p => fsRemove fs p
  | .mkdirOp p => if fsPathExists fs p then fs else fsSet fs p .dir
  | .readOp _ => fs

/-- The paths an operation can mutate. -/
def opWrites : FsOp → List String
  | .writeDirect p _ => [p]
  | .writeTemp p _ => [p]
  | .renameOp src dst => [src, dst]
  | .copyOp _ dst => [dst]
  | .removeOp p => [p]
  | .mkdirOp p => [p]
  | .readOp _ => []

theorem fsGet_applyOp_not_mem (fs : List (String × FData)) (op : FsOp) (x : String)
    (h : x ∉ opWrites op) : fsGet (applyOp fs op) x = fsGet fs x := by
  cases op with
  | writeDirect p d =>
    simp only [opWrites, List.mem_singleton] at h
    exact fsGet_fsSet_ne fs p x d h
  | writeTemp p d =>
    simp only [opWrites, List.mem_singleton] at h
    exact fsGet_fsSet_ne fs p x d h
  | renameOp src dst =>
    simp only [opWrites, List.mem_cons, List.mem_singleton] at h
    push_neg at h
    simp only [applyOp]
    rcases hs : fsGet fs src with _ | d
    · rfl
    · rw [fsGet_fsSet_ne _ _ _ _ h.2.1, fsGet_fsRemove_ne _ _ _ h.1]
  | copyOp src dst =>
    simp only [opWrites, List.mem_singleton] at h
    simp only [applyOp]
    rcases hs : fsGet fs src with _ | d
    · rfl
    · exact fsGet_fsSet_ne fs dst x d h
  | removeOp p =>
    simp only [opWrites, List.mem_singleton] at h
    exact fsGet_fsRemove_ne fs p x h
  | mkdirOp p =>
    simp only [opWrites, List.mem_singleton] at h
    simp only [applyOp]
    by_cases he : fsPathExists fs p = true
    · rw [if_pos he]
    · rw [if_neg he]
      exact fsGet_fsSet_ne fs p x .dir h
  | readOp p => rfl

/-- Running a list of operations. -/
def runOps (fs : List (String × FData)) (ops : List FsOp) : List (String × FData) :=
  ops.foldl applyOp fs

theorem runOps_nil (fs : List (String × FData)) : runOps fs [] = fs := rfl

theorem runOps_cons (fs : List (String × FData)) (op : FsOp) (ops : List FsOp) :
    runOps fs (op :: ops) = runOps (applyOp fs op) ops := rfl

theorem runOps_append (fs : List (String × FData)) (l₁ l₂ : List FsOp) :
    runOps fs (l₁ ++ l₂) = runOps (runOps fs l₁) l₂ := by
  induction l₁ generalizing fs with
  | nil => rfl
  | cons op ops ih => simp only [List.cons_append, runOps_cons, ih]

theorem fsGet_runOps_frame (fs : List (String × FData)) (ops : List FsOp) (x : String)
    (h : ∀ op ∈ ops, x ∉ opWrites op) : fsGet (runOps fs ops) x = fsGet fs x := by
  induction ops generalizing fs with
  | nil => rfl
  | cons op rest ih =>
    rw [runOps_cons, ih _ (fun o ho => h o (List.mem_cons_of_mem _ ho)),
      fsGet_applyOp_not_mem fs op x (h op (List.mem_cons_self _ _))]

/-- The machine: the file map plus the trace of operations so far. -/
structure Machine where
  fs : List (String × FData)
  trace : List FsOp
deriving Repr

def stepM (m : Machine) (op : FsOp) : Machine :=
  ⟨applyOp m.fs op, m.trace ++ [op]⟩

/-! ## Path arithmetic -/

/-- `path.join` (with forward slashes). -/
def pathJoin (a b : String) : String := a ++ "/" ++ b

/-- The temporary path of `writeTextAtomic`:
`${filePath}.tmp-${process.pid}-${Date.now()}`, with the pid/date part
abstracted as `tag`. It lies in the same directory as `filePath`. -/
def tempName (p tag : String) : String := p ++ ".tmp-" ++ tag

/-- `x` lies strictly under directory `d`. -/
def strUnder (d x : String) : Bool := (d ++ "/").data.isPrefixOf x.data

/-- `x` is `d` itself or lies under it. -/
def strUnderEq (d x : String) : Bool := (x == d) || strUnder d x

/-- One string is a prefix of another. -/
def strPrefixB (pre s : String) : Bool := pre.data.isPrefixOf s.data

/-- The subtrees of two directories are disjoint. -/
def dirsDisjoint (a b : String) : Bool :=
  !((a ++ "/").data.isPrefixOf (b ++ "/").data)
    && !((b ++ "/").data.isPrefixOf (a ++ "/").data)

theorem strUnder_join (d s : String) : strUnder d (pathJoin d s) = true := by
  simp only [strUnder, pathJoin]
  rw [List.isPrefixOf_iff_prefix]
  rw [show ((d ++ "/") ++ s).data = (d ++ "/").data ++ s.data from String.data_append ..]
  exact List.prefix_append _ _

theorem ne_of_strUnderEq_false {d x : String} (h : strUnderEq d x = false) : x ≠ d := by
  intro he
  subst he
  simp [strUnderEq] at h

theorem ne_join_of_strUnderEq_false {d x : String} (h : strUnderEq d x = false) :
    ∀ s, x ≠ pathJoin d s := by
  intro s he
  subst he
  simp only [strUnderEq, Bool.or_eq_false_iff] at h
  rw [strUnder_join] at h
  exact Bool.noConfusion h.2

theorem pathJoin_nest (d a b : String) :
    pathJoin (pathJoin d a) b = pathJoin d (a ++ "/" ++ b) := by
  simp only [pathJoin, String.append_assoc]

theorem tempName_join (d f tag : String) :
    tempName (pathJoin d f) tag = pathJoin d (f ++ ".tmp-" ++ tag) := by
  simp only [tempName, pathJoin, String.append_assoc]

theorem strData_length_append (a b : String) :
    (a ++ b).data.length = a.data.length + b.data.length := by
  rw [String.data_append, List.length_append]

theorem tempName_ne_self (p tag : String) : tempName p tag ≠ p := by
  intro h
  have := congrArg (fun s : String => s.data.length) h
  simp only [tempName] at this
  rw [strData_length_append, strData_length_append] at this
  have h5 : (".tmp-" : String).data.length = 5 := rfl
  omega

theorem pathJoin_inj {d a b : String} (h : pathJoin d a = pathJoin d b) : a = b := by
  apply String.ext
  have := congrArg String.data h
  simp only [pathJoin, String.data_append] at this
  exact List.append_cancel_left this

theorem pathJoin_ne_self (d s : String) : pathJoin d s ≠ d := by
  intro h
  have := congrArg (fun t : String => t.data.length) h
  simp only [pathJoin] at this
  rw [strData_length_append, strData_length_append] at this
  have h1 : ("/" : String).data.length = 1 := rfl
  omega

theorem dirsDisjoint_join {a b : String} (h : dirsDisjoint a b = true) (s t : String) :
    pathJoin a s ≠ pathJoin b t := by
  intro he
  simp only [pathJoin] at he
  have hd : (a ++ "/").data ++ s.data = (b ++ "/").data ++ t.data := by
    have := congrArg String.data he
    rw [String.data_append, String.data_append] at this
    exact this
  have hp1 : (a ++ "/").data <+: (b ++ "/").data ++ t.data := by
    rw [← hd]
    exact List.prefix_append _ _
  have hp2 : (b ++ "/").data <+: (b ++ "/").data ++ t.data := List.prefix_append _ _
  simp only [dirsDisjoint, Bool.and_eq_true, Bool.not_eq_true'] at h
  rcases List.prefix_or_prefix_of_prefix hp1 hp2 with hp | hp
  · rw [← List.isPrefixOf_iff_prefix, h.1] at hp
    exact Bool.noConfusion hp
  · rw [← List.isPrefixOf_iff_prefix, h.2] at hp
    exact Bool.noConfusion hp

theorem strUnder_nest (d a b : String) :
    strUnder d (pathJoin (pathJoin d a) b) = true := by
  rw [pathJoin_nest]
  exact strUnder_join d _

theorem ne_join_join_of_strUnderEq_false {d x : String} (h : strUnderEq d x = false)
    (a b : String) : x ≠ pathJoin (pathJoin d a) b := by
  rw [pathJoin_nest]
  exact ne_join_of_strUnderEq_false h _

/-! ## Adapters (`src/adapters/*`) -/

/-- The key of an agent in native paths and in `meta.json`. -/
def agentKey : AgentName → String
  | .codex => "codex"
  | .gemini => "gemini"
  | .claude => "claude"
  | .vscode => "vscode"
  | .antigravity => "antigravity"

/-- `path.extname`: the suffix from the last dot of the basename, empty if
there is no dot or the only dot is the leading character of the basename. -/
def extname (p : String) : String :=
  let cs := (p.data.reverse.takeWhile (fun c => c ≠ '/')).reverse
  let after := cs.reverse.takeWhile (fun c => c ≠ '.')
  if after.length = cs.length then ""
  else if after.length + 1 = cs.length then ""
  else "." ++ String.mk after.reverse

/-- Load result of an adapter (`LoadResult` in `src/adapters/base.ts`);
`existsFlag` is the `exists` field. -/
structure LoadResult where
  existsFlag : Bool
  data : JValue
deriving Repr

/-- The shared shape of every adapter's `load`: a missing file, or a file
whose content is empty or whitespace, is `exists: false` with the adapter's
empty native document; otherwise the dialect parser runs (its error is
propagated). This is the literal body of `CodexAdapter.load`,
`GeminiAdapter.load`, `ClaudeAdapter.load` and `VscodeAdapter.load`, each
instantiated with its own parser and empty shape. -/
def adapterLoad (parse : String → Except String JValue) (empty : JValue)
    (content : Option String) : Except String LoadResult :=
  match content with
  | none => .ok ⟨false, empty⟩
  | some s =>
    if trimChars s = "" then .ok ⟨false, empty⟩
    else
      match parse s with
      | .error e => .error e
      | .ok d => .ok ⟨true, d⟩

/-- An agent adapter (the interface of `src/adapters/base.ts`), with the
dialect parser/serializer of the external TOML/JSON libraries taken as
function parameters. `resolvePathM` may probe the filesystem (the Claude
adapter does). -/
structure AdapterM where
  agent : AgentName
  resolvePathM : TargetConfig → Machine → String × Machine
  parse : String → Except String JValue
  createEmpty : JValue
  extractServers : JValue → List (String × JValue)
  withServers : JValue → List (String × JValue) → JValue
  normalizeServer : String → JValue → Except String JValue
  format : JValue → String

/-- `AgentPlan` from `src/planner.ts`. -/
structure AgentPlan where
  agent : AgentName
  path : String
  adapter : AdapterM
  targetConfig : TargetConfig
  fileExists : Bool
  currentData : JValue
  currentServers : List (String × JValue)
  desiredServers : List (String × JValue)
  diff : ServerDiff
  skillsDir : String
  currentSkills : List (String × SkillMaterialized)
  desiredSkills : List (String × SkillMaterialized)
  skillsDiff : ServerDiff
  skillsManifestExists : Bool

/-! ## The sync/snapshot engine (`src/sync.ts`) -/

/-- `getManifestPath` from `src/skills.ts`. -/
def getManifestPath (skillsDir : String) : String :=
  pathJoin skillsDir ".uac-skills-manifest.json"

/-- `writeTextAtomic` from `src/utils/fs.ts`: write the full content to a
temp file in the same directory, then rename it over the target. The
parent-directory creation has no effect on the file map. -/
def writeTextAtomicM (tag : String) (m : Machine) (p : String) (d : FData) : Machine :=
  stepM (stepM m (.writeTemp (tempName p tag) d)) (.renameOp (tempName p tag) p)

/-- `copyIfExists` from `src/utils/fs.ts`. -/
def copyIfExistsM (m : Machine) (src dst : String) : Bool × Machine :=
  if fsPathExists m.fs src then (true, stepM m (.copyOp src dst)) else (false, m)

/-- The serialized native document `applyPlan` writes for a plan. -/
def mcpSerialized (plan : AgentPlan) : FData :=
  .text (plan.adapter.format (plan.adapter.withServers plan.currentData plan.desiredServers))

/-- The backup file name `${plan.agent}${path.extname(plan.path) || ".bak"}`. -/
def backupFileName (plan : AgentPlan) : String :=
  agentKey plan.agent ++ (if extname plan.path = "" then ".bak" else extname plan.path)

/-- The per-agent skills backup directory inside the snapshot. -/
def agentBackupDir (snapshotDir : String) (plan : AgentPlan) : String :=
  pathJoin (pathJoin snapshotDir "skills") (agentKey plan.agent)

/-- `backupSkillsState` from `src/sync.ts`. -/
def backupSkillsStateM (tag snapshotDir : String) (plan : AgentPlan) (m : Machine) :
    Machine × String :=
  let abd := agentBackupDir snapshotDir plan
  let m := stepM m (.mkdirOp abd)
  let m :=
    match fsGet m.fs (getManifestPath plan.skillsDir) with
    | some raw => writeTextAtomicM tag m (pathJoin abd "manifest.json") raw
    | none => m
  let m := plan.currentSkills.foldl (fun acc sk =>
    let src := pathJoin plan.skillsDir sk.2.fileName
    if fsPathExists acc.fs src then
      stepM acc (.copyOp src (pathJoin abd sk.2.fileName))
    else acc) m
  (m, abd)

/-- The order on manifest items: `items.sort((a, b) => a.id.localeCompare(b.id))`
(modelled as lexicographic comparison). -/
def itemLe (a b : ManifestItem) : Prop := strLe a.id b.id = true

instance : DecidableRel itemLe := fun a b => inferInstanceAs (Decidable (strLe a.id b.id = true))

/-- `applySkills` from `src/sync.ts`: delete managed files no longer
desired, write every desired skill atomically, then write the freshly-built
manifest (sorted by id) atomically, last. -/
def applySkillsM (tag : String) (plan : AgentPlan) (m : Machine) : Machine :=
  let manifestPath := getManifestPath plan.skillsDir
  let m := plan.currentSkills.foldl (fun acc p =>
    if (List.lookup p.1 plan.desiredSkills).isSome then acc
    else
      let fp := pathJoin plan.skillsDir p.2.fileName
      if fsPathExists acc.fs fp then stepM acc (.removeOp fp) else acc) m
  let m := plan.desiredSkills.foldl (fun acc p =>
    writeTextAtomicM tag acc (pathJoin plan.skillsDir p.2.fileName) (.text p.2.content)) m
  let manifest : SkillsManifest :=
    { version := 1
      items := List.insertionSort itemLe
        (plan.desiredSkills.map (fun p => { id := p.1, fileName := p.2.fileName })) }
  writeTextAtomicM tag m manifestPath (.manifestData manifest)

/-- One iteration of the `applyPlan` loop for a single plan. -/
def applyStepM (tag snapshotDir : String) (plan : AgentPlan) (m : Machine) :
    Machine × AppliedAgent :=
  let mcpChanged := hasDiff plan.diff
  let skillsChanged := hasDiff plan.skillsDiff
  let backupPath := pathJoin snapshotDir (backupFileName plan)
  let r1 :=
    if mcpChanged then
      match copyIfExistsM m plan.path backupPath with
      | (true, m') => (some backupPath, m')
      | (false, m') => (none, m')
    else (none, m)
  let mcpBackupPath := r1.1
  let m := r1.2
  let r2 :=
    if skillsChanged then
      let r := backupSkillsStateM tag snapshotDir plan m
      (some r.2, r.1)
    else (none, m)
  let skillsBackupDir := r2.1
  let m := r2.2
  let m := if mcpChanged then writeTextAtomicM tag m plan.path (mcpSerialized plan) else m
  let m := if skillsChanged then applySkillsM tag plan m else m
  (m,
    { agent := agentKey plan.agent
      mcpPath := plan.path
      mcpChanged := mcpChanged
      mcpBackupPath := mcpBackupPath
      mcpExistedBefore := plan.fileExists
      skillsDir := plan.skillsDir
      skillsChanged := skillsChanged
      skillsBackupDir := skillsBackupDir
      skillsManifestExistedBefore := plan.skillsManifestExists })

/-- The `applyPlan` loop over all plans, in order. -/
def applyLoopM (tag snapshotDir : String) :
    List AgentPlan → Machine → Machine × List AppliedAgent
  | [], m => (m, [])
  | p :: rest, m =>
    let r := applyStepM tag snapshotDir p m
    let r2 := applyLoopM tag snapshotDir rest r.1
    (r2.1, r.2 :: r2.2)

/-- `SyncResult` from `src/sync.ts`. -/
structure SyncResult where
  snapshotId : String
  snapshotDir : String
  applied : List AppliedAgent
deriving Repr, DecidableEq

/-- `applyPlan` from `src/sync.ts`. The snapshot id (derived from the
current time) and the temp-file tag are parameters. Note the final
`meta.json` write is a plain `writeFile`, not `writeTextAtomic`. -/
def applyPlanM (snapshotRoot snapshotId createdAt tag : String)
    (plans : List AgentPlan) (m : Machine) : Machine × SyncResult :=
  let snapshotDir := pathJoin snapshotRoot snapshotId
  let m := stepM m (.mkdirOp snapshotDir)
  let r := applyLoopM tag snapshotDir plans m
  let meta : RollbackMeta :=
    { snapshotId := snapshotId, createdAt := createdAt, applied := r.2 }
  let m := stepM r.1 (.writeDirect (pathJoin snapshotDir "meta.json") (.metaData meta))
  (m, { snapshotId := snapshotId, snapshotDir := snapshotDir, applied := r.2 })

/-- `restoreMcp` from `src/sync.ts`. -/
def restoreMcpM (m : Machine) (a : AppliedAgent) : Machine :=
  if !a.mcpChanged then m
  else
    match a.mcpBackupPath with
    | some bp =>
      if fsPathExists m.fs bp then stepM m (.copyOp bp a.mcpPath)
      else if !a.mcpExistedBefore && fsPathExists m.fs a.mcpPath then
        stepM m (.removeOp a.mcpPath)
      else m
    | none =>
      if !a.mcpExistedBefore && fsPathExists m.fs a.mcpPath then
        stepM m (.removeOp a.mcpPath)
      else m

/-- `currentManifestRaw.trim() === ""` (and the `null`/empty falsiness of the
raw manifest string). -/
def isBlank : FData → Bool
  | .text s => trimChars s == ""
  | _ => false

/-- `JSON.parse` of a manifest file: structurally stored manifests parse to
themselves; anything else models unparseable content. -/
def parseManifestData : FData → Option SkillsManifest
  | .manifestData man => some man
  | _ => none

/-- `JSON.parse` of `meta.json`. -/
def parseMetaData : FData → Option RollbackMeta
  | .metaData x => some x
  | _ => none

/-- `removeManagedSkillsFromCurrentManifest` from `src/sync.ts` (parse
failures of the current manifest are swallowed). -/
def removeManagedM (m : Machine) (skillsDir : String) : Machine :=
  match fsGet m.fs (getManifestPath skillsDir) with
  | none => m
  | some raw =>
    if isBlank raw then m
    else
      match parseManifestData raw with
      | none => m
      | some manifest =>
        manifest.items.foldl (fun acc it =>
          let fp := pathJoin skillsDir it.fileName
          if fsPathExists acc.fs fp then stepM acc (.removeOp fp) else acc) m

/-- The fall-through tail of `restoreSkills`: delete the manifest if no
skills existed before. -/
def restoreSkillsTailM (m : Machine) (a : AppliedAgent) : Machine :=
  let manifestPath := getManifestPath a.skillsDir
  if !a.skillsManifestExistedBefore && fsPathExists m.fs manifestPath then
    stepM m (.removeOp manifestPath)
  else m

/-- `restoreSkills` from `src/sync.ts`. The uncaught `JSON.parse` of the
backup manifest is the only throwing path. -/
def restoreSkillsM (tag : String) (m : Machine) (a : AppliedAgent) :
    Except String Machine :=
  if !a.skillsChanged then .ok m
  else
    let m := removeManagedM m a.skillsDir
    match a.skillsBackupDir with
    | some bd =>
      if fsPathExists m.fs bd then
        match fsGet m.fs (pathJoin bd "manifest.json") with
        | some raw =>
          if !(isBlank raw) then
            match parseManifestData raw with
            | none => .error "Failed to parse snapshot manifest"
            | some backupManifest =>
              let m := backupManifest.items.foldl (fun acc it =>
                let bf := pathJoin bd it.fileName
                if fsPathExists acc.fs bf then
                  stepM acc (.copyOp bf (pathJoin a.skillsDir it.fileName))
                else acc) m
              .ok (writeTextAtomicM tag m (getManifestPath a.skillsDir)
                (.manifestData backupManifest))
          else .ok (restoreSkillsTailM m a)
        | none => .ok (restoreSkillsTailM m a)
      else .ok (restoreSkillsTailM m a)
    | none => .ok (restoreSkillsTailM m a)

/-- The rollback loop: restore each targeted agent's native config, then
its skills, in order. -/
def rollbackLoopM (tag : String) : List AppliedAgent → Machine → Except String Machine
  | [], m => .ok m
  | a :: rest, m =>
    let m1 := restoreMcpM m a
    match restoreSkillsM tag m1 a with
    | .error e => .error e
    | .ok m2 => rollbackLoopM tag rest m2

/-- `rollbackSnapshot` from `src/sync.ts`. -/
def rollbackSnapshotM (snapshotRoot snapshotId : String) (agents : Option (List String))
    (tag : String) (m : Machine) : Except String (Machine × List AppliedAgent) :=
  let snapshotDir := pathJoin snapshotRoot snapshotId
  let metaPath := pathJoin snapshotDir "meta.json"
  match fsGet m.fs metaPath with
  | none => .error ("Snapshot not found: " ++ snapshotId)
  | some raw =>
    match parseMetaData raw with
    | none => .error "Failed to parse snapshot meta"
    | some meta =>
      let filter : Option (List String) :=
        match agents with
        | some l => if l.length > 0 then some l else none
        | none => none
      let targets := meta.applied.filter (fun it =>
        match filter with
        | some l => l.contains it.agent
        | none => true)
      match rollbackLoopM tag targets m with
      | .error e => .error e
      | .ok m' => .ok (m', targets)

/-! ## Decomposing runs of the engine into operation batches -/

/-- `MExt m ext m'`: machine `m'` is `m` after appending exactly the batch
`ext` to the trace and running it on the file map. -/
def MExt (m : Machine) (ext : List FsOp) (m' : Machine) : Prop :=
  m' = ⟨runOps m.fs ext, m.trace ++ ext⟩

theorem MExt_refl (m : Machine) : MExt m [] m := by
  simp [MExt, runOps]

theorem MExt_step (m : Machine) (op : FsOp) : MExt m [op] (stepM m op) := by
  simp [MExt, stepM, runOps]

theorem MExt_trans {m₁ m₂ m₃ : Machine} {e₁ e₂ : List FsOp}
    (h₁ : MExt m₁ e₁ m₂) (h₂ : MExt m₂ e₂ m₃) : MExt m₁ (e₁ ++ e₂) m₃ := by
  simp only [MExt] at h₁ h₂ ⊢
  subst h₁
  simp only [runOps_append] at h₂ ⊢
  rw [h₂]
  simp

theorem MExt_writeTextAtomic (tag : String) (m : Machine) (p : String) (d : FData) :
    MExt m [.writeTemp (tempName p tag) d, .renameOp (tempName p tag) p]
      (writeTextAtomicM tag m p d) := by
  simp only [writeTextAtomicM]
  exact MExt_trans (MExt_step m _) (MExt_step _ _)

theorem MExt_fsGet_frame {m : Machine} {ext : List FsOp} {m' : Machine}
    (h : MExt m ext m') (x : String) (hx : ∀ op ∈ ext, x ∉ opWrites op) :
    fsGet m'.fs x = fsGet m.fs x := by
  rw [h]
  exact fsGet_runOps_frame m.fs ext x hx

/-- Generic decomposition of a machine fold. -/
theorem MExt_foldl {α : Type} (f : Machine → α → Machine) (P : α → FsOp → Prop)
    (hf : ∀ m a, ∃ ext, MExt m ext (f m a) ∧ ∀ op ∈ ext, P a op) :
    ∀ (l : List α) (m : Machine),
      ∃ ext, MExt m ext (l.foldl f m) ∧ ∀ op ∈ ext, ∃ a ∈ l, P a op := by
  intro l
  induction l with
  | nil => intro m; exact ⟨[], MExt_refl m, fun op h => absurd h (List.not_mem_nil op)⟩
  | cons a rest ih =>
    intro m
    obtain ⟨e₁, he₁, hp₁⟩ := hf m a
    obtain ⟨e₂, he₂, hp₂⟩ := ih (f m a)
    refine ⟨e₁ ++ e₂, by simpa using MExt_trans he₁ he₂, ?_⟩
    intro op hop
    rcases List.mem_append.mp hop with h | h
    · exact ⟨a, List.mem_cons_self _ _, hp₁ op h⟩
    · obtain ⟨b, hb, hpb⟩ := hp₂ op h
      exact ⟨b, List.mem_cons_of_mem _ hb, hpb⟩

/-! ## More path facts -/

theorem strAppend_left_cancel {a b c : String} (h : a ++ b = a ++ c) : b = c := by
  apply String.ext
  have := congrArg String.data h
  rw [String.data_append, String.data_append] at this
  exact List.append_cancel_left this

/-- A string with no slash splits uniquely before the first slash. -/
theorem noslash_split {a b s t : String}
    (ha : ∀ c ∈ a.data, c ≠ '/') (hb : ∀ c ∈ b.data, c ≠ '/')
    (h : a ++ "/" ++ s = b ++ "/" ++ t) : a = b ∧ s = t := by
  have hd := congrArg String.data h
  simp only [String.data_append] at hd
  have key : ∀ (la lb ls lt : List Char), (∀ c ∈ la, c ≠ '/') → (∀ c ∈ lb, c ≠ '/') →
      la ++ ['/'] ++ ls = lb ++ ['/'] ++ lt → la = lb ∧ ls = lt := by
    intro la
    induction la with
    | nil =>
      intro lb ls lt _ hlb he
      rcases lb with _ | ⟨c, lb⟩
      · simpa using he
      · simp only [List.nil_append, List.cons_append, List.cons.injEq] at he
        exact absurd he.1.symm (hlb c (List.mem_cons_self _ _))
    | cons x la ih =>
      intro lb ls lt hla hlb he
      rcases lb with _ | ⟨c, lb⟩
      · simp only [List.nil_append, List.cons_append, List.cons.injEq] at he
        exact absurd he.1 (hla x (List.mem_cons_self _ _))
      · simp only [List.cons_append, List.cons.injEq] at he
        obtain ⟨hx, he⟩ := he
        have := ih lb ls lt (fun d hd' => hla d (List.mem_cons_of_mem _ hd'))
          (fun d hd' => hlb d (List.mem_cons_of_mem _ hd')) (by simpa using he)
        exact ⟨by rw [hx, this.1], this.2⟩
  have hres := key a.data b.data s.data t.data ha hb (by simpa using hd)
  exact ⟨String.ext hres.1, String.ext hres.2⟩

/-- A path strictly inside directory `b` cannot be the root of a disjoint
directory `a`. -/
theorem dirsDisjoint_join_ne {a b : String} (h : dirsDisjoint a b = true) (s : String) :
    pathJoin b s ≠ a := by
  intro he
  simp only [dirsDisjoint, Bool.and_eq_true, Bool.not_eq_true'] at h
  have hp : (b ++ "/").data <+: (a ++ "/").data := by
    have hd : (a ++ "/").data = (b ++ "/").data ++ (s ++ "/").data := by
      have := congrArg (fun x : String => (x ++ "/").data) he.symm
      simp only [pathJoin, String.data_append] at this ⊢
      simpa [List.append_assoc] using this
    rw [hd]
    exact List.prefix_append _ _
  rw [← List.isPrefixOf_iff_prefix, h.2] at hp
  exact Bool.noConfusion hp

/-- A string of the form `b ++ "/" ++ t` contains a slash. -/
theorem slash_mem_append (b t : String) : '/' ∈ (b ++ "/" ++ t).data := by
  simp only [String.data_append]
  exact List.mem_append.mpr (Or.inl (List.mem_append.mpr (Or.inr (by
    show '/' ∈ ("/" : String).data
    decide))))

theorem agentKey_no_slash (a : AgentName) : ∀ c ∈ (agentKey a).data, c ≠ '/' := by
  cases a <;> decide

/-- Fixed file names used by the engine contain no slash. -/
theorem noslash_of_all {s : String} (h : s.data.all (fun c => c != '/') = true) :
    ∀ c ∈ s.data, c ≠ '/' := by
  intro c hc
  have := List.all_eq_true.mp h c hc
  simpa using this

/-! ## Path abbreviations for the round-trip proof -/

/-- The backup path of a plan's native file inside the snapshot. -/
def bpPath (snapshotDir : String) (q : AgentPlan) : String :=
  pathJoin snapshotDir (backupFileName q)

/-- The backed-up skills manifest location of a plan inside the snapshot. -/
def bmpPath (snapshotDir : String) (q : AgentPlan) : String :=
  pathJoin (agentBackupDir snapshotDir q) "manifest.json"

/-- The live skills manifest location of a plan. -/
def mpPath (q : AgentPlan) : String := getManifestPath q.skillsDir

theorem agentBackupDir_eq (sd : String) (q : AgentPlan) :
    agentBackupDir sd q = pathJoin sd ("skills" ++ "/" ++ agentKey q.agent) := by
  simp only [agentBackupDir, pathJoin_nest]

theorem bmpPath_eq (sd : String) (q : AgentPlan) :
    bmpPath sd q = pathJoin sd ("skills" ++ "/" ++ (agentKey q.agent ++ "/" ++ "manifest.json")) := by
  simp only [bmpPath, agentBackupDir_eq, pathJoin_nest, String.append_assoc]

theorem abdJoin_eq (sd : String) (q : AgentPlan) (f : String) :
    pathJoin (agentBackupDir sd q) f = pathJoin sd ("skills" ++ "/" ++ (agentKey q.agent ++ "/" ++ f)) := by
  simp only [agentBackupDir_eq, pathJoin_nest, String.append_assoc]

/-- Data considered safe at a manifest location: nothing, blank text, or a
structurally stored manifest. -/
def saneData : Option FData → Bool
  | none => true
  | some (.text s) => trimChars s == ""
  | some (.manifestData _) => true
  | some (.metaData _) => false
  | some .dir => false

theorem fsGet_none_of_clean {sd : String} {fs : List (String × FData)}
    (h : ∀ e ∈ fs, strUnderEq sd e.1 = false) {x : String}
    (hx : strUnderEq sd x = true) : fsGet fs x = none := by
  induction fs with
  | nil => rfl
  | cons e rest ih =>
    obtain ⟨q, d⟩ := e
    have hq := h (q, d) (List.mem_cons_self _ _)
    have hne : q ≠ x := by
      intro he
      subst he
      rw [hq] at hx
      exact Bool.noConfusion hx
    simp only [fsGet, if_neg hne]
    exact ih (fun e he => h e (List.mem_cons_of_mem _ he))

/-! ## Write bounds of the engine's phases -/

/-- Paths `backupSkillsState` may touch. -/
def bkbWrites (sd tag : String) (q : AgentPlan) (x : String) : Prop :=
  x = agentBackupDir sd q ∨ x = bmpPath sd q ∨ x = tempName (bmpPath sd q) tag
  ∨ ∃ sk ∈ q.currentSkills, x = pathJoin (agentBackupDir sd q) sk.2.fileName

/-- Paths one `applyPlan` iteration may touch. -/
def stepWrites (sd tag : String) (q : AgentPlan) (x : String) : Prop :=
  x = bpPath sd q ∨ bkbWrites sd tag q x ∨ x = q.path ∨ x = tempName q.path tag
  ∨ ∃ f, x = pathJoin q.skillsDir f

theorem MExt_backupSkills (tag sd : String) (q : AgentPlan) (m : Machine) :
    ∃ ext, MExt m ext (backupSkillsStateM tag sd q m).1
      ∧ (backupSkillsStateM tag sd q m).2 = agentBackupDir sd q
      ∧ ∀ op ∈ ext, ∀ x ∈ opWrites op, bkbWrites sd tag q x := by
  have hfold : ∀ mm : Machine,
      ∃ ext, MExt mm ext (q.currentSkills.foldl (fun acc sk =>
          if fsPathExists acc.fs (pathJoin q.skillsDir sk.2.fileName) then
            stepM acc (.copyOp (pathJoin q.skillsDir sk.2.fileName)
              (pathJoin (agentBackupDir sd q) sk.2.fileName))
          else acc) mm)
        ∧ ∀ op ∈ ext, ∀ x ∈ opWrites op,
          ∃ sk ∈ q.currentSkills, x = pathJoin (agentBackupDir sd q) sk.2.fileName := by
    intro mm
    have h := MExt_foldl (α := String × SkillMaterialized)
      (fun acc sk =>
        if fsPathExists acc.fs (pathJoin q.skillsDir sk.2.fileName) then
          stepM acc (.copyOp (pathJoin q.skillsDir sk.2.fileName)
            (pathJoin (agentBackupDir sd q) sk.2.fileName))
        else acc)
      (fun sk op => ∀ x ∈ opWrites op, x = pathJoin (agentBackupDir sd q) sk.2.fileName)
      (by
        intro mc sk
        by_cases hex : fsPathExists mc.fs (pathJoin q.skillsDir sk.2.fileName) = true
        · refine ⟨[.copyOp (pathJoin q.skillsDir sk.2.fileName)
            (pathJoin (agentBackupDir sd q) sk.2.fileName)], ?_, ?_⟩
          · simp only [hex, if_true]
            exact MExt_step mc _
          · intro op hop x hx
            rcases List.mem_singleton.mp hop with rfl
            simp only [opWrites, List.mem_singleton] at hx
            exact hx
        · refine ⟨[], ?_, fun op hop => absurd hop (List.not_mem_nil op)⟩
          simp only [if_neg hex]
          exact MExt_refl mc)
      q.currentSkills mm
    obtain ⟨ext, he, hb⟩ := h
    refine ⟨ext, he, ?_⟩
    intro op hop x hx
    obtain ⟨sk, hsk, hp⟩ := hb op hop
    exact ⟨sk, hsk, hp x hx⟩
  simp only [backupSkillsStateM]
  set m1 := stepM m (.mkdirOp (agentBackupDir sd q)) with hm1
  rcases hraw : fsGet m1.fs (getManifestPath q.skillsDir) with _ | raw
  · obtain ⟨e3, he3, hb3⟩ := hfold m1
    refine ⟨.mkdirOp (agentBackupDir sd q) :: e3, ?_, by trivial, ?_⟩
    · simp only [hraw]
      have := MExt_trans (MExt_step m (.mkdirOp (agentBackupDir sd q))) he3
      simpa using this
    · intro op hop x hx
      rcases List.mem_cons.mp hop with rfl | hop
      · simp only [opWrites, List.mem_singleton] at hx
        exact Or.inl hx
      · obtain ⟨sk, hsk, hp⟩ := hb3 op hop x hx
        exact Or.inr (Or.inr (Or.inr ⟨sk, hsk, hp⟩))
  · set m2 := writeTextAtomicM tag m1 (pathJoin (agentBackupDir sd q) "manifest.json") raw
      with hm2
    obtain ⟨e3, he3, hb3⟩ := hfold m2
    refine ⟨.mkdirOp (agentBackupDir sd q)
        :: .writeTemp (tempName (pathJoin (agentBackupDir sd q) "manifest.json") tag) raw
        :: .renameOp (tempName (pathJoin (agentBackupDir sd q) "manifest.json") tag)
            (pathJoin (agentBackupDir sd q) "manifest.json")
        :: e3, ?_, by trivial, ?_⟩
    · simp only [hraw]
      have h12 := MExt_trans (MExt_step m (.mkdirOp (agentBackupDir sd q)))
        (MExt_writeTextAtomic tag m1 (pathJoin (agentBackupDir sd q) "manifest.json") raw)
      have := MExt_trans h12 he3
      simpa using this
    · intro op hop x hx
      rcases List.mem_cons.mp hop with rfl | hop
      · simp only [opWrites, List.mem_singleton] at hx
        exact Or.inl hx
      rcases List.mem_cons.mp hop with rfl | hop
      · simp only [opWrites, List.mem_singleton] at hx
        exact Or.inr (Or.inr (Or.inl (by rw [hx]; rfl)))
      rcases List.mem_cons.mp hop with rfl | hop
      · simp only [opWrites, List.mem_cons, List.mem_singleton] at hx
        rcases hx with rfl | hx
        · exact Or.inr (Or.inr (Or.inl rfl))
        rcases hx with rfl | hx
        · exact Or.inr (Or.inl rfl)
        · exact absurd hx (List.not_mem_nil x)
      · obtain ⟨sk, hsk, hp⟩ := hb3 op hop x hx
        exact Or.inr (Or.inr (Or.inr ⟨sk, hsk, hp⟩))

theorem MExt_applySkills (tag : String) (q : AgentPlan) (m : Machine) :
    ∃ ext, MExt m ext (applySkillsM tag q m)
      ∧ ∀ op ∈ ext, ∀ x ∈ opWrites op, ∃ f, x = pathJoin q.skillsDir f := by
  have h1 := MExt_foldl (α := String × SkillMaterialized)
    (fun acc p =>
      if (List.lookup p.1 q.desiredSkills).isSome then acc
      else
        if fsPathExists acc.fs (pathJoin q.skillsDir p.2.fileName) then
          stepM acc (.removeOp (pathJoin q.skillsDir p.2.fileName))
        else acc)
    (fun p op => ∀ x ∈ opWrites op, x = pathJoin q.skillsDir p.2.fileName)
    (by
      intro mc p
      by_cases hd : (List.lookup p.1 q.desiredSkills).isSome = true
      · refine ⟨[], ?_, fun op hop => absurd hop (List.not_mem_nil op)⟩
        simp only [hd, if_true]
        exact MExt_refl mc
      · by_cases hex : fsPathExists mc.fs (pathJoin q.skillsDir p.2.fileName) = true
        · refine ⟨[.removeOp (pathJoin q.skillsDir p.2.fileName)], ?_, ?_⟩
          · simp only [if_neg hd, hex, if_true]
            exact MExt_step mc _
          · intro op hop x hx
            rcases List.mem_singleton.mp hop with rfl
            simpa only [opWrites, List.mem_singleton] using hx
        · refine ⟨[], ?_, fun op hop => absurd hop (List.not_mem_nil op)⟩
          simp only [if_neg hd, if_neg hex]
          exact MExt_refl mc)
    q.currentSkills m
  obtain ⟨e1, he1, hb1⟩ := h1
  have h2 := MExt_foldl (α := String × SkillMaterialized)
    (fun acc p =>
      writeTextAtomicM tag acc (pathJoin q.skillsDir p.2.fileName) (.text p.2.content))
    (fun p op => ∀ x ∈ opWrites op,
      x = pathJoin q.skillsDir p.2.fileName
      ∨ x = tempName (pathJoin q.skillsDir p.2.fileName) tag)
    (by
      intro mc p
      refine ⟨[.writeTemp (tempName (pathJoin q.skillsDir p.2.fileName) tag)
          (.text p.2.content),
        .renameOp (tempName (pathJoin q.skillsDir p.2.fileName) tag)
          (pathJoin q.skillsDir p.2.fileName)], MExt_writeTextAtomic tag mc _ _, ?_⟩
      intro op hop x hx
      rcases List.mem_cons.mp hop with rfl | hop
      · simp only [opWrites, List.mem_singleton] at hx
        exact Or.inr hx
      rcases List.mem_cons.mp hop with rfl | hop
      · simp only [opWrites, List.mem_cons, List.mem_singleton] at hx
        rcases hx with rfl | hx
        · exact Or.inr rfl
        rcases hx with rfl | hx
        · exact Or.inl rfl
        · exact absurd hx (List.not_mem_nil x)
      · exact absurd hop (List.not_mem_nil op))
    q.desiredSkills
    (q.currentSkills.foldl (fun acc p =>
      if (List.lookup p.1 q.desiredSkills).isSome then acc
      else
        if fsPathExists acc.fs (pathJoin q.skillsDir p.2.fileName) then
          stepM acc (.removeOp (pathJoin q.skillsDir p.2.fileName))
        else acc) m)
  obtain ⟨e2, he2, hb2⟩ := h2
  set manifestVal : FData := .manifestData
    { version := 1
      items := List.insertionSort itemLe
        (q.desiredSkills.map (fun p => { id := p.1, fileName := p.2.fileName })) }
    with hmv
  refine ⟨e1 ++ (e2 ++ [.writeTemp (tempName (getManifestPath q.skillsDir) tag) manifestVal,
    .renameOp (tempName (getManifestPath q.skillsDir) tag) (getManifestPath q.skillsDir)]),
    ?_, ?_⟩
  · exact MExt_trans he1 (MExt_trans he2 (MExt_writeTextAtomic tag _ _ _))
  · intro op hop x hx
    rcases List.mem_append.mp hop with hop | hop
    · obtain ⟨p, hp, hw⟩ := hb1 op hop
      exact ⟨p.2.fileName, hw x hx⟩
    rcases List.mem_append.mp hop with hop | hop
    · obtain ⟨p, hp, hw⟩ := hb2 op hop
      rcases hw x hx with h | h
      · exact ⟨p.2.fileName, h⟩
      · rw [h, tempName_join]
        exact ⟨_, rfl⟩
    rcases List.mem_cons.mp hop with rfl | hop
    · simp only [opWrites, List.mem_singleton] at hx
      rw [hx, getManifestPath, tempName_join]
      exact ⟨_, rfl⟩
    rcases List.mem_cons.mp hop with rfl | hop
    · simp only [opWrites, List.mem_cons, List.mem_singleton] at hx
      rcases hx with rfl | hx
      · rw [getManifestPath, tempName_join]
        exact ⟨_, rfl⟩
      rcases hx with rfl | hx
      · exact ⟨".uac-skills-manifest.json", rfl⟩
      · exact absurd hx (List.not_mem_nil x)
    · exact absurd hop (List.not_mem_nil op)

/-! ## Further separation lemmas for the round-trip proof -/

theorem not_strUnder_of_dirsDisjoint {a b : String} (h : dirsDisjoint a b = true)
    (f : String) : strUnder a (pathJoin b f) = false := by
  cases hu : strUnder a (pathJoin b f) with
  | false => rfl
  | true =>
    exfalso
    simp only [strUnder, pathJoin] at hu
    rw [List.isPrefixOf_iff_prefix] at hu
    have hp1 : (a ++ "/").data <+: ((b ++ "/") ++ f).data := hu
    have hp2 : (b ++ "/").data <+: ((b ++ "/") ++ f).data := by
      rw [show ((b ++ "/") ++ f).data = (b ++ "/").data ++ f.data from String.data_append ..]
      exact List.prefix_append _ _
    simp only [dirsDisjoint, Bool.and_eq_true, Bool.not_eq_true'] at h
    rcases List.prefix_or_prefix_of_prefix hp1 hp2 with hp | hp
    · rw [← List.isPrefixOf_iff_prefix, h.1] at hp
      exact Bool.noConfusion hp
    · rw [← List.isPrefixOf_iff_prefix, h.2] at hp
      exact Bool.noConfusion hp

theorem not_strUnderEq_of_dirsDisjoint {a b : String} (h : dirsDisjoint a b = true)
    (f : String) : strUnderEq a (pathJoin b f) = false := by
  simp only [strUnderEq, Bool.or_eq_false_iff]
  exact ⟨beq_eq_false_iff_ne.mpr (dirsDisjoint_join_ne h f),
    not_strUnder_of_dirsDisjoint h f⟩

theorem strUnderEq_join_true (d f : String) : strUnderEq d (pathJoin d f) = true := by
  simp only [strUnderEq, strUnder_join, Bool.or_true]

theorem ne_of_under_tf {d x y : String} (hx : strUnderEq d x = true)
    (hy : strUnderEq d y = false) : x ≠ y := by
  intro he
  rw [he, hy] at hx
  exact Bool.noConfusion hx

theorem noslash_ne_slashed {a x y : String} (ha : ∀ c ∈ a.data, c ≠ '/') :
    a ≠ x ++ "/" ++ y := by
  intro he
  exact ha '/' (he ▸ slash_mem_append x y) rfl

theorem metaJson_no_slash : ∀ c ∈ ("meta.json" : String).data, c ≠ '/' := by decide

theorem manifestJson_no_slash : ∀ c ∈ ("manifest.json" : String).data, c ≠ '/' := by decide

theorem dirsDisjoint_comm (a b : String) : dirsDisjoint a b = dirsDisjoint b a := by
  simp only [dirsDisjoint, Bool.and_comm]

/-- Every path `backupSkillsState` can write lies under `sd/skills/agent`. -/
theorem bkbWrites_form {sd tag : String} {q : AgentPlan} {x : String}
    (h : bkbWrites sd tag q x) :
    x = agentBackupDir sd q
    ∨ ∃ f, x = pathJoin sd ("skills" ++ "/" ++ (agentKey q.agent ++ "/" ++ f)) := by
  rcases h with h | h | h | ⟨sk, hsk, h⟩
  · exact Or.inl h
  · exact Or.inr ⟨"manifest.json", by rw [h, bmpPath_eq]⟩
  · refine Or.inr ⟨"manifest.json" ++ ".tmp-" ++ tag, ?_⟩
    rw [h, bmpPath, tempName_join, abdJoin_eq]
  · exact Or.inr ⟨sk.2.fileName, by rw [h, abdJoin_eq]⟩

/-- Every path `backupSkillsState` can write lies under the snapshot. -/
theorem bkbWrites_under {sd tag : String} {q : AgentPlan} {x : String}
    (h : bkbWrites sd tag q x) : strUnderEq sd x = true := by
  rcases bkbWrites_form h with h | ⟨f, h⟩
  · rw [h, agentBackupDir_eq]
    exact strUnderEq_join_true sd _
  · rw [h]
    exact strUnderEq_join_true sd _

/-! ## Phase decomposition of one `applyPlan` iteration -/

/-- Phase 1 of an `applyPlan` iteration: back up the native file. -/
def phase1M (sd : String) (q : AgentPlan) (m : Machine) : Machine :=
  if hasDiff q.diff then (copyIfExistsM m q.path (bpPath sd q)).2 else m

/-- Phase 2: back up the skills state. -/
def phase2M (tag sd : String) (q : AgentPlan) (m : Machine) : Machine :=
  if hasDiff q.skillsDiff then (backupSkillsStateM tag sd q m).1 else m

/-- Phase 3: write the new native config atomically. -/
def phase3M (tag : String) (q : AgentPlan) (m : Machine) : Machine :=
  if hasDiff q.diff then writeTextAtomicM tag m q.path (mcpSerialized q) else m

/-- Phase 4: apply the skills changes. -/
def phase4M (tag : String) (q : AgentPlan) (m : Machine) : Machine :=
  if hasDiff q.skillsDiff then applySkillsM tag q m else m

theorem applyStepM_fst (tag sd : String) (q : AgentPlan) (m : Machine) :
    (applyStepM tag sd q m).1
      = phase4M tag q (phase3M tag q (phase2M tag sd q (phase1M sd q m))) := by
  simp only [applyStepM, phase1M, phase2M, phase3M, phase4M, bpPath]
  by_cases hmc : hasDiff q.diff = true
  · rcases hc : copyIfExistsM m q.path (pathJoin sd (backupFileName q)) with ⟨b, m'⟩
    cases b <;> by_cases hsk : hasDiff q.skillsDiff = true <;> simp [hmc, hc, hsk]
  · by_cases hsk : hasDiff q.skillsDiff = true <;> simp [hmc, hsk]

theorem applyStepM_snd (tag sd : String) (q : AgentPlan) (m : Machine) :
    (applyStepM tag sd q m).2 =
      { agent := agentKey q.agent
        mcpPath := q.path
        mcpChanged := hasDiff q.diff
        mcpBackupPath :=
          if hasDiff q.diff && fsPathExists m.fs q.path then some (bpPath sd q) else none
        mcpExistedBefore := q.fileExists
        skillsDir := q.skillsDir
        skillsChanged := hasDiff q.skillsDiff
        skillsBackupDir :=
          if hasDiff q.skillsDiff then some (agentBackupDir sd q) else none
        skillsManifestExistedBefore := q.skillsManifestExists } := by
  simp only [applyStepM, copyIfExistsM, bpPath]
  by_cases hmc : hasDiff q.diff = true
  · by_cases hex : fsPathExists m.fs q.path = true
    · by_cases hsk : hasDiff q.skillsDiff = true
      · simp [hmc, hex, hsk, backupSkillsStateM]
      · simp [hmc, hex, hsk]
    · by_cases hsk : hasDiff q.skillsDiff = true
      · simp [hmc, hex, hsk, backupSkillsStateM]
      · simp [hmc, hex, hsk]
  · by_cases hsk : hasDiff q.skillsDiff = true
    · simp [hmc, hsk, backupSkillsStateM]
    · simp [hmc, hsk]

theorem MExt_phase1 (sd : String) (q : AgentPlan) (m : Machine) :
    ∃ ext, MExt m ext (phase1M sd q m)
      ∧ ∀ op ∈ ext, ∀ x ∈ opWrites op, x = bpPath sd q := by
  by_cases hmc : hasDiff q.diff = true
  · simp only [phase1M, hmc, if_true, copyIfExistsM]
    by_cases hex : fsPathExists m.fs q.path = true
    · refine ⟨[.copyOp q.path (bpPath sd q)], ?_, ?_⟩
      · simp only [hex, if_true]
        exact MExt_step m _
      · intro op hop x hx
        rcases List.mem_singleton.mp hop with rfl
        simpa only [opWrites, List.mem_singleton] using hx
    · refine ⟨[], ?_, fun op hop => absurd hop (List.not_mem_nil op)⟩
      simp only [if_neg hex]
      exact MExt_refl m
  · refine ⟨[], ?_, fun op hop => absurd hop (List.not_mem_nil op)⟩
    simp only [phase1M, if_neg hmc]
    exact MExt_refl m

theorem MExt_phase2 (tag sd : String) (q : AgentPlan) (m : Machine) :
    ∃ ext, MExt m ext (phase2M tag sd q m)
      ∧ ∀ op ∈ ext, ∀ x ∈ opWrites op, bkbWrites sd tag q x := by
  by_cases hsk : hasDiff q.skillsDiff = true
  · obtain ⟨ext, he, _, hb⟩ := MExt_backupSkills tag sd q m
    refine ⟨ext, ?_, hb⟩
    simp only [phase2M, hsk, if_true]
    exact he
  · refine ⟨[], ?_, fun op hop => absurd hop (List.not_mem_nil op)⟩
    simp only [phase2M, if_neg hsk]
    exact MExt_refl m

theorem MExt_phase3 (tag : String) (q : AgentPlan) (m : Machine) :
    ∃ ext, MExt m ext (phase3M tag q m)
      ∧ ∀ op ∈ ext, ∀ x ∈ opWrites op, x = q.path ∨ x = tempName q.path tag := by
  by_cases hmc : hasDiff q.diff = true
  · refine ⟨[.writeTemp (tempName q.path tag) (mcpSerialized q),
      .renameOp (tempName q.path tag) q.path], ?_, ?_⟩
    · simp only [phase3M, hmc, if_true]
      exact MExt_writeTextAtomic tag m q.path (mcpSerialized q)
    · intro op hop x hx
      rcases List.mem_cons.mp hop with rfl | hop
      · simp only [opWrites, List.mem_singleton] at hx
        exact Or.inr hx
      rcases List.mem_cons.mp hop with rfl | hop
      · simp only [opWrites, List.mem_cons, List.mem_singleton] at hx
        rcases hx with rfl | hx
        · exact Or.inr rfl
        rcases hx with rfl | hx
        · exact Or.inl rfl
        · exact absurd hx (List.not_mem_nil x)
      · exact absurd hop (List.not_mem_nil op)
  · refine ⟨[], ?_, fun op hop => absurd hop (List.not_mem_nil op)⟩
    simp only [phase3M, if_neg hmc]
    exact MExt_refl m

theorem MExt_phase4 (tag : String) (q : AgentPlan) (m : Machine) :
    ∃ ext, MExt m ext (phase4M tag q m)
      ∧ ∀ op ∈ ext, ∀ x ∈ opWrites op, ∃ f, x = pathJoin q.skillsDir f := by
  by_cases hsk : hasDiff q.skillsDiff = true
  · obtain ⟨ext, he, hb⟩ := MExt_applySkills tag q m
    refine ⟨ext, ?_, hb⟩
    simp only [phase4M, hsk, if_true]
    exact he
  · refine ⟨[], ?_, fun op hop => absurd hop (List.not_mem_nil op)⟩
    simp only [phase4M, if_neg hsk]
    exact MExt_refl m

theorem MExt_applyStep (tag sd : String) (q : AgentPlan) (m : Machine) :
    ∃ ext, MExt m ext (applyStepM tag sd q m).1
      ∧ ∀ op ∈ ext, ∀ x ∈ opWrites op, stepWrites sd tag q x := by
  obtain ⟨e1, h1, b1⟩ := MExt_phase1 sd q m
  obtain ⟨e2, h2, b2⟩ := MExt_phase2 tag sd q (phase1M sd q m)
  obtain ⟨e3, h3, b3⟩ := MExt_phase3 tag q (phase2M tag sd q (phase1M sd q m))
  obtain ⟨e4, h4, b4⟩ := MExt_phase4 tag q
    (phase3M tag q (phase2M tag sd q (phase1M sd q m)))
  refine ⟨e1 ++ (e2 ++ (e3 ++ e4)), ?_, ?_⟩
  · rw [applyStepM_fst]
    exact MExt_trans h1 (MExt_trans h2 (MExt_trans h3 h4))
  · intro op hop x hx
    rcases List.mem_append.mp hop with hop | hop
    · exact Or.inl (b1 op hop x hx)
    rcases List.mem_append.mp hop with hop | hop
    · exact Or.inr (Or.inl (b2 op hop x hx))
    rcases List.mem_append.mp hop with hop | hop
    · rcases b3 op hop x hx with h | h
      · exact Or.inr (Or.inr (Or.inl h))
      · exact Or.inr (Or.inr (Or.inr (Or.inl h)))
    · exact Or.inr (Or.inr (Or.inr (Or.inr (b4 op hop x hx))))

theorem MExt_applyLoop (tag sd : String) :
    ∀ (l : List AgentPlan) (m : Machine),
      ∃ ext, MExt m ext (applyLoopM tag sd l m).1
        ∧ ∀ op ∈ ext, ∀ x ∈ opWrites op, ∃ q ∈ l, stepWrites sd tag q x := by
  intro l
  induction l with
  | nil => intro m; exact ⟨[], MExt_refl m, fun op hop => absurd hop (List.not_mem_nil op)⟩
  | cons q rest ih =>
    intro m
    obtain ⟨e1, h1, b1⟩ := MExt_applyStep tag sd q m
    obtain ⟨e2, h2, b2⟩ := ih (applyStepM tag sd q m).1
    refine ⟨e1 ++ e2, ?_, ?_⟩
    · simpa only [applyLoopM] using MExt_trans h1 h2
    · intro op hop x hx
      rcases List.mem_append.mp hop with hop | hop
      · exact ⟨q, List.mem_cons_self _ _, b1 op hop x hx⟩
      · obtain ⟨r, hr, hw⟩ := b2 op hop x hx
        exact ⟨r, List.mem_cons_of_mem _ hr, hw⟩

/-! ## Positive tracking of the backup contents -/

theorem fsGet_writeTextAtomic_self (tag : String) (m : Machine) (p : String) (d : FData) :
    fsGet (writeTextAtomicM tag m p d).fs p = some d := by
  show fsGet (applyOp (applyOp m.fs (.writeTemp (tempName p tag) d))
    (.renameOp (tempName p tag) p)) p = some d
  simp only [applyOp, fsGet_fsSet_self]

theorem phase1_bp (sd : String) (q : AgentPlan) (m : Machine) (h : hasDiff q.diff = true)
    (hex : fsPathExists m.fs q.path = true) :
    fsGet (phase1M sd q m).fs (bpPath sd q) = fsGet m.fs q.path := by
  rcases hd : fsGet m.fs q.path with _ | d
  · rw [fsPathExists, hd] at hex
    exact Bool.noConfusion hex
  · have hm : phase1M sd q m = stepM m (.copyOp q.path (bpPath sd q)) := by
      simp only [phase1M, h, if_true, copyIfExistsM, hex, if_true]
    rw [hm]
    show fsGet (applyOp m.fs (.copyOp q.path (bpPath sd q))) (bpPath sd q) = some d
    simp only [applyOp, hd]
    exact fsGet_fsSet_self _ _ _

/-- The file-copy fold of `backupSkillsState`, as a reusable batch. -/
theorem MExt_skillsCopyFold (sd : String) (q : AgentPlan) (mm : Machine) :
    ∃ ext, MExt mm ext (q.currentSkills.foldl (fun acc sk =>
        if fsPathExists acc.fs (pathJoin q.skillsDir sk.2.fileName) then
          stepM acc (.copyOp (pathJoin q.skillsDir sk.2.fileName)
            (pathJoin (agentBackupDir sd q) sk.2.fileName))
        else acc) mm)
      ∧ ∀ op ∈ ext, ∀ x ∈ opWrites op,
        ∃ sk ∈ q.currentSkills, x = pathJoin (agentBackupDir sd q) sk.2.fileName := by
  have h := MExt_foldl (α := String × SkillMaterialized)
    (fun acc sk =>
      if fsPathExists acc.fs (pathJoin q.skillsDir sk.2.fileName) then
        stepM acc (.copyOp (pathJoin q.skillsDir sk.2.fileName)
          (pathJoin (agentBackupDir sd q) sk.2.fileName))
      else acc)
    (fun sk op => ∀ x ∈ opWrites op, x = pathJoin (agentBackupDir sd q) sk.2.fileName)
    (by
      intro mc sk
      by_cases hex : fsPathExists mc.fs (pathJoin q.skillsDir sk.2.fileName) = true
      · refine ⟨[.copyOp (pathJoin q.skillsDir sk.2.fileName)
          (pathJoin (agentBackupDir sd q) sk.2.fileName)], ?_, ?_⟩
        · simp only [hex, if_true]
          exact MExt_step mc _
        · intro op hop x hx
          rcases List.mem_singleton.mp hop with rfl
          simpa only [opWrites, List.mem_singleton] using hx
      · refine ⟨[], ?_, fun op hop => absurd hop (List.not_mem_nil op)⟩
        simp only [if_neg hex]
        exact MExt_refl mc)
    q.currentSkills mm
  obtain ⟨ext, he, hb⟩ := h
  refine ⟨ext, he, ?_⟩
  intro op hop x hx
  obtain ⟨sk, hsk, hp⟩ := hb op hop
  exact ⟨sk, hsk, hp x hx⟩

theorem backupSkills_bmp (tag sd : String) (q : AgentPlan) (m : Machine)
    (hdd : dirsDisjoint sd q.skillsDir = true)
    (hmj : ∀ sk ∈ q.currentSkills, sk.2.fileName ≠ "manifest.json") :
    fsGet ((backupSkillsStateM tag sd q m).1).fs (bmpPath sd q)
      = (fsGet m.fs (mpPath q)).or (fsGet m.fs (bmpPath sd q)) := by
  have habd : strUnderEq sd (agentBackupDir sd q) = true := by
    rw [agentBackupDir_eq]
    exact strUnderEq_join_true sd _
  have hmp_not : strUnderEq sd (mpPath q) = false :=
    not_strUnderEq_of_dirsDisjoint hdd _
  have hcopy_ne : ∀ x, (∃ sk ∈ q.currentSkills,
      x = pathJoin (agentBackupDir sd q) sk.2.fileName) → x ≠ bmpPath sd q := by
    rintro x ⟨sk, hsk, hx⟩ he
    rw [hx] at he
    exact hmj sk hsk (pathJoin_inj he)
  simp only [backupSkillsStateM]
  set m1 := stepM m (.mkdirOp (agentBackupDir sd q)) with hm1
  have hm1mp : fsGet m1.fs (getManifestPath q.skillsDir) = fsGet m.fs (mpPath q) := by
    rw [hm1]
    show fsGet (applyOp m.fs (.mkdirOp (agentBackupDir sd q))) (mpPath q) = _
    refine fsGet_applyOp_not_mem _ _ _ ?_
    intro hmem
    exact ne_of_under_tf habd hmp_not (List.mem_singleton.mp hmem).symm
  have hm1bmp : fsGet m1.fs (bmpPath sd q) = fsGet m.fs (bmpPath sd q) := by
    rw [hm1]
    show fsGet (applyOp m.fs (.mkdirOp (agentBackupDir sd q))) (bmpPath sd q) = _
    refine fsGet_applyOp_not_mem _ _ _ ?_
    intro hmem
    exact pathJoin_ne_self (agentBackupDir sd q) "manifest.json"
      (List.mem_singleton.mp hmem)
  rcases hraw : fsGet m1.fs (getManifestPath q.skillsDir) with _ | raw
  · obtain ⟨ext, he, hb⟩ := MExt_skillsCopyFold sd q m1
    have hfr : fsGet ((q.currentSkills.foldl (fun acc sk =>
        if fsPathExists acc.fs (pathJoin q.skillsDir sk.2.fileName) then
          stepM acc (.copyOp (pathJoin q.skillsDir sk.2.fileName)
            (pathJoin (agentBackupDir sd q) sk.2.fileName))
        else acc) m1)).fs (bmpPath sd q) = fsGet m1.fs (bmpPath sd q) := by
      refine MExt_fsGet_frame he _ ?_
      intro op hop hmem
      exact hcopy_ne _ (hb op hop _ hmem) rfl
    rw [hfr, hm1bmp]
    rw [hm1mp] at hraw
    rw [hraw]
    rfl
  · set m2 := writeTextAtomicM tag m1
      (pathJoin (agentBackupDir sd q) "manifest.json") raw with hm2
    obtain ⟨ext, he, hb⟩ := MExt_skillsCopyFold sd q m2
    have hfr : fsGet ((q.currentSkills.foldl (fun acc sk =>
        if fsPathExists acc.fs (pathJoin q.skillsDir sk.2.fileName) then
          stepM acc (.copyOp (pathJoin q.skillsDir sk.2.fileName)
            (pathJoin (agentBackupDir sd q) sk.2.fileName))
        else acc) m2)).fs (bmpPath sd q) = fsGet m2.fs (bmpPath sd q) := by
      refine MExt_fsGet_frame he _ ?_
      intro op hop hmem
      exact hcopy_ne _ (hb op hop _ hmem) rfl
    rw [hfr, hm2]
    have : fsGet (writeTextAtomicM tag m1
        (pathJoin (agentBackupDir sd q) "manifest.json") raw).fs (bmpPath sd q)
        = some raw := fsGet_writeTextAtomic_self tag m1 _ raw
    rw [this]
    rw [hm1mp] at hraw
    rw [hraw]
    rfl

/-! ## The separation facts a deployment satisfies -/

/-- Per-plan separation facts: the native file and skills directory live
outside the snapshot, the native file is not inside the skills directory,
and the fixed file names cannot collide. -/
def planSelfSep (sd tag : String) (q : AgentPlan) : Bool :=
  !(strUnderEq sd q.path)
  && !(strUnderEq sd (tempName q.path tag))
  && dirsDisjoint sd q.skillsDir
  && !(strUnderEq q.skillsDir q.path)
  && !(strUnderEq q.skillsDir (tempName q.path tag))
  && (backupFileName q != "meta.json")
  && (backupFileName q).data.all (fun c => c != '/')
  && q.currentSkills.all (fun sk => sk.2.fileName != "manifest.json")

/-- Cross-plan separation facts: distinct native paths, skills directories
and backup names between two agents. -/
def planPairSep (tag : String) (q r : AgentPlan) : Bool :=
  (q.path != r.path)
  && (q.path != tempName r.path tag)
  && (r.path != tempName q.path tag)
  && !(strUnderEq q.skillsDir r.path)
  && !(strUnderEq r.skillsDir q.path)
  && !(strUnderEq q.skillsDir (tempName r.path tag))
  && !(strUnderEq r.skillsDir (tempName q.path tag))
  && dirsDisjoint q.skillsDir r.skillsDir
  && (agentKey q.agent != agentKey r.agent)
  && (backupFileName q != backupFileName r)

theorem planSelfSep_spec {sd tag : String} {q : AgentPlan}
    (h : planSelfSep sd tag q = true) :
    strUnderEq sd q.path = false
    ∧ strUnderEq sd (tempName q.path tag) = false
    ∧ dirsDisjoint sd q.skillsDir = true
    ∧ strUnderEq q.skillsDir q.path = false
    ∧ strUnderEq q.skillsDir (tempName q.path tag) = false
    ∧ backupFileName q ≠ "meta.json"
    ∧ (∀ c ∈ (backupFileName q).data, c ≠ '/')
    ∧ (∀ sk ∈ q.currentSkills, sk.2.fileName ≠ "manifest.json") := by
  simp only [planSelfSep, Bool.and_eq_true, Bool.not_eq_true', bne_iff_ne, ne_eq,
    List.all_eq_true] at h
  obtain ⟨⟨⟨⟨⟨⟨⟨h1, h2⟩, h3⟩, h4⟩, h5⟩, h6⟩, h7⟩, h8⟩ := h
  exact ⟨h1, h2, h3, h4, h5, h6, h7, h8⟩

theorem planPairSep_spec {tag : String} {q r : AgentPlan}
    (h : planPairSep tag q r = true) :
    q.path ≠ r.path
    ∧ q.path ≠ tempName r.path tag
    ∧ r.path ≠ tempName q.path tag
    ∧ strUnderEq q.skillsDir r.path = false
    ∧ strUnderEq r.skillsDir q.path = false
    ∧ strUnderEq q.skillsDir (tempName r.path tag) = false
    ∧ strUnderEq r.skillsDir (tempName q.path tag) = false
    ∧ dirsDisjoint q.skillsDir r.skillsDir = true
    ∧ agentKey q.agent ≠ agentKey r.agent
    ∧ backupFileName q ≠ backupFileName r := by
  simp only [planPairSep, Bool.and_eq_true, Bool.not_eq_true', bne_iff_ne, ne_eq] at h
  obtain ⟨⟨⟨⟨⟨⟨⟨⟨⟨h1, h2⟩, h3⟩, h4⟩, h5⟩, h6⟩, h7⟩, h8⟩, h9⟩, h10⟩ := h
  exact ⟨h1, h2, h3, h4, h5, h6, h7, h8, h9, h10⟩

theorem planPairSep_symm {tag : String} {q r : AgentPlan}
    (h : planPairSep tag q r = true) : planPairSep tag r q = true := by
  obtain ⟨h1, h2, h3, h4, h5, h6, h7, h8, h9, h10⟩ := planPairSep_spec h
  simp only [planPairSep, Bool.and_eq_true, Bool.not_eq_true', bne_iff_ne, ne_eq]
  rw [dirsDisjoint_comm] at h8
  exact ⟨⟨⟨⟨⟨⟨⟨⟨⟨Ne.symm h1, h3⟩, h2⟩, h5⟩, h4⟩, h7⟩, h6⟩, h8⟩, Ne.symm h9⟩, Ne.symm h10⟩

/-! ## What one iteration's writes cannot hit -/

theorem stepWrites_ne_path {sd tag : String} {q r : AgentPlan} {x : String}
    (h : stepWrites sd tag q x)
    (hr_sd : strUnderEq sd r.path = false)
    (hqr_path : q.path ≠ r.path)
    (hqr_tmp : r.path ≠ tempName q.path tag)
    (hqr_sk : strUnderEq q.skillsDir r.path = false) :
    x ≠ r.path := by
  rcases h with h | h | h | h | ⟨f, h⟩
  · rw [h]
    exact ne_of_under_tf (strUnderEq_join_true sd (backupFileName q)) hr_sd
  · exact ne_of_under_tf (bkbWrites_under h) hr_sd
  · rw [h]
    exact hqr_path
  · rw [h]
    exact Ne.symm hqr_tmp
  · rw [h]
    exact Ne.symm (ne_join_of_strUnderEq_false hqr_sk f)

theorem stepWrites_ne_join {sd tag : String} {q r : AgentPlan} {x : String}
    (h : stepWrites sd tag q x)
    (hr_dd : dirsDisjoint sd r.skillsDir = true)
    (hq_path : strUnderEq r.skillsDir q.path = false)
    (hq_tmp : strUnderEq r.skillsDir (tempName q.path tag) = false)
    (hqr_dd : dirsDisjoint q.skillsDir r.skillsDir = true) :
    ∀ g, x ≠ pathJoin r.skillsDir g := by
  intro g
  rcases h with h | h | h | h | ⟨f, h⟩
  · rw [h]
    exact ne_of_under_tf (strUnderEq_join_true sd (backupFileName q))
      (not_strUnderEq_of_dirsDisjoint hr_dd g)
  · exact ne_of_under_tf (bkbWrites_under h) (not_strUnderEq_of_dirsDisjoint hr_dd g)
  · rw [h]
    exact ne_join_of_strUnderEq_false hq_path g
  · rw [h]
    exact ne_join_of_strUnderEq_false hq_tmp g
  · rw [h]
    exact dirsDisjoint_join hqr_dd f g

theorem stepWrites_ne_bp {sd tag : String} {q r : AgentPlan} {x : String}
    (h : stepWrites sd tag q x)
    (hq_sd_path : strUnderEq sd q.path = false)
    (hq_sd_tmp : strUnderEq sd (tempName q.path tag) = false)
    (hq_dd : dirsDisjoint sd q.skillsDir = true)
    (hr_noslash : ∀ c ∈ (backupFileName r).data, c ≠ '/')
    (hbfn : backupFileName q ≠ backupFileName r) :
    x ≠ bpPath sd r := by
  rcases h with h | h | h | h | ⟨f, h⟩
  · rw [h]
    intro he
    exact hbfn (pathJoin_inj he)
  · rcases bkbWrites_form h with h | ⟨f, h⟩
    · rw [h, agentBackupDir_eq]
      intro he
      exact noslash_ne_slashed hr_noslash (pathJoin_inj he).symm
    · rw [h]
      intro he
      exact noslash_ne_slashed hr_noslash (pathJoin_inj he).symm
  · rw [h]
    exact Ne.symm (ne_of_under_tf (strUnderEq_join_true sd _) hq_sd_path)
  · rw [h]
    exact Ne.symm (ne_of_under_tf (strUnderEq_join_true sd _) hq_sd_tmp)
  · rw [h]
    exact Ne.symm (ne_of_under_tf (strUnderEq_join_true sd _)
      (not_strUnderEq_of_dirsDisjoint hq_dd f))

theorem stepWrites_ne_bmp {sd tag : String} {q r : AgentPlan} {x : String}
    (h : stepWrites sd tag q x)
    (hq_sd_path : strUnderEq sd q.path = false)
    (hq_sd_tmp : strUnderEq sd (tempName q.path tag) = false)
    (hq_dd : dirsDisjoint sd q.skillsDir = true)
    (hq_noslash : ∀ c ∈ (backupFileName q).data, c ≠ '/')
    (hkey : agentKey q.agent ≠ agentKey r.agent) :
    x ≠ bmpPath sd r := by
  rcases h with h | h | h | h | ⟨f, h⟩
  · rw [h, bmpPath_eq]
    intro he
    exact noslash_ne_slashed hq_noslash (pathJoin_inj he)
  · rcases bkbWrites_form h with h | ⟨f, h⟩
    · rw [h, agentBackupDir_eq, bmpPath_eq]
      intro he
      have h2 := strAppend_left_cancel (pathJoin_inj he)
      exact noslash_ne_slashed (agentKey_no_slash q.agent) h2
    · rw [h, bmpPath_eq]
      intro he
      have h2 := strAppend_left_cancel (pathJoin_inj he)
      exact hkey (noslash_split (agentKey_no_slash q.agent)
        (agentKey_no_slash r.agent) h2).1
  · rw [h, bmpPath_eq]
    exact Ne.symm (ne_of_under_tf (strUnderEq_join_true sd _) hq_sd_path)
  · rw [h, bmpPath_eq]
    exact Ne.symm (ne_of_under_tf (strUnderEq_join_true sd _) hq_sd_tmp)
  · rw [h, bmpPath_eq]
    exact Ne.symm (ne_of_under_tf (strUnderEq_join_true sd _)
      (not_strUnderEq_of_dirsDisjoint hq_dd f))

theorem metaPath_ne_bp {sd : String} {q : AgentPlan}
    (h : backupFileName q ≠ "meta.json") : pathJoin sd "meta.json" ≠ bpPath sd q :=
  fun he => h (pathJoin_inj he).symm

theorem metaPath_ne_bmp (sd : String) (q : AgentPlan) :
    pathJoin sd "meta.json" ≠ bmpPath sd q := by
  rw [bmpPath_eq]
  intro he
  exact noslash_ne_slashed metaJson_no_slash (pathJoin_inj he)

/-- The `AppliedAgent` record the engine produces for a plan, expressed
against the pre-sync file map. -/
def gApplied (sd : String) (fs0 : List (String × FData)) (q : AgentPlan) : AppliedAgent :=
  { agent := agentKey q.agent
    mcpPath := q.path
    mcpChanged := hasDiff q.diff
    mcpBackupPath :=
      if hasDiff q.diff && (fsGet fs0 q.path).isSome then some (bpPath sd q) else none
    mcpExistedBefore := q.fileExists
    skillsDir := q.skillsDir
    skillsChanged := hasDiff q.skillsDiff
    skillsBackupDir :=
      if hasDiff q.skillsDiff then some (agentBackupDir sd q) else none
    skillsManifestExistedBefore := q.skillsManifestExists }

theorem bkbWrites_ne_bp {sd tag : String} {q r : AgentPlan} {x : String}
    (h : bkbWrites sd tag q x)
    (hr_noslash : ∀ c ∈ (backupFileName r).data, c ≠ '/') :
    x ≠ bpPath sd r := by
  rcases bkbWrites_form h with h | ⟨f, h⟩
  · rw [h, agentBackupDir_eq]
    intro he
    exact noslash_ne_slashed hr_noslash (pathJoin_inj he).symm
  · rw [h]
    intro he
    exact noslash_ne_slashed hr_noslash (pathJoin_inj he).symm

theorem bp_ne_bmp {sd : String} {q r : AgentPlan}
    (hq_noslash : ∀ c ∈ (backupFileName q).data, c ≠ '/') :
    bpPath sd q ≠ bmpPath sd r := by
  rw [bmpPath_eq]
  intro he
  exact noslash_ne_slashed hq_noslash (pathJoin_inj he)

/-- The `applyPlan` loop: under the separation facts, it reports exactly
the engine's per-agent records, and afterwards the snapshot holds the
pre-sync native file and skills manifest of every changed agent. -/
theorem applyLoop_spec (sd tag : String) (fs0 : List (String × FData)) :
    ∀ (l : List AgentPlan) (m : Machine),
    (∀ q ∈ l, planSelfSep sd tag q = true) →
    List.Pairwise (fun q r => planPairSep tag q r = true) l →
    (∀ q ∈ l, fsGet m.fs q.path = fsGet fs0 q.path) →
    (∀ q ∈ l, fsGet m.fs (mpPath q) = fsGet fs0 (mpPath q)) →
    (∀ q ∈ l, fsGet m.fs (bmpPath sd q) = none) →
    ∃ ext,
      MExt m ext (applyLoopM tag sd l m).1
      ∧ (∀ op ∈ ext, ∀ x ∈ opWrites op, ∃ q ∈ l, stepWrites sd tag q x)
      ∧ (applyLoopM tag sd l m).2 = l.map (gApplied sd fs0)
      ∧ (∀ q ∈ l, hasDiff q.diff = true → (fsGet fs0 q.path).isSome = true →
          fsGet (applyLoopM tag sd l m).1.fs (bpPath sd q) = fsGet fs0 q.path)
      ∧ (∀ q ∈ l, hasDiff q.skillsDiff = true →
          fsGet (applyLoopM tag sd l m).1.fs (bmpPath sd q) = fsGet fs0 (mpPath q)) := by
  intro l
  induction l with
  | nil =>
    intro m _ _ _ _ _
    exact ⟨[], MExt_refl m, fun op hop => absurd hop (List.not_mem_nil op), rfl,
      fun q hq => absurd hq (List.not_mem_nil q),
      fun q hq => absurd hq (List.not_mem_nil q)⟩
  | cons q rest ih =>
    intro m hself hpair hm_path hm_mp hm_bmp
    obtain ⟨hq1, hq2, hq3, hq4, hq5, hq6, hq7, hq8⟩ :=
      planSelfSep_spec (hself q (List.mem_cons_self _ _))
    have hpair' := List.pairwise_cons.mp hpair
    have hpair_q : ∀ r ∈ rest, planPairSep tag q r = true := hpair'.1
    have hpair_rest := hpair'.2
    have hfx : fsPathExists m.fs q.path = (fsGet fs0 q.path).isSome := by
      rw [fsPathExists, hm_path q (List.mem_cons_self _ _)]
    obtain ⟨e1, he1, hb1⟩ := MExt_applyStep tag sd q m
    -- the per-agent record of this step
    have hrec : (applyStepM tag sd q m).2 = gApplied sd fs0 q := by
      rw [applyStepM_snd]
      simp only [gApplied, hfx]
    -- the native backup after this step
    have hbp_q : hasDiff q.diff = true → (fsGet fs0 q.path).isSome = true →
        fsGet (applyStepM tag sd q m).1.fs (bpPath sd q) = fsGet fs0 q.path := by
      intro hdq hsome
      rw [applyStepM_fst]
      obtain ⟨e2, he2, hb2⟩ := MExt_phase2 tag sd q (phase1M sd q m)
      obtain ⟨e3, he3, hb3⟩ := MExt_phase3 tag q (phase2M tag sd q (phase1M sd q m))
      obtain ⟨e4, he4, hb4⟩ := MExt_phase4 tag q
        (phase3M tag q (phase2M tag sd q (phase1M sd q m)))
      have h4 : fsGet (phase4M tag q (phase3M tag q (phase2M tag sd q
          (phase1M sd q m)))).fs (bpPath sd q)
          = fsGet (phase3M tag q (phase2M tag sd q (phase1M sd q m))).fs (bpPath sd q) := by
        refine MExt_fsGet_frame he4 _ ?_
        intro op hop hmem
        obtain ⟨f, hf⟩ := hb4 op hop _ hmem
        exact Ne.symm (ne_of_under_tf (strUnderEq_join_true sd _)
          (not_strUnderEq_of_dirsDisjoint hq3 f)) hf.symm
      have h3 : fsGet (phase3M tag q (phase2M tag sd q (phase1M sd q m))).fs (bpPath sd q)
          = fsGet (phase2M tag sd q (phase1M sd q m)).fs (bpPath sd q) := by
        refine MExt_fsGet_frame he3 _ ?_
        intro op hop hmem
        rcases hb3 op hop _ hmem with hf | hf
        · exact ne_of_under_tf (strUnderEq_join_true sd _) hq1 hf
        · exact ne_of_under_tf (strUnderEq_join_true sd _) hq2 hf
      have h2 : fsGet (phase2M tag sd q (phase1M sd q m)).fs (bpPath sd q)
          = fsGet (phase1M sd q m).fs (bpPath sd q) := by
        refine MExt_fsGet_frame he2 _ ?_
        intro op hop hmem
        exact bkbWrites_ne_bp (hb2 op hop _ hmem) hq7 rfl
      rw [h4, h3, h2, phase1_bp sd q m hdq (hfx.trans hsome),
        hm_path q (List.mem_cons_self _ _)]
    -- the skills-manifest backup after this step
    have hbmp_q : hasDiff q.skillsDiff = true →
        fsGet (applyStepM tag sd q m).1.fs (bmpPath sd q) = fsGet fs0 (mpPath q) := by
      intro hsq
      rw [applyStepM_fst]
      obtain ⟨e1', he1', hb1'⟩ := MExt_phase1 sd q m
      obtain ⟨e3, he3, hb3⟩ := MExt_phase3 tag q (phase2M tag sd q (phase1M sd q m))
      obtain ⟨e4, he4, hb4⟩ := MExt_phase4 tag q
        (phase3M tag q (phase2M tag sd q (phase1M sd q m)))
      have h4 : fsGet (phase4M tag q (phase3M tag q (phase2M tag sd q
          (phase1M sd q m)))).fs (bmpPath sd q)
          = fsGet (phase3M tag q (phase2M tag sd q (phase1M sd q m))).fs (bmpPath sd q) := by
        refine MExt_fsGet_frame he4 _ ?_
        intro op hop hmem
        obtain ⟨f, hf⟩ := hb4 op hop _ hmem
        have hu : strUnderEq sd (bmpPath sd q) = true := by
          rw [bmpPath_eq]
          exact strUnderEq_join_true sd _
        exact ne_of_under_tf hu (not_strUnderEq_of_dirsDisjoint hq3 f) hf
      have h3 : fsGet (phase3M tag q (phase2M tag sd q (phase1M sd q m))).fs (bmpPath sd q)
          = fsGet (phase2M tag sd q (phase1M sd q m)).fs (bmpPath sd q) := by
        refine MExt_fsGet_frame he3 _ ?_
        intro op hop hmem
        have hu : strUnderEq sd (bmpPath sd q) = true := by
          rw [bmpPath_eq]
          exact strUnderEq_join_true sd _
        rcases hb3 op hop _ hmem with hf | hf
        · exact ne_of_under_tf hu hq1 hf
        · exact ne_of_under_tf hu hq2 hf
      have h1mp : fsGet (phase1M sd q m).fs (mpPath q) = fsGet fs0 (mpPath q) := by
        have h1 : fsGet (phase1M sd q m).fs (mpPath q) = fsGet m.fs (mpPath q) := by
          refine MExt_fsGet_frame he1' _ ?_
          intro op hop hmem
          have := hb1' op hop _ hmem
          exact ne_of_under_tf (strUnderEq_join_true sd _)
            (not_strUnderEq_of_dirsDisjoint hq3 _) this.symm
        rw [h1]
        exact hm_mp q (List.mem_cons_self _ _)
      have h1bmp : fsGet (phase1M sd q m).fs (bmpPath sd q) = none := by
        have h1 : fsGet (phase1M sd q m).fs (bmpPath sd q) = fsGet m.fs (bmpPath sd q) := by
          refine MExt_fsGet_frame he1' _ ?_
          intro op hop hmem
          have := hb1' op hop _ hmem
          exact bp_ne_bmp hq7 this.symm
        rw [h1]
        exact hm_bmp q (List.mem_cons_self _ _)
      have h2 : fsGet (phase2M tag sd q (phase1M sd q m)).fs (bmpPath sd q)
          = fsGet fs0 (mpPath q) := by
        have hph : phase2M tag sd q (phase1M sd q m)
            = (backupSkillsStateM tag sd q (phase1M sd q m)).1 := by
          simp only [phase2M, hsq, if_true]
        rw [hph, backupSkills_bmp tag sd q (phase1M sd q m) hq3 hq8, h1mp, h1bmp]
        rcases fsGet fs0 (mpPath q) with _ | v <;> rfl
      rw [h4, h3, h2]
    -- hypotheses of the induction for the remaining plans
    have hm_path' : ∀ r ∈ rest, fsGet (applyStepM tag sd q m).1.fs r.path
        = fsGet fs0 r.path := by
      intro r hr
      obtain ⟨hr1, _, _, _, _, _, _, _⟩ :=
        planSelfSep_spec (hself r (List.mem_cons_of_mem _ hr))
      obtain ⟨hp1, _, hp3, hp4, _, _, _, _, _, _⟩ := planPairSep_spec (hpair_q r hr)
      have hfr : fsGet (applyStepM tag sd q m).1.fs r.path = fsGet m.fs r.path := by
        refine MExt_fsGet_frame he1 _ ?_
        intro op hop hmem
        exact stepWrites_ne_path (hb1 op hop _ hmem) hr1 hp1 hp3 hp4 rfl
      rw [hfr]
      exact hm_path r (List.mem_cons_of_mem _ hr)
    have hm_mp' : ∀ r ∈ rest, fsGet (applyStepM tag sd q m).1.fs (mpPath r)
        = fsGet fs0 (mpPath r) := by
      intro r hr
      obtain ⟨_, _, hr3, _, _, _, _, _⟩ :=
        planSelfSep_spec (hself r (List.mem_cons_of_mem _ hr))
      obtain ⟨_, _, _, _, hp5, _, hp7, hp8, _, _⟩ := planPairSep_spec (hpair_q r hr)
      have hfr : fsGet (applyStepM tag sd q m).1.fs (mpPath r) = fsGet m.fs (mpPath r) := by
        refine MExt_fsGet_frame he1 _ ?_
        intro op hop hmem
        exact stepWrites_ne_join (hb1 op hop _ hmem) hr3 hp5 hp7 hp8
          ".uac-skills-manifest.json" rfl
      rw [hfr]
      exact hm_mp r (List.mem_cons_of_mem _ hr)
    have hm_bmp' : ∀ r ∈ rest, fsGet (applyStepM tag sd q m).1.fs (bmpPath sd r) = none := by
      intro r hr
      obtain ⟨_, _, _, _, _, _, _, _, hp9, _⟩ := planPairSep_spec (hpair_q r hr)
      have hfr : fsGet (applyStepM tag sd q m).1.fs (bmpPath sd r)
          = fsGet m.fs (bmpPath sd r) := by
        refine MExt_fsGet_frame he1 _ ?_
        intro op hop hmem
        exact stepWrites_ne_bmp (hb1 op hop _ hmem) hq1 hq2 hq3 hq7 hp9 rfl
      rw [hfr]
      exact hm_bmp r (List.mem_cons_of_mem _ hr)
    obtain ⟨e2, he2, hb2, hmap, hbp_rest, hbmp_rest⟩ :=
      ih (applyStepM tag sd q m).1 (fun r hr => hself r (List.mem_cons_of_mem _ hr))
        hpair_rest hm_path' hm_mp' hm_bmp'
    refine ⟨e1 ++ e2, ?_, ?_, ?_, ?_, ?_⟩
    · simp only [applyLoopM]
      exact MExt_trans he1 he2
    · intro op hop x hx
      rcases List.mem_append.mp hop with hop | hop
      · exact ⟨q, List.mem_cons_self _ _, hb1 op hop x hx⟩
      · obtain ⟨r, hr, hw⟩ := hb2 op hop x hx
        exact ⟨r, List.mem_cons_of_mem _ hr, hw⟩
    · simp only [applyLoopM, List.map]
      rw [hrec, hmap]
    · intro r hr hdr hsomer
      rcases List.mem_cons.mp hr with rfl | hr
      · have hfr : fsGet (applyLoopM tag sd rest (applyStepM tag sd r m).1).1.fs
            (bpPath sd r) = fsGet (applyStepM tag sd r m).1.fs (bpPath sd r) := by
          refine MExt_fsGet_frame he2 _ ?_
          intro op hop hmem
          obtain ⟨r', hr', hw⟩ := hb2 op hop _ hmem
          obtain ⟨hs1, hs2, hs3, _, _, _, _, _⟩ :=
            planSelfSep_spec (hself r' (List.mem_cons_of_mem _ hr'))
          obtain ⟨_, _, _, _, _, _, _, _, _, hp10⟩ := planPairSep_spec (hpair_q r' hr')
          exact stepWrites_ne_bp hw hs1 hs2 hs3 hq7 (Ne.symm hp10) rfl
        simp only [applyLoopM]
        rw [hfr]
        exact hbp_q hdr hsomer
      · simp only [applyLoopM]
        exact hbp_rest r hr hdr hsomer
    · intro r hr hsr
      rcases List.mem_cons.mp hr with rfl | hr
      · have hfr : fsGet (applyLoopM tag sd rest (applyStepM tag sd r m).1).1.fs
            (bmpPath sd r) = fsGet (applyStepM tag sd r m).1.fs (bmpPath sd r) := by
          refine MExt_fsGet_frame he2 _ ?_
          intro op hop hmem
          obtain ⟨r', hr', hw⟩ := hb2 op hop _ hmem
          obtain ⟨hs1, hs2, hs3, _, _, _, hs7, _⟩ :=
            planSelfSep_spec (hself r' (List.mem_cons_of_mem _ hr'))
          obtain ⟨_, _, _, _, _, _, _, _, hp9, _⟩ := planPairSep_spec (hpair_q r' hr')
          exact stepWrites_ne_bmp hw hs1 hs2 hs3 hs7 (Ne.symm hp9) rfl
        simp only [applyLoopM]
        rw [hfr]
        exact hbmp_q hsr
      · simp only [applyLoopM]
        exact hbmp_rest r hr hsr

/-! ## Write bounds and effects of the rollback phase -/

theorem MExt_restoreMcp (m : Machine) (a : AppliedAgent) :
    ∃ ext, MExt m ext (restoreMcpM m a)
      ∧ ∀ op ∈ ext, ∀ x ∈ opWrites op, x = a.mcpPath := by
  by_cases hc : a.mcpChanged = true
  · rcases hbp : a.mcpBackupPath with _ | bp
    · by_cases hex : (!a.mcpExistedBefore && fsPathExists m.fs a.mcpPath) = true
      · refine ⟨[.removeOp a.mcpPath], ?_, ?_⟩
        · have h : restoreMcpM m a = stepM m (.removeOp a.mcpPath) := by
            simp [restoreMcpM, hc, hbp, hex]
          rw [h]
          exact MExt_step m _
        · intro op hop x hx
          rcases List.mem_singleton.mp hop with rfl
          simpa only [opWrites, List.mem_singleton] using hx
      · refine ⟨[], ?_, fun op hop => absurd hop (List.not_mem_nil op)⟩
        have h : restoreMcpM m a = m := by simp [restoreMcpM, hc, hbp, hex]
        rw [h]
        exact MExt_refl m
    · by_cases hex : fsPathExists m.fs bp = true
      · refine ⟨[.copyOp bp a.mcpPath], ?_, ?_⟩
        · have h : restoreMcpM m a = stepM m (.copyOp bp a.mcpPath) := by
            simp [restoreMcpM, hc, hbp, hex]
          rw [h]
          exact MExt_step m _
        · intro op hop x hx
          rcases List.mem_singleton.mp hop with rfl
          simpa only [opWrites, List.mem_singleton] using hx
      · by_cases hex2 : (!a.mcpExistedBefore && fsPathExists m.fs a.mcpPath) = true
        · refine ⟨[.removeOp a.mcpPath], ?_, ?_⟩
          · have h : restoreMcpM m a = stepM m (.removeOp a.mcpPath) := by
              simp [restoreMcpM, hc, hbp, hex, hex2]
            rw [h]
            exact MExt_step m _
          · intro op hop x hx
            rcases List.mem_singleton.mp hop with rfl
            simpa only [opWrites, List.mem_singleton] using hx
        · refine ⟨[], ?_, fun op hop => absurd hop (List.not_mem_nil op)⟩
          have h : restoreMcpM m a = m := by simp [restoreMcpM, hc, hbp, hex, hex2]
          rw [h]
          exact MExt_refl m
  · refine ⟨[], ?_, fun op hop => absurd hop (List.not_mem_nil op)⟩
    have h : restoreMcpM m a = m := by simp [restoreMcpM, hc]
    rw [h]
    exact MExt_refl m

theorem restoreMcp_val {m : Machine} {a : AppliedAgent} {bp : String} {d : FData}
    (hc : a.mcpChanged = true) (hbp : a.mcpBackupPath = some bp)
    (hget : fsGet m.fs bp = some d) :
    fsGet (restoreMcpM m a).fs a.mcpPath = some d := by
  have hex : fsPathExists m.fs bp = true := by
    rw [fsPathExists, hget]
    rfl
  have h : restoreMcpM m a = stepM m (.copyOp bp a.mcpPath) := by
    simp [restoreMcpM, hc, hbp, hex]
  rw [h]
  show fsGet (applyOp m.fs (.copyOp bp a.mcpPath)) a.mcpPath = some d
  simp only [applyOp, hget]
  exact fsGet_fsSet_self _ _ _

theorem restoreMcp_val_none {m : Machine} {a : AppliedAgent}
    (hc : a.mcpChanged = true) (hbp : a.mcpBackupPath = none)
    (hnb : a.mcpExistedBefore = false) :
    fsGet (restoreMcpM m a).fs a.mcpPath = none := by
  by_cases hex : fsPathExists m.fs a.mcpPath = true
  · have h : restoreMcpM m a = stepM m (.removeOp a.mcpPath) := by
      simp [restoreMcpM, hc, hbp, hnb, hex]
    rw [h]
    exact fsGet_fsRemove_self _ _
  · have h : restoreMcpM m a = m := by simp [restoreMcpM, hc, hbp, hnb, hex]
    rw [h]
    rcases hg : fsGet m.fs a.mcpPath with _ | v
    · rfl
    · rw [fsPathExists, hg] at hex
      exact absurd rfl hex

theorem MExt_removeManaged (m : Machine) (d : String) :
    ∃ ext, MExt m ext (removeManagedM m d)
      ∧ ∀ op ∈ ext, ∀ x ∈ opWrites op, ∃ f, x = pathJoin d f := by
  rcases hraw : fsGet m.fs (getManifestPath d) with _ | raw
  · refine ⟨[], ?_, fun op hop => absurd hop (List.not_mem_nil op)⟩
    have h : removeManagedM m d = m := by
      simp only [removeManagedM, hraw]
    rw [h]
    exact MExt_refl m
  · by_cases hb : isBlank raw = true
    · refine ⟨[], ?_, fun op hop => absurd hop (List.not_mem_nil op)⟩
      have h : removeManagedM m d = m := by
        simp only [removeManagedM, hraw, hb, if_true]
      rw [h]
      exact MExt_refl m
    · rcases hpm : parseManifestData raw with _ | manifest
      · refine ⟨[], ?_, fun op hop => absurd hop (List.not_mem_nil op)⟩
        have h : removeManagedM m d = m := by
          simp only [removeManagedM, hraw, if_neg hb, hpm]
        rw [h]
        exact MExt_refl m
      · have h : removeManagedM m d = manifest.items.foldl (fun acc it =>
            if fsPathExists acc.fs (pathJoin d it.fileName) then
              stepM acc (.removeOp (pathJoin d it.fileName))
            else acc) m := by
          simp only [removeManagedM, hraw, if_neg hb, hpm]
        rw [h]
        have hfold := MExt_foldl (α := ManifestItem)
          (fun acc it =>
            if fsPathExists acc.fs (pathJoin d it.fileName) then
              stepM acc (.removeOp (pathJoin d it.fileName))
            else acc)
          (fun it op => ∀ x ∈ opWrites op, x = pathJoin d it.fileName)
          (by
            intro mc it
            by_cases hex : fsPathExists mc.fs (pathJoin d it.fileName) = true
            · refine ⟨[.removeOp (pathJoin d it.fileName)], ?_, ?_⟩
              · simp only [hex, if_true]
                exact MExt_step mc _
              · intro op hop x hx
                rcases List.mem_singleton.mp hop with rfl
                simpa only [opWrites, List.mem_singleton] using hx
            · refine ⟨[], ?_, fun op hop => absurd hop (List.not_mem_nil op)⟩
              simp only [if_neg hex]
              exact MExt_refl mc)
          manifest.items m
        obtain ⟨ext, he, hbnd⟩ := hfold
        refine ⟨ext, he, ?_⟩
        intro op hop x hx
        obtain ⟨it, _, hp⟩ := hbnd op hop
        exact ⟨it.fileName, hp x hx⟩

theorem MExt_restoreSkillsTail (m : Machine) (a : AppliedAgent) :
    ∃ ext, MExt m ext (restoreSkillsTailM m a)
      ∧ ∀ op ∈ ext, ∀ x ∈ opWrites op, ∃ f, x = pathJoin a.skillsDir f := by
  by_cases h : (!a.skillsManifestExistedBefore
      && fsPathExists m.fs (getManifestPath a.skillsDir)) = true
  · refine ⟨[.removeOp (getManifestPath a.skillsDir)], ?_, ?_⟩
    · have heq : restoreSkillsTailM m a = stepM m (.removeOp (getManifestPath a.skillsDir)) := by
        simp [restoreSkillsTailM, h]
      rw [heq]
      exact MExt_step m _
    · intro op hop x hx
      rcases List.mem_singleton.mp hop with rfl
      simp only [opWrites, List.mem_singleton] at hx
      exact ⟨".uac-skills-manifest.json", hx⟩
  · refine ⟨[], ?_, fun op hop => absurd hop (List.not_mem_nil op)⟩
    have heq : restoreSkillsTailM m a = m := by simp [restoreSkillsTailM, h]
    rw [heq]
    exact MExt_refl m

theorem restoreSkills_spec (tag : String) (m : Machine) (a : AppliedAgent)
    (hsane : ∀ bd, a.skillsBackupDir = some bd →
      saneData (fsGet (removeManagedM m a.skillsDir).fs
        (pathJoin bd "manifest.json")) = true) :
    ∃ m' ext, restoreSkillsM tag m a = .ok m' ∧ MExt m ext m'
      ∧ ∀ op ∈ ext, ∀ x ∈ opWrites op, ∃ f, x = pathJoin a.skillsDir f := by
  by_cases hsk : a.skillsChanged = true
  · obtain ⟨er, her, hbr⟩ := MExt_removeManaged m a.skillsDir
    rcases hbd : a.skillsBackupDir with _ | bd
    · obtain ⟨et, het, hbt⟩ := MExt_restoreSkillsTail (removeManagedM m a.skillsDir) a
      refine ⟨restoreSkillsTailM (removeManagedM m a.skillsDir) a, er ++ et, ?_,
        MExt_trans her het, ?_⟩
      · simp [restoreSkillsM, hsk, hbd]
      · intro op hop x hx
        rcases List.mem_append.mp hop with hop | hop
        · exact hbr op hop x hx
        · exact hbt op hop x hx
    · by_cases hex : fsPathExists (removeManagedM m a.skillsDir).fs bd = true
      · rcases hraw : fsGet (removeManagedM m a.skillsDir).fs (pathJoin bd "manifest.json")
          with _ | raw
        · obtain ⟨et, het, hbt⟩ := MExt_restoreSkillsTail (removeManagedM m a.skillsDir) a
          refine ⟨restoreSkillsTailM (removeManagedM m a.skillsDir) a, er ++ et, ?_,
            MExt_trans her het, ?_⟩
          · simp [restoreSkillsM, hsk, hbd, hex, hraw]
          · intro op hop x hx
            rcases List.mem_append.mp hop with hop | hop
            · exact hbr op hop x hx
            · exact hbt op hop x hx
        · have hs := hsane bd hbd
          rw [hraw] at hs
          rcases raw with s | meta | man | _
          · -- blank text: the tail branch runs
            have hblank : isBlank (.text s) = true := hs
            obtain ⟨et, het, hbt⟩ := MExt_restoreSkillsTail (removeManagedM m a.skillsDir) a
            refine ⟨restoreSkillsTailM (removeManagedM m a.skillsDir) a, er ++ et, ?_,
              MExt_trans her het, ?_⟩
            · simp [restoreSkillsM, hsk, hbd, hex, hraw, hblank]
            · intro op hop x hx
              rcases List.mem_append.mp hop with hop | hop
              · exact hbr op hop x hx
              · exact hbt op hop x hx
          · exact absurd hs (by simp [saneData])
          · -- a structurally stored manifest: restore the files and the manifest
            have hnb : isBlank (FData.manifestData man) = false := rfl
            have hfold := MExt_foldl (α := ManifestItem)
              (fun acc it =>
                if fsPathExists acc.fs (pathJoin bd it.fileName) then
                  stepM acc (.copyOp (pathJoin bd it.fileName)
                    (pathJoin a.skillsDir it.fileName))
                else acc)
              (fun it op => ∀ x ∈ opWrites op, x = pathJoin a.skillsDir it.fileName)
              (by
                intro mc it
                by_cases hex2 : fsPathExists mc.fs (pathJoin bd it.fileName) = true
                · refine ⟨[.copyOp (pathJoin bd it.fileName)
                    (pathJoin a.skillsDir it.fileName)], ?_, ?_⟩
                  · simp only [hex2, if_true]
                    exact MExt_step mc _
                  · intro op hop x hx
                    rcases List.mem_singleton.mp hop with rfl
                    simpa only [opWrites, List.mem_singleton] using hx
                · refine ⟨[], ?_, fun op hop => absurd hop (List.not_mem_nil op)⟩
                  simp only [if_neg hex2]
                  exact MExt_refl mc)
              man.items (removeManagedM m a.skillsDir)
            obtain ⟨ec, hec, hbc⟩ := hfold
            refine ⟨writeTextAtomicM tag (man.items.foldl (fun acc it =>
                if fsPathExists acc.fs (pathJoin bd it.fileName) then
                  stepM acc (.copyOp (pathJoin bd it.fileName)
                    (pathJoin a.skillsDir it.fileName))
                else acc) (removeManagedM m a.skillsDir))
                (getManifestPath a.skillsDir) (.manifestData man),
              er ++ (ec ++ [.writeTemp (tempName (getManifestPath a.skillsDir) tag)
                  (.manifestData man),
                .renameOp (tempName (getManifestPath a.skillsDir) tag)
                  (getManifestPath a.skillsDir)]), ?_, ?_, ?_⟩
            · simp [restoreSkillsM, hsk, hbd, hex, hraw, hnb, parseManifestData]
            · exact MExt_trans her (MExt_trans hec (MExt_writeTextAtomic tag _ _ _))
            · intro op hop x hx
              rcases List.mem_append.mp hop with hop | hop
              · exact hbr op hop x hx
              rcases List.mem_append.mp hop with hop | hop
              · obtain ⟨it, _, hp⟩ := hbc op hop
                exact ⟨it.fileName, hp x hx⟩
              rcases List.mem_cons.mp hop with rfl | hop
              · simp only [opWrites, List.mem_singleton] at hx
                rw [hx, getManifestPath, tempName_join]
                exact ⟨_, rfl⟩
              rcases List.mem_cons.mp hop with rfl | hop
              · simp only [opWrites, List.mem_cons, List.mem_singleton] at hx
                rcases hx with rfl | hx
                · rw [getManifestPath, tempName_join]
                  exact ⟨_, rfl⟩
                rcases hx with rfl | hx
                · exact ⟨".uac-skills-manifest.json", rfl⟩
                · exact absurd hx (List.not_mem_nil x)
              · exact absurd hop (List.not_mem_nil op)
          · exact absurd hs (by simp [saneData])
      · obtain ⟨et, het, hbt⟩ := MExt_restoreSkillsTail (removeManagedM m a.skillsDir) a
        refine ⟨restoreSkillsTailM (removeManagedM m a.skillsDir) a, er ++ et, ?_,
          MExt_trans her het, ?_⟩
        · simp [restoreSkillsM, hsk, hbd, hex]
        · intro op hop x hx
          rcases List.mem_append.mp hop with hop | hop
          · exact hbr op hop x hx
          · exact hbt op hop x hx
  · refine ⟨m, [], ?_, MExt_refl m, fun op hop => absurd hop (List.not_mem_nil op)⟩
    simp [restoreSkillsM, hsk]

/-- The rollback loop on the records produced by the sync run: it succeeds,
touches only native files and skills directories, and restores every
changed native file to its pre-sync content. -/
theorem rollbackLoop_spec (sd tag : String) (fs0 : List (String × FData)) :
    ∀ (l : List AgentPlan) (m : Machine),
    (∀ q ∈ l, planSelfSep sd tag q = true) →
    List.Pairwise (fun q r => planPairSep tag q r = true) l →
    (∀ q ∈ l, hasDiff q.diff = true → (fsGet fs0 q.path).isSome = true →
        fsGet m.fs (bpPath sd q) = fsGet fs0 q.path) →
    (∀ q ∈ l, hasDiff q.skillsDiff = true →
        fsGet m.fs (bmpPath sd q) = fsGet fs0 (mpPath q)) →
    (∀ q ∈ l, saneData (fsGet fs0 (mpPath q)) = true) →
    ∃ m2 ext, rollbackLoopM tag (l.map (gApplied sd fs0)) m = .ok m2
      ∧ MExt m ext m2
      ∧ (∀ op ∈ ext, ∀ x ∈ opWrites op, ∃ q ∈ l,
          x = q.path ∨ ∃ f, x = pathJoin q.skillsDir f)
      ∧ (∀ q ∈ l, hasDiff q.diff = true → q.fileExists = (fsGet fs0 q.path).isSome →
          fsGet m2.fs q.path = fsGet fs0 q.path) := by
  intro l
  induction l with
  | nil =>
    intro m _ _ _ _ _
    exact ⟨m, [], rfl, MExt_refl m, fun op hop => absurd hop (List.not_mem_nil op),
      fun q hq => absurd hq (List.not_mem_nil q)⟩
  | cons q rest ih =>
    intro m hself hpair hm_bp hm_bmp hsane0
    obtain ⟨hq1, hq2, hq3, hq4, hq5, hq6, hq7, hq8⟩ :=
      planSelfSep_spec (hself q (List.mem_cons_self _ _))
    have hpair' := List.pairwise_cons.mp hpair
    have hpair_q : ∀ r ∈ rest, planPairSep tag q r = true := hpair'.1
    have hpair_rest := hpair'.2
    have hu_bmp : strUnderEq sd (bmpPath sd q) = true := by
      rw [bmpPath_eq]
      exact strUnderEq_join_true sd _
    -- the native restore for this agent
    obtain ⟨ea, hea, hba⟩ := MExt_restoreMcp m (gApplied sd fs0 q)
    -- the skills restore for this agent succeeds
    have hsane : ∀ bd, (gApplied sd fs0 q).skillsBackupDir = some bd →
        saneData (fsGet (removeManagedM (restoreMcpM m (gApplied sd fs0 q))
          (gApplied sd fs0 q).skillsDir).fs (pathJoin bd "manifest.json")) = true := by
      intro bd hbd
      by_cases hsq : hasDiff q.skillsDiff = true
      · have hbd' : bd = agentBackupDir sd q := by
          simp only [gApplied, hsq, if_true] at hbd
          exact (Option.some.injEq _ _ ▸ hbd).symm
        subst hbd'
        obtain ⟨erm, herm, hbrm⟩ := MExt_removeManaged
          (restoreMcpM m (gApplied sd fs0 q)) (gApplied sd fs0 q).skillsDir
        have hfr1 : fsGet (removeManagedM (restoreMcpM m (gApplied sd fs0 q))
            (gApplied sd fs0 q).skillsDir).fs (bmpPath sd q)
            = fsGet (restoreMcpM m (gApplied sd fs0 q)).fs (bmpPath sd q) := by
          refine MExt_fsGet_frame herm _ ?_
          intro op hop hmem
          obtain ⟨f, hf⟩ := hbrm op hop _ hmem
          exact ne_of_under_tf hu_bmp (not_strUnderEq_of_dirsDisjoint hq3 f) hf
        have hfr2 : fsGet (restoreMcpM m (gApplied sd fs0 q)).fs (bmpPath sd q)
            = fsGet m.fs (bmpPath sd q) := by
          refine MExt_fsGet_frame hea _ ?_
          intro op hop hmem
          exact ne_of_under_tf hu_bmp hq1 (hba op hop _ hmem)
        show saneData (fsGet (removeManagedM (restoreMcpM m (gApplied sd fs0 q))
          (gApplied sd fs0 q).skillsDir).fs (bmpPath sd q)) = true
        rw [hfr1, hfr2, hm_bmp q (List.mem_cons_self _ _) hsq]
        exact hsane0 q (List.mem_cons_self _ _)
      · simp only [gApplied, if_neg hsq] at hbd
        exact Option.noConfusion hbd
    obtain ⟨m2', es, hok, hes, hbs⟩ := restoreSkills_spec tag
      (restoreMcpM m (gApplied sd fs0 q)) (gApplied sd fs0 q) hsane
    -- the value restored at this agent's native path
    have hval_q : hasDiff q.diff = true → q.fileExists = (fsGet fs0 q.path).isSome →
        fsGet m2'.fs q.path = fsGet fs0 q.path := by
      intro hdq hflag
      have hstep : fsGet (restoreMcpM m (gApplied sd fs0 q)).fs q.path
          = fsGet fs0 q.path := by
        rcases hg : fsGet fs0 q.path with _ | F
        · have hbpn : (gApplied sd fs0 q).mcpBackupPath = none := by
            simp [gApplied, hg]
          have hnb : (gApplied sd fs0 q).mcpExistedBefore = false := by
            rw [hg] at hflag
            exact hflag
          exact restoreMcp_val_none (a := gApplied sd fs0 q) hdq hbpn hnb
        · have hbps : (gApplied sd fs0 q).mcpBackupPath = some (bpPath sd q) := by
            simp [gApplied, hdq, hg]
          have hget : fsGet m.fs (bpPath sd q) = some F := by
            rw [hm_bp q (List.mem_cons_self _ _) hdq (by rw [hg]; rfl), hg]
          exact restoreMcp_val (a := gApplied sd fs0 q) hdq hbps hget
      have hfr : fsGet m2'.fs q.path
          = fsGet (restoreMcpM m (gApplied sd fs0 q)).fs q.path := by
        refine MExt_fsGet_frame hes _ ?_
        intro op hop hmem
        obtain ⟨f, hf⟩ := hbs op hop _ hmem
        exact ne_join_of_strUnderEq_false hq4 f hf
      rw [hfr, hstep]
    -- the hypotheses of the induction for the remaining agents
    have hfr_snap : ∀ x, strUnderEq sd x = true → fsGet m2'.fs x = fsGet m.fs x := by
      intro x hx
      have h1 : fsGet m2'.fs x = fsGet (restoreMcpM m (gApplied sd fs0 q)).fs x := by
        refine MExt_fsGet_frame hes _ ?_
        intro op hop hmem
        obtain ⟨f, hf⟩ := hbs op hop _ hmem
        exact ne_of_under_tf hx (not_strUnderEq_of_dirsDisjoint hq3 f) hf
      have h2 : fsGet (restoreMcpM m (gApplied sd fs0 q)).fs x = fsGet m.fs x := by
        refine MExt_fsGet_frame hea _ ?_
        intro op hop hmem
        exact ne_of_under_tf hx hq1 (hba op hop _ hmem)
      rw [h1, h2]
    have hm_bp' : ∀ r ∈ rest, hasDiff r.diff = true → (fsGet fs0 r.path).isSome = true →
        fsGet m2'.fs (bpPath sd r) = fsGet fs0 r.path := by
      intro r hr hdr hsr
      have hu : strUnderEq sd (bpPath sd r) = true := strUnderEq_join_true sd _
      rw [hfr_snap (bpPath sd r) hu]
      exact hm_bp r (List.mem_cons_of_mem _ hr) hdr hsr
    have hm_bmp' : ∀ r ∈ rest, hasDiff r.skillsDiff = true →
        fsGet m2'.fs (bmpPath sd r) = fsGet fs0 (mpPath r) := by
      intro r hr hsr
      have hu : strUnderEq sd (bmpPath sd r) = true := by
        rw [bmpPath_eq]
        exact strUnderEq_join_true sd _
      rw [hfr_snap _ hu]
      exact hm_bmp r (List.mem_cons_of_mem _ hr) hsr
    obtain ⟨m2, e2, hok2, he2, hb2, hval2⟩ := ih m2'
      (fun r hr => hself r (List.mem_cons_of_mem _ hr)) hpair_rest hm_bp' hm_bmp'
      (fun r hr => hsane0 r (List.mem_cons_of_mem _ hr))
    refine ⟨m2, ea ++ (es ++ e2), ?_, ?_, ?_, ?_⟩
    · simp only [List.map, rollbackLoopM, hok]
      exact hok2
    · exact MExt_trans hea (MExt_trans hes he2)
    · intro op hop x hx
      rcases List.mem_append.mp hop with hop | hop
      · exact ⟨q, List.mem_cons_self _ _, Or.inl (hba op hop x hx)⟩
      rcases List.mem_append.mp hop with hop | hop
      · exact ⟨q, List.mem_cons_self _ _, Or.inr (hbs op hop x hx)⟩
      · obtain ⟨r, hr, hw⟩ := hb2 op hop x hx
        exact ⟨r, List.mem_cons_of_mem _ hr, hw⟩
    · intro r hr hdr hflag
      rcases List.mem_cons.mp hr with rfl | hr
      · have hfr : fsGet m2.fs r.path = fsGet m2'.fs r.path := by
          refine MExt_fsGet_frame he2 _ ?_
          intro op hop hmem
          obtain ⟨r', hr', hw⟩ := hb2 op hop _ hmem
          obtain ⟨hp1, _, _, _, hp5, _, _, _, _, _⟩ := planPairSep_spec (hpair_q r' hr')
          rcases hw with hw | ⟨f, hw⟩
          · exact Ne.symm hp1 (hw.symm ▸ rfl)
          · exact ne_join_of_strUnderEq_false hp5 f (hw ▸ rfl)
        rw [hfr]
        exact hval_q hdr hflag
      · exact hval2 r hr hdr hflag

/-- C1: Round-trip sync/rollback. For a deployment whose native config
paths and skills directories are separated from the snapshot directory and
from each other (`planSelfSep`/`planPairSep`), whose pre-sync file map is
clean under the snapshot directory and holds sane skills manifests, and
for every agent plan with a non-empty server diff whose `fileExists` flag
matches the pre-sync state: running `applyPlan` and then
`rollbackSnapshot` on the produced snapshot succeeds and restores the
agent's native config file to its exact pre-sync content — in particular,
if the file did not exist before the sync it does not exist after the
rollback. -/
theorem sync_rollback_roundtrip
    (root id createdAt tag : String) (plans : List AgentPlan)
    (fs0 : List (String × FData)) (tr0 : List FsOp)
    (hclean : ∀ e ∈ fs0, strUnderEq (pathJoin root id) e.1 = false)
    (hself : ∀ q ∈ plans, planSelfSep (pathJoin root id) tag q = true)
    (hpair : List.Pairwise (fun q r => planPairSep tag q r = true) plans)
    (hsane : ∀ q ∈ plans, saneData (fsGet fs0 (getManifestPath q.skillsDir)) = true)
    (p : AgentPlan) (hp : p ∈ plans) (hdiff : hasDiff p.diff = true)
    (hflag : p.fileExists = (fsGet fs0 p.path).isSome) :
    ∃ m2 targets,
      rollbackSnapshotM root id none tag
        (applyPlanM root id createdAt tag plans ⟨fs0, tr0⟩).1 = .ok (m2, targets)
      ∧ fsGet m2.fs p.path = fsGet fs0 p.path := by
  set sd := pathJoin root id with hsd
  set mA := stepM (⟨fs0, tr0⟩ : Machine) (.mkdirOp sd) with hmA
  have hA_path : ∀ q ∈ plans, fsGet mA.fs q.path = fsGet fs0 q.path := by
    intro q hq
    obtain ⟨hq1, _, _, _, _, _, _, _⟩ := planSelfSep_spec (hself q hq)
    rw [hmA]
    show fsGet (applyOp fs0 (.mkdirOp sd)) q.path = fsGet fs0 q.path
    refine fsGet_applyOp_not_mem _ _ _ ?_
    intro hmem
    exact ne_of_strUnderEq_false hq1 (List.mem_singleton.mp hmem)
  have hA_mp : ∀ q ∈ plans, fsGet mA.fs (mpPath q) = fsGet fs0 (mpPath q) := by
    intro q hq
    obtain ⟨_, _, hq3, _, _, _, _, _⟩ := planSelfSep_spec (hself q hq)
    rw [hmA]
    show fsGet (applyOp fs0 (.mkdirOp sd)) (mpPath q) = fsGet fs0 (mpPath q)
    refine fsGet_applyOp_not_mem _ _ _ ?_
    intro hmem
    exact dirsDisjoint_join_ne hq3 ".uac-skills-manifest.json"
      (List.mem_singleton.mp hmem)
  have hA_bmp : ∀ q ∈ plans, fsGet mA.fs (bmpPath sd q) = none := by
    intro q hq
    have h1 : fsGet mA.fs (bmpPath sd q) = fsGet fs0 (bmpPath sd q) := by
      rw [hmA]
      show fsGet (applyOp fs0 (.mkdirOp sd)) (bmpPath sd q) = fsGet fs0 (bmpPath sd q)
      refine fsGet_applyOp_not_mem _ _ _ ?_
      intro hmem
      have := List.mem_singleton.mp hmem
      rw [bmpPath_eq] at this
      exact pathJoin_ne_self sd _ this
    rw [h1]
    refine fsGet_none_of_clean hclean ?_
    rw [bmpPath_eq]
    exact strUnderEq_join_true sd _
  obtain ⟨extL, heL, hbL, hmap, hbpL, hbmpL⟩ :=
    applyLoop_spec sd tag fs0 plans mA hself hpair hA_path hA_mp hA_bmp
  set mB := (applyLoopM tag sd plans mA).1 with hmB
  set applied := (applyLoopM tag sd plans mA).2 with happlied
  set mF := stepM mB (.writeDirect (pathJoin sd "meta.json")
    (.metaData ⟨id, createdAt, applied⟩)) with hmF
  have happ1 : (applyPlanM root id createdAt tag plans ⟨fs0, tr0⟩).1 = mF := rfl
  have hF_bp : ∀ q ∈ plans, hasDiff q.diff = true → (fsGet fs0 q.path).isSome = true →
      fsGet mF.fs (bpPath sd q) = fsGet fs0 q.path := by
    intro q hq hd hs
    obtain ⟨_, _, _, _, _, hq6, _, _⟩ := planSelfSep_spec (hself q hq)
    have hfr : fsGet mF.fs (bpPath sd q) = fsGet mB.fs (bpPath sd q) := by
      rw [hmF]
      show fsGet (applyOp mB.fs (.writeDirect (pathJoin sd "meta.json")
        (.metaData ⟨id, createdAt, applied⟩))) (bpPath sd q) = _
      refine fsGet_applyOp_not_mem _ _ _ ?_
      intro hmem
      exact metaPath_ne_bp hq6 (List.mem_singleton.mp hmem).symm
    rw [hfr]
    exact hbpL q hq hd hs
  have hF_bmp : ∀ q ∈ plans, hasDiff q.skillsDiff = true →
      fsGet mF.fs (bmpPath sd q) = fsGet fs0 (mpPath q) := by
    intro q hq hsq
    have hfr : fsGet mF.fs (bmpPath sd q) = fsGet mB.fs (bmpPath sd q) := by
      rw [hmF]
      show fsGet (applyOp mB.fs (.writeDirect (pathJoin sd "meta.json")
        (.metaData ⟨id, createdAt, applied⟩))) (bmpPath sd q) = _
      refine fsGet_applyOp_not_mem _ _ _ ?_
      intro hmem
      exact metaPath_ne_bmp sd q (List.mem_singleton.mp hmem).symm
    rw [hfr]
    exact hbmpL q hq hsq
  have hmetaF : fsGet mF.fs (pathJoin sd "meta.json")
      = some (.metaData ⟨id, createdAt, applied⟩) := by
    rw [hmF]
    show fsGet (fsSet mB.fs (pathJoin sd "meta.json")
      (.metaData ⟨id, createdAt, applied⟩)) (pathJoin sd "meta.json") = _
    exact fsGet_fsSet_self _ _ _
  obtain ⟨m2, ext2, hok, he2, hb2, hval⟩ :=
    rollbackLoop_spec sd tag fs0 plans mF hself hpair hF_bp hF_bmp hsane
  refine ⟨m2, plans.map (gApplied sd fs0), ?_, hval p hp hdiff hflag⟩
  rw [happ1]
  simp only [rollbackSnapshotM, ← hsd, hmetaF, parseMetaData, List.filter_true]
  rw [hmap, hok]

/-- A concrete adapter used to instantiate the engine theorems. -/
def wAdapter : AdapterM :=
  { agent := .codex
    resolvePathM := fun _ m => ("/home/u/.codex/config.toml", m)
    parse := fun s => .ok (.str s)
    createEmpty := .obj []
    extractServers := fun _ => []
    withServers := fun d _ => d
    normalizeServer := fun _ _ => .ok (.obj [])
    format := fun _ => "serialized" }

/-- A concrete agent plan used to instantiate the engine theorems. -/
def wPlan : AgentPlan :=
  { agent := .codex
    path := "/home/u/.codex/config.toml"
    adapter := wAdapter
    targetConfig := {}
    fileExists := true
    currentData := .obj []
    currentServers := []
    desiredServers := [("s1", .str "v")]
    diff := { added := ["s1"], removed := [], changed := [], unchanged := 0 }
    skillsDir := "/home/u/.codex/skills"
    currentSkills := [("sk1", { fileName := "sk1.md", content := "old" })]
    desiredSkills := [("sk1", { fileName := "sk1.md", content := "new" })]
    skillsDiff := { added := [], removed := [], changed := ["sk1"], unchanged := 0 }
    skillsManifestExists := true }

/-- A concrete pre-sync file map used to instantiate the engine theorems. -/
def wFs0 : List (String × FData) :=
  [("/home/u/.codex/config.toml", .text "oldconf"),
   ("/home/u/.codex/skills/.uac-skills-manifest.json",
     .manifestData ⟨1, [⟨"sk1", "sk1.md"⟩]⟩),
   ("/home/u/.codex/skills/sk1.md", .text "old")]

theorem sync_rollback_roundtrip_witness :
    ∃ m2 targets,
      rollbackSnapshotM "/sr" "snap1" none "t1"
        (applyPlanM "/sr" "snap1" "now" "t1" [wPlan] ⟨wFs0, []⟩).1 = .ok (m2, targets)
      ∧ fsGet m2.fs wPlan.path = fsGet wFs0 wPlan.path :=
  sync_rollback_roundtrip "/sr" "snap1" "now" "t1" [wPlan] wFs0 []
    (by decide) (by decide) (by decide) (by decide)
    wPlan (List.mem_cons_self _ _) (by decide) (by decide)

/-- C6 counterexample: in the run of `applyPlan` on a concrete plan, the
only trace operation that mutates the snapshot's `meta.json` path is a
plain direct write — no temp-write/rename pair ever targets it, so the
`meta.json` write is not atomic, contradicting the spec's "written last,
atomically". -/
theorem meta_write_not_atomic :
    ((applyPlanM "/sr" "snap1" "now" "t1" [wPlan] ⟨wFs0, []⟩).1.trace.filter
        (fun op => (opWrites op).contains
          (pathJoin (pathJoin "/sr" "snap1") "meta.json"))).map
      (fun op => match op with
        | .writeDirect _ _ => "direct"
        | .writeTemp _ _ => "temp"
        | .renameOp _ _ => "rename"
        | .copyOp _ _ => "copy"
        | .removeOp _ => "remove"
        | .mkdirOp _ => "mkdir"
        | .readOp _ => "read") = ["direct"] := by decide

/-- C6 amended: the commit-marker ordering holds — `applyPlan` records the
snapshot's `meta.json` strictly after every per-agent backup, native write
and skills write of the run (it is the last operation of the whole trace),
and `rollbackSnapshot` refuses a snapshot directory without a `meta.json`
with a "Snapshot not found" error; the `meta.json` write itself is however
a plain write, not an atomic temp-write/rename. -/
theorem meta_commit_marker (root id createdAt tag : String) (plans : List AgentPlan)
    (m : Machine) :
    (∃ ops, (applyPlanM root id createdAt tag plans m).1.trace
        = m.trace ++ ops ++ [.writeDirect (pathJoin (pathJoin root id) "meta.json")
            (.metaData ⟨id, createdAt, (applyPlanM root id createdAt tag plans m).2.applied⟩)])
    ∧ (fsGet m.fs (pathJoin (pathJoin root id) "meta.json") = none →
        rollbackSnapshotM root id none tag m
          = .error ("Snapshot not found: " ++ id)) := by
  constructor
  · obtain ⟨extL, heL, _⟩ := MExt_applyLoop tag (pathJoin root id) plans
      (stepM m (.mkdirOp (pathJoin root id)))
    refine ⟨.mkdirOp (pathJoin root id) :: extL, ?_⟩
    have ht : (applyLoopM tag (pathJoin root id) plans
        (stepM m (.mkdirOp (pathJoin root id)))).1.trace
        = (stepM m (.mkdirOp (pathJoin root id))).trace ++ extL := by
      rw [heL]
    show ((applyLoopM tag (pathJoin root id) plans
        (stepM m (.mkdirOp (pathJoin root id)))).1.trace
      ++ [.writeDirect (pathJoin (pathJoin root id) "meta.json") _]) = _
    rw [ht]
    show ((m.trace ++ [.mkdirOp (pathJoin root id)]) ++ extL) ++ _ = _
    simp only [List.append_assoc, List.cons_append, List.nil_append]
    rfl
  · intro h
    simp only [rollbackSnapshotM, h]

theorem meta_commit_marker_witness :
    (∃ ops, (applyPlanM "/sr" "snap1" "now" "t1" [wPlan] ⟨wFs0, []⟩).1.trace
        = ([] : List FsOp) ++ ops
          ++ [.writeDirect (pathJoin (pathJoin "/sr" "snap1") "meta.json")
            (.metaData ⟨"snap1", "now",
              (applyPlanM "/sr" "snap1" "now" "t1" [wPlan] ⟨wFs0, []⟩).2.applied⟩)])
    ∧ rollbackSnapshotM "/sr" "snap1" none "t1" ⟨wFs0, []⟩
        = .error ("Snapshot not found: " ++ "snap1") :=
  ⟨(meta_commit_marker "/sr" "snap1" "now" "t1" [wPlan] ⟨wFs0, []⟩).1,
   (meta_commit_marker "/sr" "snap1" "now" "t1" [wPlan] ⟨wFs0, []⟩).2 (by decide)⟩

/-- C7 counterexample: in the run of `applyPlan` on a concrete plan, the
snapshot's `meta.json` is created by a file write in the sync path that
never goes through a temp-write/rename — no rename targets the path and
exactly one plain direct write does — so not every file write of the sync
path is atomic. -/
theorem sync_write_not_atomic :
    ((applyPlanM "/sr" "snap1" "now" "t1" [wPlan] ⟨wFs0, []⟩).1.trace.filter
        (fun op => match op with
          | .renameOp _ dst => dst == pathJoin (pathJoin "/sr" "snap1") "meta.json"
          | _ => false)) = []
    ∧ ((applyPlanM "/sr" "snap1" "now" "t1" [wPlan] ⟨wFs0, []⟩).1.trace.filter
        (fun op => match op with
          | .writeDirect pth _ => pth == pathJoin (pathJoin "/sr" "snap1") "meta.json"
          | _ => false)).length = 1 := ⟨by decide, by decide⟩

/-- C7 amended: `writeTextAtomic` — used for the native-config write and
every skills write — writes the full content to a temp file in the same
directory as the target and renames it over the target; the rename is the
sole mutator of the final path in the pair, and after the temp-write alone
(a crash before the rename) the target is completely untouched. The plain
`meta.json` write and the backup copies do not go through this path. -/
theorem atomic_write_correct (tag : String) (m : Machine) (dir f : String) (d : FData) :
    (writeTextAtomicM tag m (pathJoin dir f) d).trace
      = m.trace ++ [.writeTemp (tempName (pathJoin dir f) tag) d,
          .renameOp (tempName (pathJoin dir f) tag) (pathJoin dir f)]
    ∧ tempName (pathJoin dir f) tag = pathJoin dir (f ++ ".tmp-" ++ tag)
    ∧ fsGet (writeTextAtomicM tag m (pathJoin dir f) d).fs (pathJoin dir f) = some d
    ∧ fsGet (applyOp m.fs (.writeTemp (tempName (pathJoin dir f) tag) d)) (pathJoin dir f)
        = fsGet m.fs (pathJoin dir f)
    ∧ ∀ op ∈ [FsOp.writeTemp (tempName (pathJoin dir f) tag) d,
        FsOp.renameOp (tempName (pathJoin dir f) tag) (pathJoin dir f)],
        pathJoin dir f ∈ opWrites op →
          op = .renameOp (tempName (pathJoin dir f) tag) (pathJoin dir f) := by
  have hne : tempName (pathJoin dir f) tag ≠ pathJoin dir f := tempName_ne_self _ _
  refine ⟨?_, tempName_join dir f tag, fsGet_writeTextAtomic_self tag m _ d, ?_, ?_⟩
  · show (m.trace ++ [FsOp.writeTemp (tempName (pathJoin dir f) tag) d])
      ++ [FsOp.renameOp (tempName (pathJoin dir f) tag) (pathJoin dir f)] = _
    simp [List.append_assoc]
  · exact fsGet_fsSet_ne m.fs _ _ d (Ne.symm hne)
  · intro op hop hmem
    rcases List.mem_cons.mp hop with rfl | hop
    · simp only [opWrites, List.mem_singleton] at hmem
      exact absurd hmem.symm hne
    rcases List.mem_cons.mp hop with rfl | hop
    · rfl
    · exact absurd hop (List.not_mem_nil op)

theorem atomic_write_correct_witness :
    (writeTextAtomicM "t9" ⟨[], []⟩ (pathJoin "/d" "file.json") (.text "v")).trace
      = [] ++ [.writeTemp (tempName (pathJoin "/d" "file.json") "t9") (.text "v"),
          .renameOp (tempName (pathJoin "/d" "file.json") "t9") (pathJoin "/d" "file.json")]
    ∧ tempName (pathJoin "/d" "file.json") "t9"
        = pathJoin "/d" ("file.json" ++ ".tmp-" ++ "t9")
    ∧ fsGet (writeTextAtomicM "t9" ⟨[], []⟩ (pathJoin "/d" "file.json") (.text "v")).fs
        (pathJoin "/d" "file.json") = some (.text "v")
    ∧ fsGet (applyOp ([] : List (String × FData))
        (.writeTemp (tempName (pathJoin "/d" "file.json") "t9") (.text "v")))
        (pathJoin "/d" "file.json") = fsGet ([] : List (String × FData)) (pathJoin "/d" "file.json")
    ∧ ∀ op ∈ [FsOp.writeTemp (tempName (pathJoin "/d" "file.json") "t9") (.text "v"),
        FsOp.renameOp (tempName (pathJoin "/d" "file.json") "t9") (pathJoin "/d" "file.json")],
        pathJoin "/d" "file.json" ∈ opWrites op →
          op = .renameOp (tempName (pathJoin "/d" "file.json") "t9") (pathJoin "/d" "file.json") :=
  atomic_write_correct "t9" ⟨[], []⟩ "/d" "file.json" (.text "v")

/-- C9: for every adapter dialect, `load` on a file whose content is empty
or whitespace-only returns `exists: false` with the adapter's empty native
document — exactly the result for a missing file — and the plan's
`fileExists` flag is copied unchanged into the snapshot record's
`mcpExistedBefore`, so it is `false` for such a file. -/
theorem adapter_load_blank (parse : String → Except String JValue) (empty : JValue)
    (s : String) (h : trimChars s = "")
    (tag sd : String) (q : AgentPlan) (m : Machine) (hq : q.fileExists = false) :
    adapterLoad parse empty (some s) = .ok ⟨false, empty⟩
    ∧ adapterLoad parse empty (some s) = adapterLoad parse empty none
    ∧ ((applyStepM tag sd q m).2).mcpExistedBefore = false := by
  refine ⟨?_, ?_, ?_⟩
  · simp [adapterLoad, h]
  · simp [adapterLoad, h]
  · rw [applyStepM_snd]
    exact hq

theorem adapter_load_blank_witness :
    (adapterLoad (fun s => .ok (.str s)) (.obj []) (some "   ") = .ok ⟨false, .obj []⟩
    ∧ adapterLoad (fun s => .ok (.str s)) (.obj []) (some "   ")
        = adapterLoad (fun s => .ok (.str s)) (.obj []) none
    ∧ ((applyStepM "t1" "/sr/snap1" { wPlan with fileExists := false }
        ⟨wFs0, []⟩).2).mcpExistedBefore = false) :=
  adapter_load_blank (fun s => .ok (.str s)) (.obj []) "   " (by decide)
    "t1" "/sr/snap1" { wPlan with fileExists := false } ⟨wFs0, []⟩ (by decide)

/-! ## The planner (`buildPlan` in `src/planner.ts`) -/

/-- The text content of a filesystem entry as `readFile` returns it
(engine-written structured artifacts are modelled opaquely). -/
def fdataText : FData → String
  | .text s => s
  | _ => ""

/-- `AGENTS` from `src/types.ts`. -/
def AGENTS : List AgentName := [.codex, .gemini, .claude, .vscode, .antigravity]

/-- `defaultSkillsOutputDir` from `src/skills.ts`, with `os.homedir()` as a
parameter. -/
def defaultSkillsOutputDir (homedir : String) : AgentName → String
  | .codex => pathJoin (pathJoin (pathJoin homedir ".codex") "skills") "uac-managed"
  | .gemini => pathJoin (pathJoin (pathJoin homedir ".gemini") "skills") "uac-managed"
  | _ => pathJoin (pathJoin (pathJoin homedir ".claude") "skills") "uac-managed"

/-- `resolveSkillsDir` from `src/skills.ts`. -/
def resolveSkillsDir (homedir : String) (agent : AgentName) (target : TargetConfig) : String :=
  target.skillsOutputDir.getD (defaultSkillsOutputDir homedir agent)

/-- `readManagedSkills` from `src/skills.ts`: read the manifest (recording
the read), and when it parses, read every listed skill file; a missing or
blank manifest yields the empty state, an unparseable one throws. -/
def readManagedSkillsM (skillsDir : String) (m : Machine) :
    Except String (Bool × SkillsManifest × List (String × SkillMaterialized)) × Machine :=
  let m1 := stepM m (.readOp (getManifestPath skillsDir))
  match fsGet m.fs (getManifestPath skillsDir) with
  | none => (.ok (false, ⟨1, []⟩, []), m1)
  | some raw =>
    if isBlank raw then (.ok (false, ⟨1, []⟩, []), m1)
    else
      match parseManifestData raw with
      | none =>
        (.error ("Failed to parse skills manifest (" ++ getManifestPath skillsDir ++ ")"), m1)
      | some manifest =>
        let st := manifest.items.foldl
          (fun (acc : List (String × SkillMaterialized) × Machine) it =>
            let p := pathJoin skillsDir it.fileName
            let c := match fsGet acc.2.fs p with
              | some (.text s) => s
              | _ => ""
            (acc.1 ++ [(it.id, ⟨it.fileName, c⟩)], stepM acc.2 (.readOp p)))
          ([], m1)
        (.ok (true, manifest, st.1), st.2)

/-- `path.isAbsolute` (POSIX). -/
def isAbsolute (p : String) : Bool := strStartsWith p "/"

/-- `loadSkillContent` from `src/skills.ts`. -/
def loadSkillContentM (configDir skillId : String) (skill : UnifiedSkill) (m : Machine) :
    Except String String × Machine :=
  match skill.content with
  | some c => (.ok c, m)
  | none =>
    match skill.sourcePath with
    | none =>
      (.error ("Skill \"" ++ skillId ++ "\" requires either \"content\" or \"sourcePath\"."), m)
    | some sp =>
      let sourcePath := if isAbsolute sp then sp else pathJoin configDir sp
      let m1 := stepM m (.readOp sourcePath)
      if fsPathExists m.fs sourcePath then
        (.ok (fdataText ((fsGet m.fs sourcePath).getD (.text ""))),
          stepM m1 (.readOp sourcePath))
      else
        (.error ("Skill \"" ++ skillId ++ "\" source file not found: " ++ sourcePath), m1)

/-- `buildDesiredSkills` from `src/skills.ts`. -/
def buildDesiredSkillsM (items : List (String × UnifiedSkill)) (agent : AgentName)
    (target : TargetConfig) (configDir : String) (m : Machine) :
    Except String (List (String × SkillMaterialized)) × Machine :=
  items.foldl
    (fun (acc : Except String (List (String × SkillMaterialized)) × Machine) p =>
      match acc.1 with
      | .error e => (.error e, acc.2)
      | .ok res =>
        if skillEnabledForAgent p.1 p.2 agent target then
          match loadSkillContentM configDir p.1 p.2 acc.2 with
          | (.error e, m2) => (.error e, m2)
          | (.ok content, m2) =>
            (.ok (res ++ [(p.1, ⟨p.2.fileName.getD (p.1 ++ ".md"), content⟩)]), m2)
        else (.ok res, acc.2))
    (.ok [], m)

/-- The runtime JSON value of a `SkillMaterialized` record, as constructed
by `readManagedSkills` and `buildDesiredSkills`. -/
def skillJ (sk : SkillMaterialized) : JValue :=
  .obj [("fileName", .str sk.fileName), ("content", .str sk.content)]

/-- `UnifiedConfig` as the planner consumes it: each server is given with
its typed view and its runtime JSON value (two views of the same runtime
object). -/
structure UnifiedConfigM where
  servers : List (String × UnifiedMcpServer × JValue) := []
  skillsItems : List (String × UnifiedSkill) := []
  targets : List (AgentName × TargetConfig) := []

/-- `BuildPlanOptions` from `src/planner.ts`. -/
structure BuildPlanOptionsM where
  agents : Option (List AgentName) := none
  configDir : Option String := none
  resolveSecrets : Option Bool := none

/-- `normalizeForAgent` from `src/planner.ts` (pure: the environment is a
function parameter). -/
def normalizeForAgentM (env : String → Option String) (agent : AgentName) (ad : AdapterM)
    (servers : List (String × UnifiedMcpServer × JValue)) (target : TargetConfig)
    (resolveSecrets : Bool) : Except String (List (String × JValue)) :=
  servers.foldl
    (fun acc p =>
      match acc with
      | .error e => .error e
      | .ok res =>
        if serverEnabledForAgent p.1 p.2.1 agent target then
          match resolveServerSecrets env p.1 p.2.2 (!resolveSecrets) with
          | .error e => .error e
          | .ok resolved =>
            match ad.normalizeServer p.1 resolved with
            | .error e => .error e
            | .ok nv => .ok (res ++ [(p.1, nv)])
        else .ok res)
    (.ok [])

/-- The body of one `buildPlan` iteration after the target path has been
resolved: load the native file, compute the desired servers, read the
managed skills state and build the desired skills. -/
def buildPlanRestM (env : String → Option String) (homedir configDir : String)
    (config : UnifiedConfigM) (resolveSecrets : Bool) (ad : AdapterM)
    (targetConfig : TargetConfig) (plans : List AgentPlan)
    (targetPath : String) (m : Machine) :
    Except String (List AgentPlan) × Machine :=
  let ld := stepM m (.readOp targetPath)
  match adapterLoad ad.parse ad.createEmpty ((fsGet m.fs targetPath).map fdataText) with
  | .error e => (.error e, ld)
  | .ok loaded =>
    let currentServers := ad.extractServers loaded.data
    match normalizeForAgentM env ad.agent ad config.servers targetConfig resolveSecrets with
    | .error e => (.error e, ld)
    | .ok desiredServers =>
      let serverDiff := diffServerMaps currentServers desiredServers
      let skillsDir := resolveSkillsDir homedir ad.agent targetConfig
      let rms := readManagedSkillsM skillsDir ld
      match rms.1 with
      | .error e => (.error e, rms.2)
      | .ok st =>
        match buildDesiredSkillsM config.skillsItems ad.agent targetConfig
            configDir rms.2 with
        | (.error e, m2) => (.error e, m2)
        | (.ok desiredSkills, m2) =>
          (.ok (plans ++ [{
              agent := ad.agent
              path := targetPath
              adapter := ad
              targetConfig := targetConfig
              fileExists := loaded.existsFlag
              currentData := loaded.data
              currentServers := currentServers
              desiredServers := desiredServers
              diff := serverDiff
              skillsDir := skillsDir
              currentSkills := st.2.2
              desiredSkills := desiredSkills
              skillsDiff := diffServerMaps
                (st.2.2.map (fun q => (q.1, skillJ q.2)))
                (desiredSkills.map (fun q => (q.1, skillJ q.2)))
              skillsManifestExists := st.1 }]), m2)

/-- One iteration of the `buildPlan` loop for one adapter. -/
def buildPlanStepM (env : String → Option String) (homedir configDir : String)
    (config : UnifiedConfigM) (resolveSecrets : Bool)
    (acc : Except String (List AgentPlan) × Machine) (ad : AdapterM) :
    Except String (List AgentPlan) × Machine :=
  match acc.1 with
  | .error e => (.error e, acc.2)
  | .ok plans =>
    let targetConfig := (config.targets.lookup ad.agent).getD {}
    let rp := ad.resolvePathM targetConfig acc.2
    buildPlanRestM env homedir configDir config resolveSecrets ad targetConfig plans
      rp.1 rp.2

/-- `buildPlan` from `src/planner.ts`: select adapters by the agents
filter, then run the per-adapter loop. -/
def buildPlanM (env : String → Option String) (cwd homedir : String)
    (config : UnifiedConfigM) (options : BuildPlanOptionsM)
    (adapters : List AdapterM) (m : Machine) :
    Except String (List AgentPlan) × Machine :=
  (adapters.filter (fun a => (options.agents.getD AGENTS).contains a.agent)).foldl
    (buildPlanStepM env homedir (options.configDir.getD cwd) config
      (options.resolveSecrets.getD false)) (.ok [], m)

/-! ## The planner performs only reads -/

/-- A batch consisting purely of read records. -/
def ReadOnlyExt (ext : List FsOp) : Prop := ∀ op ∈ ext, ∃ p, op = FsOp.readOp p

theorem runOps_reads (fs : List (String × FData)) (ops : List FsOp)
    (h : ReadOnlyExt ops) : runOps fs ops = fs := by
  induction ops generalizing fs with
  | nil => rfl
  | cons op rest ih =>
    obtain ⟨p, hp⟩ := h op (List.mem_cons_self _ _)
    subst hp
    rw [runOps_cons]
    exact ih fs (fun o ho => h o (List.mem_cons_of_mem _ ho))

theorem ReadOnlyExt_nil : ReadOnlyExt [] :=
  fun op hop => absurd hop (List.not_mem_nil op)

theorem ReadOnlyExt_append {e₁ e₂ : List FsOp} (h₁ : ReadOnlyExt e₁)
    (h₂ : ReadOnlyExt e₂) : ReadOnlyExt (e₁ ++ e₂) := by
  intro op hop
  rcases List.mem_append.mp hop with hop | hop
  · exact h₁ op hop
  · exact h₂ op hop

theorem MExt_foldl_ro {α β : Type} (f : β × Machine → α → β × Machine) (l : List α)
    (hf : ∀ s, ∀ a ∈ l, ∃ ext, MExt s.2 ext (f s a).2 ∧ ReadOnlyExt ext) :
    ∀ s, ∃ ext, MExt s.2 ext (l.foldl f s).2 ∧ ReadOnlyExt ext := by
  induction l with
  | nil => intro s; exact ⟨[], MExt_refl _, ReadOnlyExt_nil⟩
  | cons a rest ih =>
    intro s
    obtain ⟨e1, h1, r1⟩ := hf s a (List.mem_cons_self _ _)
    obtain ⟨e2, h2, r2⟩ :=
      ih (fun s' a' ha' => hf s' a' (List.mem_cons_of_mem _ ha')) (f s a)
    exact ⟨e1 ++ e2, by simpa only [List.foldl_cons] using MExt_trans h1 h2,
      ReadOnlyExt_append r1 r2⟩

theorem readManagedSkillsM_ro (skillsDir : String) (m : Machine) :
    ∃ ext, MExt m ext (readManagedSkillsM skillsDir m).2 ∧ ReadOnlyExt ext := by
  have hstep : MExt m [.readOp (getManifestPath skillsDir)]
      (stepM m (.readOp (getManifestPath skillsDir))) := MExt_step m _
  have hro1 : ReadOnlyExt [FsOp.readOp (getManifestPath skillsDir)] := by
    intro op hop
    rcases List.mem_singleton.mp hop with rfl
    exact ⟨_, rfl⟩
  rcases hraw : fsGet m.fs (getManifestPath skillsDir) with _ | raw
  · refine ⟨[.readOp (getManifestPath skillsDir)], ?_, hro1⟩
    have h2 : (readManagedSkillsM skillsDir m).2
        = stepM m (.readOp (getManifestPath skillsDir)) := by
      simp only [readManagedSkillsM, hraw]
    rw [h2]
    exact hstep
  · by_cases hb : isBlank raw = true
    · refine ⟨[.readOp (getManifestPath skillsDir)], ?_, hro1⟩
      have h2 : (readManagedSkillsM skillsDir m).2
          = stepM m (.readOp (getManifestPath skillsDir)) := by
        simp only [readManagedSkillsM, hraw, hb, if_true]
      rw [h2]
      exact hstep
    · rcases hpm : parseManifestData raw with _ | manifest
      · refine ⟨[.readOp (getManifestPath skillsDir)], ?_, hro1⟩
        have h2 : (readManagedSkillsM skillsDir m).2
            = stepM m (.readOp (getManifestPath skillsDir)) := by
          simp only [readManagedSkillsM, hraw, if_neg hb, hpm]
        rw [h2]
        exact hstep
      · obtain ⟨e2, h2, r2⟩ := MExt_foldl_ro (α := ManifestItem)
          (fun (acc : List (String × SkillMaterialized) × Machine) it =>
            (acc.1 ++ [(it.id,
              { fileName := it.fileName
                content :=
                  match fsGet acc.2.fs (pathJoin skillsDir it.fileName) with
                  | some (.text s) => s
                  | _ => "" })],
             stepM acc.2 (.readOp (pathJoin skillsDir it.fileName))))
          manifest.items
          (by
            intro s it _
            refine ⟨[.readOp (pathJoin skillsDir it.fileName)], MExt_step _ _, ?_⟩
            intro op hop
            rcases List.mem_singleton.mp hop with rfl
            exact ⟨_, rfl⟩)
          ([], stepM m (.readOp (getManifestPath skillsDir)))
        refine ⟨.readOp (getManifestPath skillsDir) :: e2, ?_, ?_⟩
        · have hm2 : (readManagedSkillsM skillsDir m).2
              = (manifest.items.foldl
                (fun (acc : List (String × SkillMaterialized) × Machine) it =>
                  (acc.1 ++ [(it.id, ⟨it.fileName,
                    match fsGet acc.2.fs (pathJoin skillsDir it.fileName) with
                    | some (.text s) => s
                    | _ => ""⟩)],
                   stepM acc.2 (.readOp (pathJoin skillsDir it.fileName))))
                ([], stepM m (.readOp (getManifestPath skillsDir)))).2 := by
            simp only [readManagedSkillsM, hraw, if_neg hb, hpm]
          rw [hm2]
          simpa using MExt_trans hstep h2
        · intro op hop
          rcases List.mem_cons.mp hop with rfl | hop
          · exact ⟨_, rfl⟩
          · exact r2 op hop

theorem loadSkillContentM_ro (configDir skillId : String) (skill : UnifiedSkill)
    (m : Machine) :
    ∃ ext, MExt m ext (loadSkillContentM configDir skillId skill m).2
      ∧ ReadOnlyExt ext := by
  rcases hc : skill.content with _ | c
  · rcases hs : skill.sourcePath with _ | sp
    · refine ⟨[], ?_, ReadOnlyExt_nil⟩
      have h2 : (loadSkillContentM configDir skillId skill m).2 = m := by
        simp only [loadSkillContentM, hc, hs]
      rw [h2]
      exact MExt_refl m
    · by_cases hex : fsPathExists m.fs
          (if isAbsolute sp then sp else pathJoin configDir sp) = true
      · refine ⟨[.readOp (if isAbsolute sp then sp else pathJoin configDir sp),
          .readOp (if isAbsolute sp then sp else pathJoin configDir sp)], ?_, ?_⟩
        · have h2 : (loadSkillContentM configDir skillId skill m).2
              = stepM (stepM m (.readOp (if isAbsolute sp then sp
                  else pathJoin configDir sp)))
                (.readOp (if isAbsolute sp then sp else pathJoin configDir sp)) := by
            simp only [loadSkillContentM, hc, hs, hex, if_true]
          rw [h2]
          exact MExt_trans (MExt_step m _) (MExt_step _ _)
        · intro op hop
          rcases List.mem_cons.mp hop with rfl | hop
          · exact ⟨_, rfl⟩
          rcases List.mem_cons.mp hop with rfl | hop
          · exact ⟨_, rfl⟩
          · exact absurd hop (List.not_mem_nil op)
      · refine ⟨[.readOp (if isAbsolute sp then sp else pathJoin configDir sp)], ?_, ?_⟩
        · have h2 : (loadSkillContentM configDir skillId skill m).2
              = stepM m (.readOp (if isAbsolute sp then sp
                  else pathJoin configDir sp)) := by
            simp only [loadSkillContentM, hc, hs, if_neg hex]
          rw [h2]
          exact MExt_step m _
        · intro op hop
          rcases List.mem_singleton.mp hop with rfl
          exact ⟨_, rfl⟩
  · refine ⟨[], ?_, ReadOnlyExt_nil⟩
    have h2 : (loadSkillContentM configDir skillId skill m).2 = m := by
      simp only [loadSkillContentM, hc]
    rw [h2]
    exact MExt_refl m

theorem buildDesiredSkillsM_ro (items : List (String × UnifiedSkill)) (agent : AgentName)
    (target : TargetConfig) (configDir : String) (m : Machine) :
    ∃ ext, MExt m ext (buildDesiredSkillsM items agent target configDir m).2
      ∧ ReadOnlyExt ext := by
  exact MExt_foldl_ro
    (fun (acc : Except String (List (String × SkillMaterialized)) × Machine) p =>
      match acc.1 with
      | .error e => (.error e, acc.2)
      | .ok res =>
        if skillEnabledForAgent p.1 p.2 agent target then
          match loadSkillContentM configDir p.1 p.2 acc.2 with
          | (.error e, m2) => (.error e, m2)
          | (.ok content, m2) =>
            (.ok (res ++ [(p.1, ⟨p.2.fileName.getD (p.1 ++ ".md"), content⟩)]), m2)
        else (.ok res, acc.2))
    items
    (by
      intro s p _
      rcases hacc : s.1 with e | res
      · refine ⟨[], ?_, ReadOnlyExt_nil⟩
        simp only [hacc]
        exact MExt_refl _
      · by_cases hen : skillEnabledForAgent p.1 p.2 agent target = true
        · obtain ⟨ext, he, hr⟩ := loadSkillContentM_ro configDir p.1 p.2 s.2
          refine ⟨ext, ?_, hr⟩
          simp only [hacc, hen, if_true]
          rcases hl : loadSkillContentM configDir p.1 p.2 s.2 with ⟨r, m2⟩
          rw [hl] at he
          cases r
          · exact he
          · exact he
        · refine ⟨[], ?_, ReadOnlyExt_nil⟩
          simp only [hacc, if_neg hen]
          exact MExt_refl _)
    (.ok [], m)

theorem buildPlanRestM_ro (env : String → Option String) (homedir configDir : String)
    (config : UnifiedConfigM) (rs : Bool) (ad : AdapterM) (tc : TargetConfig)
    (plans : List AgentPlan) (targetPath : String) (m : Machine) :
    ∃ ext, MExt m ext
        (buildPlanRestM env homedir configDir config rs ad tc plans targetPath m).2
      ∧ ReadOnlyExt ext := by
  have hro1 : ReadOnlyExt [FsOp.readOp targetPath] := by
    intro op hop
    rcases List.mem_singleton.mp hop with rfl
    exact ⟨_, rfl⟩
  rcases hload : adapterLoad ad.parse ad.createEmpty
      ((fsGet m.fs targetPath).map fdataText) with e | loaded
  · refine ⟨[.readOp targetPath], ?_, hro1⟩
    have h2 : (buildPlanRestM env homedir configDir config rs ad tc plans targetPath m).2
        = stepM m (.readOp targetPath) := by
      simp only [buildPlanRestM, hload]
    rw [h2]
    exact MExt_step m _
  · rcases hnorm : normalizeForAgentM env ad.agent ad config.servers tc rs with e | ds
    · refine ⟨[.readOp targetPath], ?_, hro1⟩
      have h2 : (buildPlanRestM env homedir configDir config rs ad tc plans targetPath m).2
          = stepM m (.readOp targetPath) := by
        simp only [buildPlanRestM, hload, hnorm]
      rw [h2]
      exact MExt_step m _
    · obtain ⟨e2, h2, r2⟩ := readManagedSkillsM_ro (resolveSkillsDir homedir ad.agent tc)
        (stepM m (.readOp targetPath))
      rcases hrms : (readManagedSkillsM (resolveSkillsDir homedir ad.agent tc)
          (stepM m (.readOp targetPath))).1 with e | st
      · refine ⟨.readOp targetPath :: e2, ?_, ?_⟩
        · have hm2 : (buildPlanRestM env homedir configDir config rs ad tc plans
              targetPath m).2
              = (readManagedSkillsM (resolveSkillsDir homedir ad.agent tc)
                  (stepM m (.readOp targetPath))).2 := by
            simp only [buildPlanRestM, hload, hnorm, hrms]
          rw [hm2]
          simpa using MExt_trans (MExt_step m (.readOp targetPath)) h2
        · intro op hop
          rcases List.mem_cons.mp hop with rfl | hop
          · exact ⟨_, rfl⟩
          · exact r2 op hop
      · obtain ⟨e3, h3, r3⟩ := buildDesiredSkillsM_ro config.skillsItems ad.agent tc
          configDir (readManagedSkillsM (resolveSkillsDir homedir ad.agent tc)
            (stepM m (.readOp targetPath))).2
        rcases hbds : buildDesiredSkillsM config.skillsItems ad.agent tc configDir
            (readManagedSkillsM (resolveSkillsDir homedir ad.agent tc)
              (stepM m (.readOp targetPath))).2 with ⟨r, m2⟩
        refine ⟨.readOp targetPath :: (e2 ++ e3), ?_, ?_⟩
        · have hm2 : (buildPlanRestM env homedir configDir config rs ad tc plans
              targetPath m).2 = m2 := by
            rcases r with e | dsk <;>
              simp only [buildPlanRestM, hload, hnorm, hrms, hbds]
          rw [hm2]
          rw [hbds] at h3
          simpa using MExt_trans (MExt_step m (.readOp targetPath)) (MExt_trans h2 h3)
        · intro op hop
          rcases List.mem_cons.mp hop with rfl | hop
          · exact ⟨_, rfl⟩
          · exact ReadOnlyExt_append r2 r3 op hop

theorem buildPlanStepM_ro (env : String → Option String) (homedir configDir : String)
    (config : UnifiedConfigM) (rs : Bool) (ad : AdapterM)
    (hro : ∀ tc mm, ∃ ext, MExt mm ext ((ad.resolvePathM tc mm).2) ∧ ReadOnlyExt ext)
    (acc : Except String (List AgentPlan) × Machine) :
    ∃ ext, MExt acc.2 ext (buildPlanStepM env homedir configDir config rs acc ad).2
      ∧ ReadOnlyExt ext := by
  rcases hacc : acc.1 with e | plans
  · refine ⟨[], ?_, ReadOnlyExt_nil⟩
    have h2 : (buildPlanStepM env homedir configDir config rs acc ad).2 = acc.2 := by
      simp only [buildPlanStepM, hacc]
    rw [h2]
    exact MExt_refl _
  · obtain ⟨e1, h1, r1⟩ := hro ((config.targets.lookup ad.agent).getD {}) acc.2
    obtain ⟨e2, h2, r2⟩ := buildPlanRestM_ro env homedir configDir config rs ad
      ((config.targets.lookup ad.agent).getD {}) plans
      (ad.resolvePathM ((config.targets.lookup ad.agent).getD {}) acc.2).1
      (ad.resolvePathM ((config.targets.lookup ad.agent).getD {}) acc.2).2
    refine ⟨e1 ++ e2, ?_, ReadOnlyExt_append r1 r2⟩
    have hm2 : (buildPlanStepM env homedir configDir config rs acc ad).2
        = (buildPlanRestM env homedir configDir config rs ad
            ((config.targets.lookup ad.agent).getD {}) plans
            (ad.resolvePathM ((config.targets.lookup ad.agent).getD {}) acc.2).1
            (ad.resolvePathM ((config.targets.lookup ad.agent).getD {}) acc.2).2).2 := by
      simp only [buildPlanStepM, hacc]
    rw [hm2]
    exact MExt_trans h1 h2

/-- C8: the planner is read-only. For every unified config, every choice
of `buildPlan` options, every environment and every adapter set whose
`resolvePath` only reads (true of all five shipped adapters), `buildPlan`
leaves the file map exactly as it found it, and every operation it adds to
the trace is a read record. -/
theorem buildPlan_readonly (env : String → Option String) (cwd homedir : String)
    (config : UnifiedConfigM) (options : BuildPlanOptionsM)
    (adapters : List AdapterM) (m : Machine)
    (hro : ∀ ad ∈ adapters, ∀ tc mm, ∃ ext, MExt mm ext ((ad.resolvePathM tc mm).2)
        ∧ ReadOnlyExt ext) :
    (buildPlanM env cwd homedir config options adapters m).2.fs = m.fs
    ∧ ∃ ext, MExt m ext (buildPlanM env cwd homedir config options adapters m).2
        ∧ ReadOnlyExt ext := by
  obtain ⟨ext, he, hr⟩ := MExt_foldl_ro
    (buildPlanStepM env homedir (options.configDir.getD cwd) config
      (options.resolveSecrets.getD false))
    (adapters.filter (fun a => (options.agents.getD AGENTS).contains a.agent))
    (by
      intro s ad had
      exact buildPlanStepM_ro env homedir (options.configDir.getD cwd) config
        (options.resolveSecrets.getD false) ad
        (hro ad (List.mem_filter.mp had).1) s)
    (.ok [], m)
  refine ⟨?_, ext, he, hr⟩
  have : (buildPlanM env cwd homedir config options adapters m).2
      = ⟨runOps m.fs ext, m.trace ++ ext⟩ := he
  rw [this]
  exact runOps_reads m.fs ext hr

theorem buildPlan_readonly_witness :
    (buildPlanM (fun _ => none) "/cwd" "/home/u" {} {} [wAdapter] ⟨wFs0, []⟩).2.fs = wFs0
    ∧ ∃ ext, MExt ⟨wFs0, []⟩ ext
        (buildPlanM (fun _ => none) "/cwd" "/home/u" {} {} [wAdapter] ⟨wFs0, []⟩).2
        ∧ ReadOnlyExt ext :=
  buildPlan_readonly (fun _ => none) "/cwd" "/home/u" {} {} [wAdapter] ⟨wFs0, []⟩
    (by
      intro ad had tc mm
      rcases List.mem_singleton.mp had with rfl
      exact ⟨[], MExt_refl mm, ReadOnlyExt_nil⟩)
